import Mathlib

/-!
A two-pass SIC assembler (`assembler.cpp`): shallow embedding and verified properties.

Modelling conventions.

* A C++ `string` is a `List Char`; a source file is the list of lines that the
  `getline` loop of `pass_1` reads.
* A call of `error(...)` terminates the process (`exit(0)`); it is the `Except.error`
  outcome carrying the message macro that was passed (`Err.E_NOFST`, ...).  An uncaught
  C++ exception (thrown by `stoi`) is `Err.uncaught_exception`.  Undefined behaviour of
  C++ (signed `int` overflow in an addition of the two passes, a read past the end of a
  string) is `Err.undefined_behaviour`: a run that reaches it is not an accepted run.
* `int` values are `Int`.  The additions of the two passes that can leave the 32-bit
  range are guarded by `int_checked`; the product `3 * stoi(...)` of the constructor is
  taken as the compiled program computes it, modulo `2^32` (`int_wrap`).
* `unordered_map<string,int>` is an association list with unique keys
  (`count` = membership of the key, `operator[]` = value of the key, `0` if absent).
* `type_of_operand` takes one of six string macros `O_NOOPD` ... `O_CHRAR`; they are the
  constructors of `OperandType`.
-/

set_option autoImplicit false

namespace Assembler

/-! ## Errors and warnings -/

/-- Fatal outcomes: the error macros of the source, plus the two abnormal terminations. -/
inductive Err where
  | E_NOFST
  | E_NOSTT
  | E_MPLST
  | E_NOEND
  | E_INVMN (mnemonic : List Char)
  | E_NOOPN
  | E_TWOMN
  | E_RSNOO (opn : List Char)
  | E_MANYO
  | E_SALEX (symbol : List Char)
  | E_STOUT
  | E_WGIDX
  | E_NALNM
  | E_SMFMT
  | E_RWNDM
  | E_WDNDM
  | E_DTERR
  | E_DTOUT
  | E_RSUBO
  | E_DNALW
  | E_INVSY (symbol : List Char)
  | E_ENDOP
  | E_LOCLG
  | E_INTRL
  | uncaught_exception
  | undefined_behaviour
  deriving DecidableEq, Repr

/-- Warning macros the source can raise (`warning(...)` prints and returns; `W_LINBL` is
switched off by `SHOW_W_LINBL 0`). -/
inductive Warn where
  | W_NOSTL
  | W_NOSTO
  | W_NOENO
  deriving DecidableEq, Repr

/-- The six values of `type_of_operand`. -/
inductive OperandType where
  | O_NOOPD
  | O_LABEL
  | O_INDXD
  | O_DECIM
  | O_HEXAD
  | O_CHRAR
  deriving DecidableEq, Repr

/-! ## Characters and integers -/

/-- The quote character. -/
def quote : Char := Char.ofNat 39

/-- The value of a `char` converted to `int` (`char` is signed: bytes 128..255 are negative). -/
def char_to_int (c : Char) : Int :=
  if c.toNat < 128 then (c.toNat : Int) else (c.toNat : Int) - 256

/-- C `isspace` in the "C" locale. -/
def isspace (c : Char) : Bool :=
  c.toNat == 32 || (decide (9 ≤ c.toNat) && decide (c.toNat ≤ 13))

/-- C `isdigit`. -/
def isdigit (c : Char) : Bool :=
  decide (48 ≤ c.toNat) && decide (c.toNat ≤ 57)

/-- C `isalpha` in the "C" locale. -/
def isalpha (c : Char) : Bool :=
  (decide (65 ≤ c.toNat) && decide (c.toNat ≤ 90)) ||
    (decide (97 ≤ c.toNat) && decide (c.toNat ≤ 122))

/-- C `isalnum` in the "C" locale. -/
def isalnum (c : Char) : Bool :=
  isalpha c || isdigit c

/-- An `int` result: outside the 32-bit range the C++ operation has undefined behaviour. -/
def int_checked (x : Int) : Except Err Int :=
  if -2147483648 ≤ x ∧ x ≤ 2147483647 then .ok x else .error .undefined_behaviour

/-- The `int` a 32-bit two's-complement machine holds for the arithmetic result `x`. -/
def int_wrap (x : Int) : Int :=
  (x + 2147483648) % 4294967296 - 2147483648

/-- Value of a character as a digit of `strtol` in the given base. -/
def digit_value (base : Nat) (c : Char) : Option Nat :=
  let n := c.toNat
  let v : Option Nat :=
    if 48 ≤ n ∧ n ≤ 57 then some (n - 48)
    else if 97 ≤ n ∧ n ≤ 122 then some (n - 97 + 10)
    else if 65 ≤ n ∧ n ≤ 90 then some (n - 65 + 10)
    else none
  match v with
  | some d => if d < base then some d else none
  | none => none

/-- The digits `strtol` consumes: the longest prefix of valid digits, as values. -/
def take_digits (base : Nat) : List Char → List Nat
  | [] => []
  | c :: rest =>
    match digit_value base c with
    | some d => d :: take_digits base rest
    | none => []

/-- The optional `0x` / `0X` prefix that `strtol` skips in base 16 (only before a hex digit). -/
def skip_0x (base : Nat) (s : List Char) : List Char :=
  if base = 16 then
    match s with
    | z :: x :: d :: rest =>
      if z.toNat = 48 ∧ (x.toNat = 120 ∨ x.toNat = 88) ∧ (digit_value 16 d).isSome
      then d :: rest else s
    | _ => s
  else s

/-- The number `strtol` returns for a sign and the value of the digits. -/
def signed_value (negative : Bool) (v : Nat) : Int :=
  if negative then -(v : Int) else (v : Int)

/-- `std::stoi(str, NULL, base)`: leading white space, an optional sign, an optional hex
prefix, then digits; `invalid_argument` when there is no digit and `out_of_range` when the
value does not fit an `int` are uncaught exceptions. -/
def stoi (str : List Char) (base : Nat) : Except Err Int :=
  let s1 := str.dropWhile isspace
  let signed : Bool × List Char :=
    match s1 with
    | c :: rest => if c.toNat = 45 then (true, rest) else if c.toNat = 43 then (false, rest)
                   else (false, s1)
    | [] => (false, s1)
  let ds := take_digits base (skip_0x base signed.2)
  if ds.isEmpty then .error .uncaught_exception
  else
    let r : Int := signed_value signed.1 (ds.foldl (fun a d => a * base + d) 0)
    if -2147483648 ≤ r ∧ r ≤ 2147483647 then .ok r else .error .uncaught_exception

/-! ## Hexadecimal conversion

The source repeats one loop (`while(num)` pushing the digit of `num%16`, then `num/=16`)
in `to_hex`, in `text_record::to_string` and in `pass_2`.  C++ `/` and `%` truncate
towards zero (`Int.tdiv`, `Int.tmod`). -/

/-- The character pushed for `next_dig`: `'0'+next_dig` below 10, else `'A'+(next_dig-10)`. -/
def hex_digit_char (next_dig : Int) : Char :=
  if next_dig < 10 then Char.ofNat (48 + next_dig).toNat
  else Char.ofNat (65 + (next_dig - 10)).toNat

/-- The `while(num)` loop, least-significant digit first; `fuel` bounds the iterations. -/
def hex_loop : Nat → Int → List Char → List Char
  | 0, _, q => q
  | fuel + 1, num, q =>
    if num = 0 then q
    else hex_loop fuel (Int.tdiv num 16) (q ++ [hex_digit_char (Int.tmod num 16)])

/-- The digit string the loop leaves for `num` (before padding and reversal).  The
magnitude of `num` shrinks at every iteration, so `num.natAbs` iterations suffice. -/
def hex_digits_rev (num : Int) : List Char :=
  hex_loop num.natAbs num []

/-- The loop `while(q.size()<size) q.push_back('0')`. -/
def pad_zeros (q : List Char) (size : Nat) : List Char :=
  q ++ List.replicate (size - q.length) (Char.ofNat 48)

/-- Source function `to_hex`; the inline copies of the loop use it with their own size. -/
def to_hex (num : Int) (size : Nat) : List Char :=
  (pad_zeros (hex_digits_rev num) size).reverse

/-! ## Tables -/

/-- Source `populate_OPTAB`. -/
def OPTAB : List (List Char × Int) :=
  [("LDA".toList, 0x00), ("LDX".toList, 0x04), ("LDL".toList, 0x08),
   ("STA".toList, 0x0c), ("STX".toList, 0x10), ("STL".toList, 0x14),
   ("LDCH".toList, 0x50), ("STCH".toList, 0x54),
   ("ADD".toList, 0x18), ("SUB".toList, 0x1c), ("MUL".toList, 0x20), ("DIV".toList, 24),
   ("COMP".toList, 0x28),
   ("J".toList, 0x3c), ("JLT".toList, 0x38), ("JEQ".toList, 0x30), ("JGT".toList, 0x34),
   ("JSUB".toList, 0x48), ("RSUB".toList, 0x4c),
   ("TIX".toList, 0x2c),
   ("TD".toList, 0xe0), ("RD".toList, 0xd8), ("WD".toList, 0xdc)]

/-- Source `populate_DIRECTIVES`. -/
def DIRECTIVES : List (List Char × Int) :=
  [("START".toList, 0), ("END".toList, 0), ("BYTE".toList, 0), ("WORD".toList, 0),
   ("RESB".toList, 0), ("RESW".toList, 0)]

/-- The member `count` of `unordered_map`: is the key present. -/
def count (m : List (List Char × Int)) (key : List Char) : Bool :=
  m.any (fun kv => decide (kv.1 = key))

/-- The value stored for a key, if any. -/
def find (m : List (List Char × Int)) (key : List Char) : Option Int :=
  match m with
  | [] => none
  | kv :: rest => if kv.1 = key then some kv.2 else find rest key

/-- Reading `m[key]`: the stored value, a value-initialised `0` for an absent key. -/
def at_key (m : List (List Char × Int)) (key : List Char) : Int :=
  (find m key).getD 0

/-- The member `insert`: adds the pair unless the key is already present. -/
def insert (m : List (List Char × Int)) (key : List Char) (value : Int) :
    List (List Char × Int) :=
  if count m key then m else m ++ [(key, value)]

/-! ## The instruction class -/

/-- Source `class instruction`: one source line and what the passes attach to it. -/
structure instruction where
  instruction_text : List Char
  source_line_number : Nat
  label : List Char
  mnemonic : List Char
  operand : List Char
  has_location : Bool
  location : Int
  size_in_memory : Int
  has_object_code : Bool
  object_code : List Char
  is_comment : Bool
  comment : List Char
  type_of_operand : OperandType
  is_blank : Bool
  deriving DecidableEq, Repr

/-- Source `instruction::is_label_format`: alphanumeric starting with a letter; the
empty string is the internal error. -/
def is_label_format (str : List Char) : Except Err Bool :=
  match str with
  | [] => .error .E_INTRL
  | c :: rest => .ok (isalpha c && rest.all isalnum)

/-- The comment check of the constructor: skip white space; a first other character
that is `.` makes the rest of the line the comment. -/
def comment_scan : List Char → Option (List Char)
  | [] => none
  | c :: rest =>
    if isspace c then comment_scan rest
    else if c ≠ Char.ofNat 46 then none
    else some rest

/-- The parsing loop of the constructor over `words = init ++ [back]`. -/
def split_words : List Char → List (List Char) → List Char → List (List Char)
  | [], init, back => init ++ [back]
  | c :: rest, init, back =>
    if isspace c then
      (if back.length = 0 then split_words rest init back
       else split_words rest (init ++ [back]) [])
    else split_words rest init (back ++ [c])

/-- The loop `while(words.size() && words.back().size()==0) words.pop_back()`. -/
def pop_empty_back (words : List (List Char)) : List (List Char) :=
  (words.reverse.dropWhile (fun w => decide (w.length = 0))).reverse

/-- Is the token a key of `DIRECTIVES` or of `OPTAB`. -/
def is_keyword (w : List Char) : Bool :=
  count DIRECTIVES w || count OPTAB w

/-- The branch on `words.size()` (1, 2, 3, more): label, mnemonic and operand. -/
def parse_words (words : List (List Char)) :
    Except Err (List Char × List Char × List Char) :=
  match words with
  | [] => .ok ([], [], [])
  | [w0] =>
    if count DIRECTIVES w0 then .ok ([], w0, [])
    else if count OPTAB w0 then .ok ([], w0, [])
    else .error (.E_INVMN w0)
  | [w0, w1] =>
    let keyword_matches : Nat :=
      (if is_keyword w0 then 1 else 0) * 10 + (if is_keyword w1 then 1 else 0)
    if keyword_matches = 0 then .error .E_NOOPN
    else if keyword_matches = 11 then .error .E_TWOMN
    else if keyword_matches = 10 then .ok ([], w0, w1)
    else if keyword_matches = 1 then .ok (w0, w1, [])
    else .error .E_INTRL
  | [w0, w1, w2] =>
    if !(count OPTAB w1 || count DIRECTIVES w1) then .error (.E_INVMN w1)
    else .ok (w0, w1, w2)
  | _ => .error .E_MANYO

/-- The block "sanitizing operand and setting type_of_operand" for a non-empty operand. -/
def classify_operand (operand : List Char) : Except Err OperandType :=
  let cnt_commas := operand.countP (fun c => c == Char.ofNat 44)
  let cnt_quotes := operand.countP (fun c => c == quote)
  let len := operand.length
  if cnt_commas ≠ 0 then
    if cnt_commas > 1 then .error .E_SMFMT
    else if len < 2 ∨
        ¬ (operand.getD (len - 2) default = Char.ofNat 44 ∧
           operand.getD (len - 1) default = Char.ofNat 88) then .error .E_WGIDX
    else do
      let ok ← is_label_format (operand.take (len - 2))
      if !ok then .error .E_NALNM else .ok .O_INDXD
  else if cnt_quotes ≠ 0 then
    if len < 4 ∨ ¬ (operand.getD 1 default = quote ∧ operand.getD (len - 1) default = quote)
    then .error .E_SMFMT
    else if operand.getD 0 default = Char.ofNat 88 then
      if operand.any (fun dig =>
          !(isdigit dig || (decide (65 ≤ char_to_int dig) || decide (char_to_int dig ≤ 70))))
      then .error .E_SMFMT
      else .ok .O_HEXAD
    else if operand.getD 0 default = Char.ofNat 67 then
      if cnt_quotes > 2 then .error .E_SMFMT
      else if operand.any (fun x => decide (char_to_int x > 255)) then .error .E_SMFMT
      else if len > 33 then .error .E_STOUT
      else .ok .O_CHRAR
    else .error .E_SMFMT
  else if isdigit (operand.getD 0 default) then
    if operand.any (fun dig => !isdigit dig) then .error .E_NALNM else .ok .O_DECIM
  else do
    let ok ← is_label_format operand
    if !ok then .error .E_NALNM else .ok .O_LABEL

/-- The block "finding the value of instruction's size in memory". -/
def compute_size (mnemonic operand : List Char) (type_of_operand : OperandType) :
    Except Err Int :=
  if count OPTAB mnemonic then .ok 3
  else if mnemonic = "START".toList ∨ mnemonic = "END".toList then .ok 0
  else if operand.length = 0 then .error (.E_RSNOO mnemonic)
  else if mnemonic = "RESW".toList then
    if type_of_operand = .O_HEXAD then do
      let v ← stoi ((operand.drop 2).take (operand.length - 3)) 16
      .ok (int_wrap (3 * v))
    else do
      let v ← stoi operand 10
      .ok (int_wrap (v * 3))
  else if mnemonic = "RESB".toList then
    if type_of_operand = .O_HEXAD then stoi ((operand.drop 2).take (operand.length - 3)) 16
    else stoi operand 10
  else if mnemonic = "WORD".toList then .ok 3
  else if mnemonic = "BYTE".toList then
    if type_of_operand = .O_HEXAD then .ok 1
    else if type_of_operand = .O_CHRAR then .ok ((operand.length : Int) - 3)
    else .ok 1
  else .error .E_INTRL

/-- The member defaults the constructor sets first. -/
def instruction.default (line : List Char) (source_line_number : Nat) : instruction :=
  { instruction_text := line, source_line_number := source_line_number,
    label := [], mnemonic := [], operand := [],
    has_location := false, location := -1, size_in_memory := 0,
    has_object_code := false, object_code := [],
    is_comment := false, comment := [], type_of_operand := .O_NOOPD, is_blank := false }

/-- Source constructor `instruction::instruction(line, source_line_number)`. -/
def instruction.new (line : List Char) (source_line_number : Nat) : Except Err instruction :=
  let ins := instruction.default line source_line_number
  match comment_scan line with
  | some text => .ok { ins with comment := text, is_comment := true }
  | none =>
    let words := pop_empty_back (split_words line [] [])
    if words.length = 0 then .ok { ins with is_blank := true }
    else do
      let lmo ← parse_words words
      let label := lmo.1
      let mnemonic := lmo.2.1
      let operand := lmo.2.2
      let label_ok ← (if label.length ≠ 0 then is_label_format label else .ok true)
      if !label_ok then .error .E_NALNM
      else do
        let type_of_operand ←
          (if operand.length ≠ 0 then classify_operand operand else .ok .O_NOOPD)
        let size_in_memory ← compute_size mnemonic operand type_of_operand
        .ok { ins with label := label, mnemonic := mnemonic, operand := operand,
                       type_of_operand := type_of_operand,
                       size_in_memory := size_in_memory }

/-- Macro `INDENT`. -/
def INDENT : List Char := [Char.ofNat 9, Char.ofNat 9]

/-- Macro `PRG_DFLTN`. -/
def PRG_DFLTN : List Char := "UNTITL".toList

/-- Source `instruction::to_string`: the line written to the intermediate file and the
listing; a location of `2<<15` or more is the fatal `E_LOCLG`. -/
def instruction.to_string (ins : instruction) : Except Err (List Char) :=
  if ins.is_blank then .ok [Char.ofNat 10]
  else if ins.is_comment then .ok ([Char.ofNat 46] ++ INDENT ++ ins.comment ++ [Char.ofNat 10])
  else do
    let loc_str ←
      (if ins.has_location ∧ ins.location ≥ 0 then
        (if ins.location ≥ 65536 then .error .E_LOCLG else .ok (to_hex ins.location 4))
       else .ok "None".toList)
    .ok ("Loc-".toList ++ loc_str ++ INDENT ++ ins.label ++ INDENT ++ ins.mnemonic ++ INDENT
          ++ ins.operand ++ [Char.ofNat 10])

/-- Source `class text_record`. -/
structure text_record where
  total_length : Nat
  starting_address : Int
  records : List (List Char)
  deriving DecidableEq, Repr

/-- Source constructor `text_record::text_record(str_addr)`. -/
def text_record.new (str_addr : Int) : text_record :=
  { total_length := 0, starting_address := str_addr, records := [] }

/-- Source `text_record::insert`. -/
def text_record.insert (tr : text_record) (object_code : List Char) : text_record :=
  { tr with total_length := tr.total_length + object_code.length,
            records := tr.records ++ [object_code] }

/-- Source `text_record::to_string`. -/
def text_record.to_string (tr : text_record) : List Char :=
  [Char.ofNat 84] ++ [Char.ofNat 94] ++ to_hex tr.starting_address 6
    ++ [Char.ofNat 94] ++ to_hex ((tr.total_length / 2 : Nat) : Int) 2
    ++ (tr.records.map (fun object_code => Char.ofNat 94 :: object_code)).flatten

/-! ## Global state -/

/-- The global variables of the source that the passes read and write, the three output
files, and the records `pass_2` builds for the object program. -/
structure Globals where
  program : List instruction
  SYMTAB : List (List Char × Int)
  program_starting_address : Int
  first_executable_instruction : Int
  length_of_program : Int
  program_name : List Char
  warnings : List Warn
  intermediate_file : List Char
  assembly_listing : List Char
  header_record : List Char
  text_records : List text_record
  end_record : List Char
  object_program : List Char
  deriving DecidableEq, Repr

/-! ## Pass 1 -/

/-- The reading loop of `pass_1`: one `instruction` per line, numbered from 1. -/
def read_program : List (List Char) → Nat → Except Err (List instruction)
  | [], _ => .ok []
  | line :: rest, source_line_number => do
    let ins ← instruction.new line source_line_number
    let tail ← read_program rest (source_line_number + 1)
    .ok (ins :: tail)

/-- The loop "deal with start instruction": index of the first `START`; a non-empty
mnemonic before it is `E_NOFST`, no `START` at all is `E_NOSTT`. -/
def find_start : List instruction → Nat → Except Err Nat
  | [], _ => .error .E_NOSTT
  | ins :: rest, line_number =>
    if ins.mnemonic = "START".toList then .ok line_number
    else if ins.mnemonic ≠ [] then .error .E_NOFST
    else find_start rest (line_number + 1)

/-- The loop "deal with end instruction": index of the first `END`, else `E_NOEND`. -/
def find_end : List instruction → Nat → Except Err Nat
  | [], _ => .error .E_NOEND
  | ins :: rest, line_number =>
    if ins.mnemonic = "END".toList then .ok line_number
    else find_end rest (line_number + 1)

/-- The loop "set the location of every instruction" from index `idx` on; `start_idx` is
the position of `start_ins`.  Returns the program, the location counter and `SYMTAB`. -/
def assign_locations (start_idx : Nat) :
    List instruction → Nat → Int → List (List Char × Int) →
      Except Err (List instruction × Int × List (List Char × Int))
  | [], _, location_counter, symtab => .ok ([], location_counter, symtab)
  | ins :: rest, idx, location_counter, symtab =>
    if ins.mnemonic = "START".toList ∧ idx ≠ start_idx then .error .E_MPLST
    else if ins.mnemonic = "END".toList then .ok (ins :: rest, location_counter, symtab)
    else if ins.size_in_memory ≠ 0 ∨ ins.mnemonic = "START".toList then
      let ins1 := { ins with location := location_counter, has_location := true }
      do
        let symtab1 ←
          (if ins1.label.length ≠ 0 then
            (if count symtab ins1.label then .error (.E_SALEX ins1.label)
             else .ok (insert symtab ins1.label ins1.location))
           else .ok symtab)
        let location_counter1 ← int_checked (location_counter + ins1.size_in_memory)
        let r ← assign_locations start_idx rest (idx + 1) location_counter1 symtab1
        .ok (ins1 :: r.1, r.2)
    else do
      let r ← assign_locations start_idx rest (idx + 1) location_counter symtab
      .ok (ins :: r.1, r.2)

/-- The writing loop: `to_string` of every instruction, concatenated. -/
def write_all : List instruction → Except Err (List Char)
  | [] => .ok []
  | ins :: rest => do
    let s ← ins.to_string
    let t ← write_all rest
    .ok (s ++ t)

/-- The defaults `pass_1` writes into `start_ins`: the label `PRG_DFLTN` for an empty
label, then the operand `0` for an empty operand. -/
def default_start (start_ins : instruction) : instruction :=
  let s1 := if start_ins.label = [] then { start_ins with label := PRG_DFLTN } else start_ins
  if s1.operand = [] then { s1 with operand := "0".toList } else s1

/-- The warnings raised with the defaults of `start_ins`. -/
def start_warnings (start_ins : instruction) : List Warn :=
  (if start_ins.label = [] then [Warn.W_NOSTL] else [])
    ++ (if start_ins.operand = [] then [Warn.W_NOSTO] else [])

/-- The default `pass_1` writes into `end_ins`: the label of `start_ins` for an empty
operand. -/
def default_end (start_label : List Char) (end_ins : instruction) : instruction :=
  if end_ins.operand = [] then { end_ins with operand := start_label } else end_ins

/-- Source `pass_1`, on the lines of the input file; `SYMTAB` starts empty
(`populate_SYMTAB`). -/
def pass_1 (lines : List (List Char)) : Except Err Globals := do
  let program ← read_program lines 1
  -- deal with start instruction
  let start_idx ← find_start program 0
  let start_ins0 := program.getD start_idx (instruction.default [] 0)
  let start_ins := default_start start_ins0
  let program1 := program.set start_idx start_ins
  let program_starting_address ← stoi start_ins.operand 16
  let program_name := start_ins.label
  -- deal with end instruction
  let end_idx ← find_end program1 0
  let end_ins0 := program1.getD end_idx (instruction.default [] 0)
  let end_ins := default_end start_ins.label end_ins0
  let program2 := program1.set end_idx end_ins
  -- set the location of every instruction
  let r ← assign_locations start_idx program2 0 program_starting_address []
  -- set the value of program length
  let length_of_program ← int_checked (r.2.1 - program_starting_address)
  -- writing back to the intermediate file
  let intermediate_file ← write_all r.1
  .ok { program := r.1, SYMTAB := r.2.2,
        program_starting_address := program_starting_address,
        first_executable_instruction := 0,
        length_of_program := length_of_program,
        program_name := program_name,
        warnings := start_warnings start_ins0
          ++ (if end_ins0.operand = [] then [Warn.W_NOENO] else []),
        intermediate_file := intermediate_file,
        assembly_listing := [], header_record := [], text_records := [], end_record := [],
        object_program := [] }

/-! ## Pass 2 -/

/-- The statement `if(data_hex.size()%2) data_hex.push_back('0')`. -/
def pad_even (data_hex : List Char) : List Char :=
  if data_hex.length % 2 ≠ 0 then data_hex ++ [Char.ofNat 48] else data_hex

/-- The local `max_data_size` of `pass_2`: 3 for `WORD`, else 1. -/
def max_data_size (mnemonic : List Char) : Nat :=
  if mnemonic = "WORD".toList then 3 else 1

/-- What `pass_2` adds for an indexed operand: `1<<15`. -/
def indexed_summand (ins : instruction) : Int :=
  if ins.type_of_operand = .O_INDXD then 32768 else 0

/-- The two characters `pass_2` appends for one character of a character array: the
digit loop on its code, a `0` pushed when the digit count is odd, reversed, then
`data_hex[0]` and `data_hex[1]` (a read past the end when the code is 0). -/
def encode_char (c : Char) : Except Err (List Char) :=
  let data_hex := (pad_even (hex_digits_rev (char_to_int c))).reverse
  match data_hex with
  | d0 :: d1 :: _ => .ok [d0, d1]
  | _ => .error .undefined_behaviour

/-- The loop over the content characters of a character array (indices `2 .. size-2`). -/
def encode_chars : List Char → Except Err (List Char)
  | [] => .ok []
  | c :: rest => do
    let h ← encode_char c
    let t ← encode_chars rest
    .ok (h ++ t)

/-- The local `final_opd` of `pass_2`: the operand, without its last two characters
(`,X`) when it is indexed. -/
def final_opd (ins : instruction) : List Char :=
  if ins.type_of_operand = .O_INDXD then ins.operand.take (ins.operand.length - 2)
  else ins.operand

/-- The body of the main loop of `pass_2` for an instruction that is not `START`, `END`,
a comment or a blank line: structural checks and the object code. -/
def encode_instruction (symtab : List (List Char × Int)) (ins : instruction) :
    Except Err instruction :=
  if ins.mnemonic = "RESW".toList ∨ ins.mnemonic = "RESB".toList then
    if ins.type_of_operand ≠ .O_DECIM ∧ ins.type_of_operand ≠ .O_HEXAD then .error .E_RWNDM
    else .ok ins
  else if count DIRECTIVES ins.mnemonic then
    let otyp := ins.type_of_operand
    if ins.mnemonic = "WORD".toList ∧ otyp ≠ .O_DECIM then .error .E_WDNDM
    else if otyp ≠ .O_DECIM ∧ (otyp ≠ .O_HEXAD ∧ otyp ≠ .O_CHRAR) then .error .E_DTERR
    else if otyp = .O_DECIM then do
      let data_decimal ← stoi ins.operand 10
      if data_decimal > ((2 ^ (8 * max_data_size ins.mnemonic) : Nat) : Int) - 1
      then .error .E_DTOUT
      else .ok { ins with has_object_code := true,
                          object_code := to_hex data_decimal (2 * max_data_size ins.mnemonic) }
    else if otyp = .O_HEXAD then
      let content := ((ins.operand.drop 2).take (ins.operand.length - 3)).reverse
      let data_hex := (pad_even content).reverse
      if data_hex.length ≠ 2 then .error .E_DTOUT
      else .ok { ins with has_object_code := true, object_code := data_hex }
    else if otyp = .O_CHRAR then do
      let content := (ins.operand.drop 2).take (ins.operand.length - 3)
      let code ← encode_chars content
      .ok { ins with object_code := ins.object_code ++ code,
                     has_object_code := ins.has_object_code || !content.isEmpty }
    else .error .E_DTERR
  else if ins.mnemonic = "RSUB".toList then
    if ins.operand.length ≠ 0 then .error .E_RSUBO
    else .ok { ins with object_code := "4C0000".toList, has_object_code := true }
  else
    if ins.type_of_operand ≠ .O_LABEL ∧ ins.type_of_operand ≠ .O_INDXD then .error .E_DNALW
    else
      let data_decimal1 : Int := at_key OPTAB ins.mnemonic * 65536 + indexed_summand ins
      if !count symtab (final_opd ins) then .error (.E_INVSY (final_opd ins))
      else do
        let data_decimal ← int_checked (data_decimal1 + at_key symtab (final_opd ins))
        let data_hex := hex_digits_rev data_decimal
        if data_hex.length > 6 then .error .E_INTRL
        else .ok { ins with object_code := (pad_zeros data_hex 6).reverse,
                            has_object_code := true }

/-- The main loop of `pass_2`: object code of every instruction up to the first `END`,
where `first_executable_instruction` is set and the loop stops.  Returns the program and
`first_executable_instruction` (`fei` is its value on entry). -/
def encode_program (symtab : List (List Char × Int)) :
    List instruction → Int → Except Err (List instruction × Int)
  | [], fei => .ok ([], fei)
  | ins :: rest, fei =>
    if ins.mnemonic = "START".toList ∨ (ins.is_comment ∨ ins.is_blank) then do
      let r ← encode_program symtab rest fei
      .ok (ins :: r.1, r.2)
    else if ins.mnemonic = "END".toList then
      if ins.type_of_operand ≠ .O_LABEL then .error .E_ENDOP
      else if !count symtab ins.operand then .error (.E_INVSY ins.operand)
      else .ok (ins :: rest, at_key symtab ins.operand)
    else do
      let ins1 ← encode_instruction symtab ins
      let r ← encode_program symtab rest fei
      .ok (ins1 :: r.1, r.2)

/-- The loop writing the assembly listing (after its heading). -/
def write_listing : List instruction → Except Err (List Char)
  | [] => .ok []
  | ins :: rest => do
    let s ← ins.to_string
    let t ← write_listing rest
    .ok (ins.object_code ++ INDENT ++ s ++ t)

/-- The local variables of the loop "generating the object code records". -/
structure Records where
  header_record : List Char
  insert_new : Bool
  text_records : List text_record
  end_record : List Char
  deriving DecidableEq, Repr

/-- The header record appended at `START`. -/
def make_header (program_name : List Char) (program_starting_address length_of_program : Int) :
    List Char :=
  [Char.ofNat 72, Char.ofNat 94]
    ++ (List.range 6).map (fun i => if i < program_name.length
                                     then program_name.getD i (Char.ofNat 32)
                                     else Char.ofNat 32)
    ++ [Char.ofNat 94] ++ to_hex program_starting_address 6
    ++ [Char.ofNat 94] ++ to_hex length_of_program 6

/-- The end record appended at `END`. -/
def make_end (first_executable_instruction : Int) : List Char :=
  [Char.ofNat 69, Char.ofNat 94] ++ to_hex first_executable_instruction 6

/-- The loop "generating the object code records" of `pass_2`.  `text_records.back()` on
an empty vector is undefined behaviour. -/
def generate_records (g : Globals) : List instruction → Records → Except Err Records
  | [], st => .ok st
  | ins :: rest, st =>
    if ins.is_comment ∨ ins.is_blank then generate_records g rest st
    else if ins.mnemonic = "START".toList then
      generate_records g rest
        { st with header_record := st.header_record ++
            make_header g.program_name g.program_starting_address g.length_of_program }
    else if ins.mnemonic = "END".toList then
      .ok { st with end_record := st.end_record ++ make_end g.first_executable_instruction }
    else if ins.mnemonic = "RESW".toList ∨ ins.mnemonic = "RESB".toList then
      generate_records g rest { st with insert_new := true }
    else if st.insert_new then
      generate_records g rest
        { st with text_records :=
                    st.text_records ++ [(text_record.new ins.location).insert ins.object_code],
                  insert_new := false }
    else
      match st.text_records.getLast? with
      | none => .error .undefined_behaviour
      | some back =>
        if back.total_length + ins.object_code.length > 60 then
          generate_records g rest
            { st with text_records :=
                st.text_records ++ [(text_record.new ins.location).insert ins.object_code] }
        else
          generate_records g rest
            { st with text_records :=
                st.text_records.dropLast ++ [back.insert ins.object_code] }

/-- Source `pass_2`, on the globals `pass_1` left. -/
def pass_2 (g : Globals) : Except Err Globals := do
  -- main code
  let r ← encode_program g.SYMTAB g.program g.first_executable_instruction
  let g1 := { g with program := r.1, first_executable_instruction := r.2 }
  -- writing to the final file
  let listing ← write_listing g1.program
  -- generating the object code records
  let recs ← generate_records g1 g1.program
    { header_record := [], insert_new := true, text_records := [], end_record := [] }
  -- writing to the object file
  .ok { g1 with
        assembly_listing := "Obj".toList ++ INDENT ++ "Location".toList
          ++ [Char.ofNat 10, Char.ofNat 10] ++ listing,
        header_record := recs.header_record,
        text_records := recs.text_records,
        end_record := recs.end_record,
        object_program := recs.header_record ++ [Char.ofNat 10]
          ++ (recs.text_records.map (fun tr => tr.to_string ++ [Char.ofNat 10])).flatten
          ++ recs.end_record ++ [Char.ofNat 10] }

/-- The assembling part of `main`: `pass_1` then `pass_2`. -/
def assemble (lines : List (List Char)) : Except Err Globals := do
  let g ← pass_1 lines
  pass_2 g

/-! ## Reading object code back (specification side) -/

/-- Value of an uppercase hexadecimal digit `0-9`, `A-F`. -/
def hex_char_value (c : Char) : Option Nat :=
  if 48 ≤ c.toNat ∧ c.toNat ≤ 57 then some (c.toNat - 48)
  else if 65 ≤ c.toNat ∧ c.toNat ≤ 70 then some (c.toNat - 55)
  else none

/-- Reading a string of uppercase hexadecimal digits, most significant first, onto `acc`. -/
def hex_value_from : List Char → Nat → Option Nat
  | [], acc => some acc
  | c :: rest, acc =>
    match hex_char_value c with
    | some d => hex_value_from rest (16 * acc + d)
    | none => none

/-- The number an uppercase hexadecimal string denotes; `none` if some character is not
an uppercase hexadecimal digit. -/
def hex_value (s : List Char) : Option Nat :=
  hex_value_from s 0

/-- Is the character one of `0-9`, `A-F`. -/
def is_upper_hex (c : Char) : Bool := (hex_char_value c).isSome

/-- The indexing bit of the specification: `0x8000` for an indexed operand, else `0`. -/
def indexing_bit (ins : instruction) : Nat :=
  if ins.type_of_operand = .O_INDXD then 0x8000 else 0

/-- Bits 23..16 of an encoded word: the opcode field. -/
def decode_opcode (word : Nat) : Nat := word / 65536 % 256

/-- Bit 15 of an encoded word: the indexing bit. -/
def decode_indexed (word : Nat) : Bool := word / 32768 % 2 == 1

/-- Bits 14..0 of an encoded word: the address field. -/
def decode_address (word : Nat) : Nat := word % 32768

/-! ## Notions used in the statements and their proofs -/

/-- Is the instruction given a location by `pass_1` when the loop reaches it. -/
def is_located (ins : instruction) : Bool :=
  decide (ins.size_in_memory ≠ 0) || decide (ins.mnemonic = "START".toList)

/-- The test the loops make before they stop: the mnemonic is not `END`. -/
def not_END (ins : instruction) : Bool :=
  decide (ins.mnemonic ≠ "END".toList)

/-- The instructions strictly before the first `END`. -/
def before_END (program : List instruction) : List instruction :=
  program.takeWhile not_END

/-- The instructions up to and including the first `END`. -/
def upto_END : List instruction → List instruction
  | [] => []
  | ins :: rest => if ins.mnemonic = "END".toList then [ins] else ins :: upto_END rest

/-- The instructions after the first `END`. -/
def after_END (program : List instruction) : List instruction :=
  program.drop ((before_END program).length + 1)

/-- Does `pass_1` insert the label of the instruction into `SYMTAB` when it reaches it. -/
def defines_symbol (ins : instruction) : Bool :=
  is_located ins && decide (ins.label ≠ [])

/-- The program `pass_1` hands to its location loop: the parsed program with the defaults
written into `start_ins` (at `start_idx`) and `end_ins` (at `end_idx`). -/
def with_defaults (program : List instruction) (start_idx end_idx : Nat) : List instruction :=
  let start_ins := default_start (program.getD start_idx (instruction.default [] 0))
  let program1 := program.set start_idx start_ins
  program1.set end_idx
    (default_end start_ins.label (program1.getD end_idx (instruction.default [] 0)))

/-- The fields no pass changes after the constructor, and the two `pass_2` writes. -/
def same_core (a b : instruction) : Prop :=
  b.mnemonic = a.mnemonic ∧ b.size_in_memory = a.size_in_memory ∧
  b.type_of_operand = a.type_of_operand ∧ b.is_comment = a.is_comment ∧
  b.is_blank = a.is_blank ∧ b.object_code = a.object_code ∧
  b.has_object_code = a.has_object_code

/-- How `b` can differ from `a` after the defaults of `pass_1`: only in a label or an
operand that was empty. -/
def defaulted (a b : instruction) : Prop :=
  same_core a b ∧ (a.label ≠ [] → b.label = a.label) ∧
  (a.operand ≠ [] → b.operand = a.operand) ∧
  b.has_location = a.has_location ∧ b.location = a.location

/-- How `b` can differ from `a` after the location loop: only in its location. -/
def relocated (a b : instruction) : Prop :=
  same_core a b ∧ b.label = a.label ∧ b.operand = a.operand

/-- What the constructor guarantees of every record it returns. -/
def parsed_ok (ins : instruction) : Prop :=
  ins.has_location = false ∧ ins.has_object_code = false ∧ ins.object_code = [] ∧
  (ins.operand = [] → ins.type_of_operand = .O_NOOPD) ∧
  (ins.mnemonic = [] → ins.size_in_memory = 0 ∧ ins.label = []) ∧
  (ins.mnemonic ≠ [] → ins.is_comment = false ∧ ins.is_blank = false) ∧
  (ins.mnemonic = "END".toList → ins.size_in_memory = 0) ∧
  (ins.type_of_operand = .O_CHRAR → ins.operand.length ≤ 33)

/-- The test with which both loops of `pass_2` pass over a line: `START`, a comment or a
blank line. -/
def is_skipped (ins : instruction) : Prop :=
  ins.mnemonic = "START".toList ∨ (ins.is_comment = true ∨ ins.is_blank = true)

/-- An `END` line is not passed over by the loops of `pass_2`. -/
def END_not_skipped (l : List instruction) : Prop :=
  ∀ ins ∈ l, ins.mnemonic = "END".toList → ins.is_comment = false ∧ ins.is_blank = false

/-- What the packer keeps true of every text record: at most 60 characters, counted as
the sum of the lengths of its fragments. -/
def record_ok (tr : text_record) : Prop :=
  tr.total_length ≤ 60 ∧ tr.total_length = (tr.records.map List.length).sum

/-! ## Programs used as examples -/

/-- Scenario A of the specification. -/
def scenario_A : List (List Char) :=
  ["COPY START 1000".toList, "FIRST LDA ALPHA".toList, "ALPHA WORD 5".toList,
   "END FIRST".toList]

/-- Scenario A with the operand of `END` left out. -/
def scenario_A_no_end_operand : List (List Char) :=
  ["COPY START 1000".toList, "FIRST LDA ALPHA".toList, "ALPHA WORD 5".toList,
   "END".toList]

/-- What Scenario A observes of a run: the starting address, the address of `ALPHA` and
the object code of the second line (`FIRST`). -/
def scenario_A_view (g : Globals) : Int × Option Int × List Char :=
  (g.program_starting_address, find g.SYMTAB "ALPHA".toList,
   (g.program.getD 1 (instruction.default [] 0)).object_code)

/-- An indexed operation on a label placed at `0x8000`. -/
def indexed_at_8000 : List (List Char) :=
  ["COPY START 8000".toList, "FIRST LDA FIRST,X".toList, "END FIRST".toList]

/-- A plain (label) operation on a label placed at `0x8000`. -/
def label_at_8000 : List (List Char) :=
  ["COPY START 8000".toList, "FIRST LDA FIRST".toList, "END FIRST".toList]

/-- What the encoding examples observe of a run: the address of `FIRST`, and the operand
type and object code of the second line. -/
def second_line_view (g : Globals) : Option Int × OperandType × List Char :=
  (find g.SYMTAB "FIRST".toList,
   (g.program.getD 1 (instruction.default [] 0)).type_of_operand,
   (g.program.getD 1 (instruction.default [] 0)).object_code)

/-- The record of the line `FIRST LDA ALPHA,X` after `pass_1` placed it at `0x1000`. -/
def sample_indexed : instruction :=
  { instruction.default "FIRST LDA ALPHA,X".toList 2 with
    label := "FIRST".toList, mnemonic := "LDA".toList, operand := "ALPHA,X".toList,
    type_of_operand := .O_INDXD, size_in_memory := 3, has_location := true, location := 4096 }

/-- A symbol table that holds `ALPHA` at `0x1003`. -/
def sample_symtab : List (List Char × Int) :=
  [("COPY".toList, 4096), ("FIRST".toList, 4096), ("ALPHA".toList, 4099)]

/-- Scenario A followed by two more lines after its `END`. -/
def scenario_F : List (List Char) :=
  scenario_A ++ ["EXTRA LDA ALPHA".toList, "ALPHA WORD 7".toList]

/-- A program whose object code does not fit one text record. -/
def eleven_words : List (List Char) :=
  ["COPY START 1000".toList] ++ List.replicate 11 "WORD 5".toList ++ ["END COPY".toList]

/-- A `BYTE` whose hexadecimal literal holds the letters `G` and `Z`. -/
def byte_GZ : List (List Char) :=
  ["COPY START 1000".toList, "A BYTE X'GZ'".toList, "END COPY".toList]

/-- A program placed at `0x10000`. -/
def start_at_10000 : List (List Char) :=
  ["COPY START 10000".toList, "FIRST LDA FIRST".toList, "END FIRST".toList]

/-- What the examples on one data line observe of a run: operand type, location and
object code of the second line, and the text records as written. -/
def data_line_view (g : Globals) : OperandType × Int × List Char × List (List Char) :=
  ((g.program.getD 1 (instruction.default [] 0)).type_of_operand,
   (g.program.getD 1 (instruction.default [] 0)).location,
   (g.program.getD 1 (instruction.default [] 0)).object_code,
   g.text_records.map text_record.to_string)

/-- The operand text `X'content'`. -/
def hex_operand (content : List Char) : List Char :=
  Char.ofNat 88 :: quote :: (content ++ [quote])

/-- A `BYTE` whose hexadecimal literal holds one digit. -/
def byte_one_digit : List (List Char) :=
  ["COPY START 1000".toList, "A BYTE X'F'".toList, "END COPY".toList]

/-- The record of the line `A BYTE X'1F'` after `pass_1` placed it at `0x1000`. -/
def sample_byte_hex : instruction :=
  { instruction.default "A BYTE X'1F'".toList 2 with
    label := "A".toList, mnemonic := "BYTE".toList, operand := "X'1F'".toList,
    type_of_operand := .O_HEXAD, size_in_memory := 1, has_location := true, location := 4096 }

/-- The number a string of decimal digits denotes. -/
def decimal_value (s : List Char) : Nat :=
  s.foldl (fun a c => a * 10 + (c.toNat - 48)) 0

/-- A `WORD` whose operand does not fit an `int`. -/
def word_2_pow_31 : List (List Char) :=
  ["COPY START 1000".toList, "A WORD 2147483648".toList, "END COPY".toList]

/-- The record of a line `A WORD v` or `A BYTE v` with a decimal operand, after `pass_1`
placed it at `0x1000`. -/
def sample_decimal (mnemonic operand : List Char) : instruction :=
  { instruction.default [] 2 with
    label := "A".toList, mnemonic := mnemonic, operand := operand,
    type_of_operand := .O_DECIM, size_in_memory := 3, has_location := true, location := 4096 }

/-- The uppercase hexadecimal digit of a value below 16. -/
def upper_hex_digit (d : Nat) : Char :=
  "0123456789ABCDEF".toList.getD d (Char.ofNat 48)

/-- The 2-digit uppercase hexadecimal form of a character code below 256. -/
def hex_pair (code : Nat) : List Char :=
  [upper_hex_digit (code / 16), upper_hex_digit (code % 16)]

/-- The operand text `C'content'`. -/
def char_operand (content : List Char) : List Char :=
  Char.ofNat 67 :: quote :: (content ++ [quote])

/-- A character array whose one content character is the byte `0xE9`. -/
def byte_char_E9 : List (List Char) :=
  ["COPY START 1000".toList, "A BYTE C".toList ++ [quote, Char.ofNat 233, quote],
   "END COPY".toList]

/-- The record of the line `A BYTE C'EOF'` after `pass_1` placed it at `0x1000`. -/
def sample_byte_chars : instruction :=
  { instruction.default "A BYTE C'EOF'".toList 2 with
    label := "A".toList, mnemonic := "BYTE".toList, operand := "C'EOF'".toList,
    type_of_operand := .O_CHRAR, size_in_memory := 3, has_location := true, location := 4096 }

/-- Does the main loop of `pass_2` get past the instruction: it is passed over, or it is
not `END` and its checks and encoding succeed. -/
def gets_through (symtab : List (List Char × Int)) (x : instruction) : Bool :=
  (decide (x.mnemonic = "START".toList) || (x.is_comment || x.is_blank)) ||
    (decide (x.mnemonic ≠ "END".toList) &&
      (match encode_instruction symtab x with
       | .ok _ => true
       | .error _ => false))

/-- Scenario E: an operation on a label that is declared nowhere. -/
def undeclared_operand : List (List Char) :=
  ["COPY START 1000".toList, "FIRST LDA NOPE".toList, "END FIRST".toList]

/-- The record of `COPY START 1000` after `pass_1`. -/
def start_COPY : instruction :=
  { instruction.default "COPY START 1000".toList 1 with
    label := "COPY".toList, mnemonic := "START".toList, operand := "1000".toList,
    type_of_operand := .O_DECIM, has_location := true, location := 4096 }

/-- The record of `FIRST LDA NOPE` after `pass_1`. -/
def lda_NOPE : instruction :=
  { instruction.default "FIRST LDA NOPE".toList 2 with
    label := "FIRST".toList, mnemonic := "LDA".toList, operand := "NOPE".toList,
    type_of_operand := .O_LABEL, size_in_memory := 3, has_location := true, location := 4096 }

/-- The record of `END FIRST` after `pass_1`. -/
def end_FIRST : instruction :=
  { instruction.default "END FIRST".toList 3 with
    mnemonic := "END".toList, operand := "FIRST".toList, type_of_operand := .O_LABEL }

/-- The name field of the header record in the words of the specification: the first six
characters of the program name, padded with spaces to six characters. -/
def name_field (program_name : List Char) : List Char :=
  program_name.take 6 ++ List.replicate (6 - program_name.length) (Char.ofNat 32)

/-- A program whose length does not fit six hexadecimal digits. -/
def long_reserve : List (List Char) :=
  ["COPY START 0".toList, "BUF RESB 99999999".toList, "END COPY".toList]

/-- A gap instruction of the record loop: a `RESW` or `RESB` line. -/
def is_gap (ins : instruction) : Bool :=
  (!ins.is_comment && !ins.is_blank) &&
    (decide (ins.mnemonic = "RESW".toList) || decide (ins.mnemonic = "RESB".toList))

/-- A content-bearing instruction of the record loop: not a comment, not blank, and not
`START`, `END`, `RESW` or `RESB`; its object code goes into a text record. -/
def is_content (ins : instruction) : Bool :=
  (!ins.is_comment && !ins.is_blank) &&
    (decide (ins.mnemonic ≠ "START".toList) && decide (ins.mnemonic ≠ "END".toList) &&
      (decide (ins.mnemonic ≠ "RESW".toList) && decide (ins.mnemonic ≠ "RESB".toList)))

/-- The object-code fragments of a list of text records, in order. -/
def fragments (trs : List text_record) : List (List Char) :=
  (trs.map (fun tr => tr.records)).flatten

/-- The object codes of the content-bearing instructions before the first `END`, in
source order. -/
def content_codes (l : List instruction) : List (List Char) :=
  ((before_END l).filter is_content).map (fun ins => ins.object_code)

/-- Two operations with a reserved word between them. -/
def gap_program : List (List Char) :=
  ["COPY START 1000".toList, "FIRST LDA BUF".toList, "BUF RESW 1".toList,
   "SECOND STA BUF".toList, "END FIRST".toList]

/-- The record of `FIRST LDA BUF` in the assembled `gap_program`. -/
def lda_BUF : instruction :=
  { instruction.default "FIRST LDA BUF".toList 2 with
    label := "FIRST".toList, mnemonic := "LDA".toList, operand := "BUF".toList,
    type_of_operand := .O_LABEL, size_in_memory := 3, has_location := true, location := 4096,
    has_object_code := true, object_code := "001003".toList }

/-- The record of `BUF RESW 1` in the assembled `gap_program`. -/
def resw_BUF : instruction :=
  { instruction.default "BUF RESW 1".toList 3 with
    label := "BUF".toList, mnemonic := "RESW".toList, operand := "1".toList,
    type_of_operand := .O_DECIM, size_in_memory := 3, has_location := true, location := 4099 }

/-- The record of `SECOND STA BUF` in the assembled `gap_program`. -/
def sta_BUF : instruction :=
  { instruction.default "SECOND STA BUF".toList 4 with
    label := "SECOND".toList, mnemonic := "STA".toList, operand := "BUF".toList,
    type_of_operand := .O_LABEL, size_in_memory := 3, has_location := true, location := 4102,
    has_object_code := true, object_code := "0C1003".toList }

/-- The record of `END FIRST` in the assembled `gap_program`. -/
def end_of_gap_program : instruction :=
  { instruction.default "END FIRST".toList 5 with
    mnemonic := "END".toList, operand := "FIRST".toList, type_of_operand := .O_LABEL }

/-- An `ADD` on the label of its own line. -/
def add_FIRST : List (List Char) :=
  ["COPY START 1000".toList, "FIRST ADD FIRST".toList, "END FIRST".toList]

/-- The same program with `DIV` in the place of `ADD`. -/
def div_FIRST : List (List Char) :=
  ["COPY START 1000".toList, "FIRST DIV FIRST".toList, "END FIRST".toList]

/-- A valid label in the words of the specification: a letter followed by letters and
digits. -/
def valid_label (s : List Char) : Prop :=
  ∃ c rest, s = c :: rest ∧ isalpha c = true ∧ ∀ x ∈ rest, isalnum x = true

/-- The number of commas in an operand. -/
def commas (operand : List Char) : Nat :=
  operand.countP (fun c => c == Char.ofNat 44)

/-- What the constructor guarantees of the size and operand of a record, as far as the
object code of `pass_2` depends on it. -/
def sized_ok (ins : instruction) : Prop :=
  (count OPTAB ins.mnemonic = true → ins.size_in_memory = 3) ∧
  (ins.mnemonic = "WORD".toList → ins.size_in_memory = 3) ∧
  (ins.mnemonic = "BYTE".toList →
    (ins.type_of_operand = .O_HEXAD ∨ ins.type_of_operand = .O_DECIM →
      ins.size_in_memory = 1) ∧
    (ins.type_of_operand = .O_CHRAR →
      ∃ content, content ≠ [] ∧ ins.operand = char_operand content ∧
        ins.size_in_memory = content.length)) ∧
  (ins.type_of_operand = .O_DECIM →
    ins.operand ≠ [] ∧ ∀ c ∈ ins.operand, isdigit c = true) ∧
  (ins.is_comment = false ∧ ins.is_blank = false → is_keyword ins.mnemonic = true) ∧
  (ins.is_comment = true ∨ ins.is_blank = true ∨ ins.mnemonic = "START".toList →
    ins.size_in_memory = 0)

/-- The locations the loop of `pass_1` leaves in the instructions before the first
`END`, when it comes to them with the location counter `lc`: a located instruction sits
at the counter, which then advances by its size. -/
def located_from : Int → List instruction → Prop
  | _, [] => True
  | lc, x :: rest =>
    x.mnemonic = "END".toList ∨
      (if is_located x = true then x.location = lc ∧ located_from (lc + x.size_in_memory) rest
       else located_from lc rest)

/-- The text record `tr` holds the object codes of the instructions `srcs`, in order, and
each of them sits at the starting address plus the bytes of those before it. -/
def record_from (tr : text_record) (srcs : List instruction) : Prop :=
  tr.records = srcs.map (fun c => c.object_code) ∧
  tr.total_length = (tr.records.map List.length).sum ∧
  (∀ c ∈ srcs, (c.object_code.length : Int) = 2 * c.size_in_memory) ∧
  ∀ k c, srcs[k]? = some c →
    2 * (c.location - tr.starting_address)
      = (((srcs.take k).map (fun s => s.object_code.length)).sum : Int)

/-- An operation on an undeclared label behind a `WORD` whose value does not fit three
bytes. -/
def undeclared_behind_word : List (List Char) :=
  ["COPY START 1000".toList, "A WORD 16777216".toList, "FIRST LDA NOPE".toList,
   "END FIRST".toList]

/-- A label placed below zero by a reservation of negative size, and an operation on it. -/
def negative_address : List (List Char) :=
  ["COPY START 0".toList, "A RESB X'-5'".toList, "B WORD 5".toList, "FIRST LDA B".toList,
   "END FIRST".toList]

theorem bind_eq_ok {ε α β : Type} (x : Except ε α) (f : α → Except ε β) (b : β) :
    (x >>= f) = .ok b ↔ ∃ a, x = .ok a ∧ f a = .ok b := by
  cases x <;> simp [bind, Except.bind]

theorem scenario_A_run :
    (assemble scenario_A).map scenario_A_view = .ok (4096, some 4099, "001003".toList) := by
  rfl

/-! ### Hexadecimal conversion -/

/-- The digit loop on a natural number pushes the base-16 digits, least significant first. -/
theorem hex_loop_nat (fuel : Nat) : ∀ (n : Nat) (q : List Char), n ≤ fuel →
    hex_loop fuel (n : Int) q = q ++ (Nat.digits 16 n).map (fun (d : Nat) => hex_digit_char (d : Int)) := by
  induction fuel with
  | zero =>
    intro n q h
    have : n = 0 := by omega
    subst this
    simp [hex_loop]
  | succ fuel ih =>
    intro n q h
    by_cases h0 : n = 0
    · subst h0
      simp [hex_loop]
    · have hpos : 0 < n := Nat.pos_of_ne_zero h0
      have hne : (n : Int) ≠ 0 := by exact_mod_cast h0
      have hd : Int.tdiv (n : Int) 16 = ((n / 16 : Nat) : Int) := (Int.ofNat_tdiv n 16).symm
      have hm : Int.tmod (n : Int) 16 = ((n % 16 : Nat) : Int) := (Int.ofNat_tmod n 16).symm
      rw [hex_loop, if_neg hne, hd, hm, ih (n / 16) _ (by omega),
        Nat.digits_def' (by norm_num) hpos]
      simp

/-- The fuel of `hex_digits_rev` never stops the loop early: any two amounts of fuel of at
least `num.natAbs` give the same string. -/
theorem hex_loop_fuel (f1 : Nat) : ∀ (f2 : Nat) (n : Int) (q : List Char),
    n.natAbs ≤ f1 → n.natAbs ≤ f2 → hex_loop f1 n q = hex_loop f2 n q := by
  induction f1 with
  | zero =>
    intro f2 n q h1 _
    have hn : n = 0 := Int.natAbs_eq_zero.mp (by omega)
    subst hn
    cases f2 <;> simp [hex_loop]
  | succ f1 ih =>
    intro f2 n q h1 h2
    by_cases h0 : n = 0
    · subst h0
      cases f2 <;> simp [hex_loop]
    · have hpos : 0 < n.natAbs := Int.natAbs_pos.mpr h0
      have hd : (Int.tdiv n 16).natAbs = n.natAbs / 16 := by
        rw [Int.natAbs_tdiv]; rfl
      cases f2 with
      | zero => omega
      | succ f2 =>
        rw [hex_loop, hex_loop, if_neg h0, if_neg h0]
        exact ih f2 _ _ (by rw [hd]; omega) (by rw [hd]; omega)

theorem hex_digits_rev_nat (n : Nat) :
    hex_digits_rev (n : Int) = (Nat.digits 16 n).map (fun (d : Nat) => hex_digit_char (d : Int)) := by
  unfold hex_digits_rev
  rw [hex_loop_nat _ n [] (by simp)]
  simp

/-- The number of characters the digit loop pushes, for any `int`. -/
theorem hex_loop_length (fuel : Nat) : ∀ (n : Int) (q : List Char), n.natAbs ≤ fuel →
    (hex_loop fuel n q).length = q.length + (Nat.digits 16 n.natAbs).length := by
  induction fuel with
  | zero =>
    intro n q h
    have : n.natAbs = 0 := by omega
    simp [hex_loop, this]
  | succ fuel ih =>
    intro n q h
    by_cases h0 : n = 0
    · subst h0
      simp [hex_loop]
    · have hpos : 0 < n.natAbs := Int.natAbs_pos.mpr h0
      have hd : (Int.tdiv n 16).natAbs = n.natAbs / 16 := by
        rw [Int.natAbs_tdiv]; rfl
      rw [hex_loop, if_neg h0, ih _ _ (by rw [hd]; omega), hd,
        Nat.digits_def' (by norm_num) hpos]
      simp
      omega

theorem hex_digits_rev_length (n : Int) :
    (hex_digits_rev n).length = (Nat.digits 16 n.natAbs).length := by
  unfold hex_digits_rev
  rw [hex_loop_length _ n [] (le_refl _)]
  simp

theorem hex_digits_rev_length_le (n : Int) (k : Nat) (h : n.natAbs < 16 ^ k) :
    (hex_digits_rev n).length ≤ k := by
  rw [hex_digits_rev_length]
  by_cases hm : n.natAbs = 0
  · simp [hm]
  · have h1 := Nat.base_pow_length_digits_le 16 n.natAbs (by norm_num) hm
    have h2 : 16 ^ (Nat.digits 16 n.natAbs).length < 16 ^ (k + 1) := by
      calc 16 ^ (Nat.digits 16 n.natAbs).length ≤ 16 * n.natAbs := h1
        _ < 16 * 16 ^ k := by omega
        _ = 16 ^ (k + 1) := by ring
    have h3 := (Nat.pow_lt_pow_iff_right (by norm_num : 1 < 16)).mp h2
    omega

theorem hex_char_value_digit (d : Nat) (h : d < 16) :
    hex_char_value (hex_digit_char (d : Int)) = some d := by
  interval_cases d <;> rfl

theorem hex_value_from_append (s : List Char) (c : Char) : ∀ acc : Nat,
    hex_value_from (s ++ [c]) acc =
      (hex_value_from s acc).bind (fun v => (hex_char_value c).map (fun d => 16 * v + d)) := by
  induction s with
  | nil =>
    intro acc
    simp only [List.nil_append, hex_value_from]
    cases hex_char_value c <;> simp [Option.bind]
  | cons x s ih =>
    intro acc
    simp only [List.cons_append, hex_value_from]
    cases hex_char_value x with
    | none => simp
    | some d => simp [ih]

theorem hex_value_from_zeros (k : Nat) (s : List Char) :
    hex_value_from (List.replicate k (Char.ofNat 48) ++ s) 0 = hex_value_from s 0 := by
  induction k with
  | zero => simp
  | succ k ih =>
    rw [List.replicate_succ, List.cons_append, hex_value_from]
    have : hex_char_value (Char.ofNat 48) = some 0 := rfl
    rw [this]
    simpa using ih

theorem hex_value_digits (l : List Nat) (h : ∀ d ∈ l, d < 16) :
    hex_value_from ((l.map (fun (d : Nat) => hex_digit_char (d : Int))).reverse) 0
      = some (Nat.ofDigits 16 l) := by
  induction l with
  | nil => simp [hex_value_from]
  | cons d l ih =>
    have hd : d < 16 := h d (List.mem_cons_self _ _)
    have hl : ∀ x ∈ l, x < 16 := fun x hx => h x (List.mem_cons_of_mem _ hx)
    rw [List.map_cons, List.reverse_cons, hex_value_from_append, ih hl,
      hex_char_value_digit d hd, Nat.ofDigits_cons]
    simp
    omega

/-- The string `to_hex n size`, read back as a hexadecimal number, is `n`. -/
theorem hex_value_to_hex (n size : Nat) : hex_value (to_hex (n : Int) size) = some n := by
  unfold hex_value to_hex pad_zeros
  rw [List.reverse_append, List.reverse_replicate, hex_value_from_zeros, hex_digits_rev_nat,
    hex_value_digits _ (fun d hd => Nat.digits_lt_base (by norm_num) hd), Nat.ofDigits_digits]

/-- For `0 ≤ n < 16^size` the string `to_hex n size` has exactly `size` characters. -/
theorem to_hex_length (n size : Nat) (h : n < 16 ^ size) :
    (to_hex (n : Int) size).length = size := by
  have hl : (hex_digits_rev (n : Int)).length ≤ size :=
    hex_digits_rev_length_le _ _ (by simpa using h)
  unfold to_hex pad_zeros
  simp
  omega

theorem to_hex_upper (n size : Nat) : ∀ c ∈ to_hex (n : Int) size, is_upper_hex c = true := by
  intro c hc
  unfold to_hex pad_zeros at hc
  rw [hex_digits_rev_nat] at hc
  simp only [List.mem_reverse, List.mem_append, List.mem_map, List.mem_replicate] at hc
  rcases hc with ⟨d, hd, rfl⟩ | ⟨_, rfl⟩
  · unfold is_upper_hex
    rw [hex_char_value_digit d (Nat.digits_lt_base (by norm_num) hd)]
    rfl
  · rfl

/-! ### Tables -/

theorem find_mem (m : List (List Char × Int)) (key : List Char) (v : Int) :
    find m key = some v → (key, v) ∈ m := by
  induction m with
  | nil => simp [find]
  | cons kv rest ih =>
    intro h
    rw [find] at h
    split at h
    · rename_i hk
      injection h with h
      subst h
      subst hk
      exact List.mem_cons_self _ _
    · exact List.mem_cons_of_mem _ (ih h)

theorem count_iff_find (m : List (List Char × Int)) (key : List Char) :
    count m key = true ↔ ∃ v, find m key = some v := by
  induction m with
  | nil => simp [count, find]
  | cons kv rest ih =>
    rw [find]
    by_cases hk : kv.1 = key
    · simp [count, hk]
    · rw [if_neg hk, ← ih]
      simp [count, hk]

theorem at_key_of_find (m : List (List Char × Int)) (key : List Char) (v : Int)
    (h : find m key = some v) : at_key m key = v := by
  simp [at_key, h]

theorem OPTAB_entries :
    ∀ kv ∈ OPTAB, count DIRECTIVES kv.1 = false ∧ 0 ≤ kv.2 ∧ kv.2 ≤ 224 := by
  decide

/-- A key of `OPTAB` is not a directive and its opcode is a byte. -/
theorem OPTAB_key (mnemonic : List Char) (h : count OPTAB mnemonic = true) :
    count DIRECTIVES mnemonic = false ∧ 0 ≤ at_key OPTAB mnemonic ∧
      at_key OPTAB mnemonic ≤ 224 := by
  obtain ⟨v, hv⟩ := (count_iff_find _ _).mp h
  rw [at_key_of_find _ _ _ hv]
  exact OPTAB_entries _ (find_mem _ _ _ hv)

/-! ### Encoding of an operation -/

/-- The object code `pass_2` gives an operation other than `RSUB` whose label resolves to
an address `0 ≤ a ≤ 0xFFFF`: the 6-character `to_hex` of the sum of `opcode << 16`, the
indexing summand and the address. -/
theorem encode_operation (symtab : List (List Char × Int)) (ins : instruction) (a : Int)
    (hop : count OPTAB ins.mnemonic = true) (hrsub : ins.mnemonic ≠ "RSUB".toList)
    (hty : ins.type_of_operand = .O_LABEL ∨ ins.type_of_operand = .O_INDXD)
    (hfind : find symtab (final_opd ins) = some a) (ha0 : 0 ≤ a) (ha1 : a ≤ 65535) :
    encode_instruction symtab ins = .ok
      { ins with
        object_code := to_hex (((at_key OPTAB ins.mnemonic).toNat * 65536 +
            (if ins.type_of_operand = .O_INDXD then 32768 else 0) + a.toNat : Nat) : Int) 6,
        has_object_code := true } := by
  obtain ⟨hdir, hop0, hop1⟩ := OPTAB_key _ hop
  have hresw : ins.mnemonic ≠ "RESW".toList := by
    intro h; rw [h] at hdir; revert hdir; decide
  have hresb : ins.mnemonic ≠ "RESB".toList := by
    intro h; rw [h] at hdir; revert hdir; decide
  have hcount : count symtab (final_opd ins) = true := (count_iff_find _ _).mpr ⟨a, hfind⟩
  have hat : at_key symtab (final_opd ins) = a := at_key_of_find _ _ _ hfind
  have hty2 : ¬ (ins.type_of_operand ≠ .O_LABEL ∧ ins.type_of_operand ≠ .O_INDXD) := by
    rcases hty with h | h <;> simp [h]
  obtain ⟨op, hopn⟩ : ∃ op : Nat, at_key OPTAB ins.mnemonic = (op : Int) :=
    ⟨(at_key OPTAB ins.mnemonic).toNat, (Int.toNat_of_nonneg hop0).symm⟩
  obtain ⟨an, han⟩ : ∃ an : Nat, a = (an : Int) := ⟨a.toNat, (Int.toNat_of_nonneg ha0).symm⟩
  have hop2 : op ≤ 224 := by rw [hopn] at hop1; exact_mod_cast hop1
  have han2 : an ≤ 65535 := by rw [han] at ha1; exact_mod_cast ha1
  obtain ⟨V, hV⟩ : ∃ V : Nat,
      V = op * 65536 + (if ins.type_of_operand = .O_INDXD then 32768 else 0) + an := ⟨_, rfl⟩
  have hsum : at_key OPTAB ins.mnemonic * 65536 + indexed_summand ins + a = (V : Int) := by
    rw [hopn, han, hV]; unfold indexed_summand; split <;> push_cast <;> ring
  have hlt : V < 16 ^ 6 := by
    rw [hV]; split <;> norm_num <;> omega
  have hlen : (hex_digits_rev (V : Int)).length ≤ 6 :=
    hex_digits_rev_length_le _ 6 (by simpa using hlt)
  have hchk : int_checked (V : Int) = .ok (V : Int) := by
    unfold int_checked
    rw [if_pos]
    have : (16:ℕ) ^ 6 = 16777216 := by norm_num
    constructor <;> omega
  have hgoal : ((at_key OPTAB ins.mnemonic).toNat * 65536 +
      (if ins.type_of_operand = .O_INDXD then 32768 else 0) + a.toNat : Nat) = V := by
    rw [hV, hopn, han]; rfl
  rw [hgoal]
  unfold encode_instruction
  rw [if_neg (not_or.mpr ⟨hresw, hresb⟩), hdir]
  simp only [Bool.false_eq_true, if_false, if_neg hrsub, if_neg hty2, hcount, Bool.not_true, hat,
    hsum, hchk]
  simp only [bind, Except.bind]
  rw [if_neg (by omega)]
  rfl

/-- The fields `opcode << 16`, indexing bit and address do not overlap, so joining them
with bitwise or is their sum. -/
theorem fields_or_eq_add (op an : Nat) (ins : instruction) (h1 : an ≤ 65535)
    (h2 : ins.type_of_operand = .O_INDXD → an ≤ 32767) :
    (op <<< 16) ||| indexing_bit ins ||| an
      = op * 65536 + (if ins.type_of_operand = .O_INDXD then 32768 else 0) + an := by
  have hshift : op <<< 16 = 2 ^ 16 * op := by rw [Nat.shiftLeft_eq, Nat.mul_comm]
  unfold indexing_bit
  by_cases hx : ins.type_of_operand = .O_INDXD
  · have ha := h2 hx
    have e1 : 2 ^ 15 * 1 + an = 2 ^ 15 * 1 ||| an :=
      Nat.mul_add_lt_is_or (by norm_num; omega) 1
    have e2 : 2 ^ 16 * op + (32768 + an) = 2 ^ 16 * op ||| (32768 + an) :=
      Nat.mul_add_lt_is_or (by norm_num; omega) op
    norm_num at e1
    rw [if_pos hx, Nat.or_assoc, hshift, ← e1, ← e2]
    omega
  · have e2 : 2 ^ 16 * op + an = 2 ^ 16 * op ||| an :=
      Nat.mul_add_lt_is_or (by norm_num; omega) op
    rw [if_neg hx, Nat.or_zero, hshift, ← e2]
    omega

theorem indexed_at_8000_run :
    (assemble indexed_at_8000).map second_line_view
      = .ok (some 0x8000, OperandType.O_INDXD, "010000".toList) := by
  rfl

theorem label_at_8000_run :
    (assemble label_at_8000).map second_line_view
      = .ok (some 0x8000, OperandType.O_LABEL, "008000".toList) := by
  rfl

/-- One iteration of the location loop, read backwards from a successful result. -/
theorem assign_locations_cons (si : Nat) (ins : instruction) (rest : List instruction)
    (i : Nat) (lc : Int) (st : List (List Char × Int))
    (out : List instruction × Int × List (List Char × Int))
    (h : assign_locations si (ins :: rest) i lc st = .ok out) :
    (ins.mnemonic = "END".toList ∧ out = (ins :: rest, lc, st)) ∨
    (ins.mnemonic ≠ "END".toList ∧ is_located ins = true ∧
      (ins.mnemonic = "START".toList → i = si) ∧
      ∃ st1 r,
        ((ins.label = [] ∧ st1 = st) ∨
         (ins.label ≠ [] ∧ count st ins.label = false ∧ st1 = st ++ [(ins.label, lc)])) ∧
        assign_locations si rest (i + 1) (lc + ins.size_in_memory) st1 = .ok r ∧
        out = ({ ins with location := lc, has_location := true } :: r.1, r.2)) ∨
    (ins.mnemonic ≠ "END".toList ∧ is_located ins = false ∧
      ∃ r, assign_locations si rest (i + 1) lc st = .ok r ∧ out = (ins :: r.1, r.2)) := by
  rw [assign_locations] at h
  split at h
  · cases h
  · rename_i hst
    split at h
    · rename_i hend
      injection h with h
      exact Or.inl ⟨hend, h.symm⟩
    · rename_i hend
      split at h
      · rename_i hloc
        refine Or.inr (Or.inl ⟨hend, by simpa [is_located] using hloc, ?_, ?_⟩)
        · intro hs
          by_contra hne
          exact hst ⟨hs, hne⟩
        · obtain ⟨st1, h1, ha⟩ := (bind_eq_ok _ _ _).mp h
          obtain ⟨lc1, h2, hb⟩ := (bind_eq_ok _ _ _).mp ha
          obtain ⟨r, h3, hc⟩ := (bind_eq_ok _ _ _).mp hb
          injection hc with hd
          clear h ha hb
          have hlc : lc1 = lc + ins.size_in_memory := by
            unfold int_checked at h2
            split at h2
            · injection h2 with h2; exact h2.symm
            · cases h2
          subst hlc
          refine ⟨st1, r, ?_, h3, hd.symm⟩
          simp only at h1
          split at h1
          · rename_i hl
            split at h1
            · cases h1
            · rename_i hc
              injection h1 with h1
              right
              refine ⟨by intro h0; apply hl; rw [h0]; rfl, by simpa using hc, ?_⟩
              rw [← h1, insert, if_neg hc]
          · rename_i hl
            injection h1 with h1
            left
            refine ⟨?_, h1.symm⟩
            simpa using hl
      · rename_i hloc
        obtain ⟨r, h3, h⟩ := (bind_eq_ok _ _ _).mp h
        injection h with h
        exact Or.inr (Or.inr ⟨hend, by simpa [is_located] using hloc, r, h3, h.symm⟩)

theorem before_END_cons_END (ins : instruction) (rest : List instruction)
    (h : ins.mnemonic = "END".toList) : before_END (ins :: rest) = [] := by
  unfold before_END
  apply List.takeWhile_cons_of_neg
  intro hn
  exact (of_decide_eq_true hn) h

theorem before_END_cons (ins : instruction) (rest : List instruction)
    (h : ins.mnemonic ≠ "END".toList) : before_END (ins :: rest) = ins :: before_END rest := by
  unfold before_END
  exact List.takeWhile_cons_of_pos (decide_eq_true h)

theorem find_append (st : List (List Char × Int)) (k L : List Char) (v : Int) :
    find (st ++ [(k, v)]) L
      = match find st L with
        | some x => some x
        | none => if k = L then some v else none := by
  induction st with
  | nil => simp [find]
  | cons kv rest ih =>
    simp only [List.cons_append, find]
    split
    · rfl
    · exact ih

theorem count_append (st : List (List Char × Int)) (k L : List Char) (v : Int) :
    count (st ++ [(k, v)]) L = (count st L || decide (k = L)) := by
  simp [count]

theorem find_none_of_count (st : List (List Char × Int)) (L : List Char)
    (h : count st L = false) : find st L = none := by
  cases hf : find st L with
  | none => rfl
  | some v =>
    have := (count_iff_find st L).mpr ⟨v, hf⟩
    rw [h] at this
    cases this

/-- What the location loop leaves in `SYMTAB`: the keys it found there plus the labels of
the located, labelled instructions before the first `END`, each with the location of its
instruction; values already present are never changed. -/
theorem assign_locations_symtab (si : Nat) : ∀ (l : List instruction) (i : Nat) (lc : Int)
    (st : List (List Char × Int)) (out : List instruction × Int × List (List Char × Int)),
    assign_locations si l i lc st = .ok out →
    (∀ L, count out.2.2 L = true ↔
      (count st L = true ∨ ∃ ins ∈ before_END out.1, ins.label = L ∧ defines_symbol ins = true)) ∧
    (∀ ins ∈ before_END out.1, defines_symbol ins = true →
      find out.2.2 ins.label = some ins.location) ∧
    (∀ L v, find st L = some v → find out.2.2 L = some v) := by
  intro l
  induction l with
  | nil =>
    intro i lc st out h
    rw [assign_locations] at h
    injection h with h
    subst h
    simp [before_END]
  | cons ins rest ih =>
    intro i lc st out h
    rcases assign_locations_cons si ins rest i lc st out h with
      ⟨he, rfl⟩ | ⟨he, hloc, _, st1, r, hst, hr, rfl⟩ | ⟨he, hloc, r, hr, rfl⟩
    · simp [before_END_cons_END _ _ he]
    · obtain ⟨ih1, ih2, ih3⟩ := ih _ _ _ _ hr
      have he1 : ({ ins with location := lc, has_location := true } : instruction).mnemonic
          ≠ "END".toList := he
      simp only [before_END_cons _ _ he1, List.mem_cons]
      rcases hst with ⟨hl, rfl⟩ | ⟨hl, hc, rfl⟩
      · refine ⟨?_, ?_, ih3⟩
        · intro L
          rw [ih1 L]
          constructor
          · rintro (h1 | ⟨x, hx, h2⟩)
            · exact Or.inl h1
            · exact Or.inr ⟨x, Or.inr hx, h2⟩
          · rintro (h1 | ⟨x, hx | hx, h2, h3⟩)
            · exact Or.inl h1
            · subst hx
              simp [defines_symbol, hl] at h3
            · exact Or.inr ⟨x, hx, h2, h3⟩
        · rintro x (hx | hx) hd
          · subst hx
            simp [defines_symbol, hl] at hd
          · exact ih2 x hx hd
      · have hfind : find (st ++ [(ins.label, lc)]) ins.label = some lc := by
          rw [find_append, find_none_of_count _ _ hc]
          simp
        refine ⟨?_, ?_, ?_⟩
        · intro L
          rw [ih1 L, count_append]
          constructor
          · rintro (h1 | ⟨x, hx, h2⟩)
            · simp only [Bool.or_eq_true, decide_eq_true_eq] at h1
              rcases h1 with h1 | h1
              · exact Or.inl h1
              · refine Or.inr ⟨_, Or.inl rfl, h1, ?_⟩
                simpa [defines_symbol, is_located, hl] using hloc
            · exact Or.inr ⟨x, Or.inr hx, h2⟩
          · rintro (h1 | ⟨x, hx | hx, h2, h3⟩)
            · left; simp [h1]
            · subst hx
              left
              simp only [Bool.or_eq_true, decide_eq_true_eq]
              exact Or.inr h2
            · exact Or.inr ⟨x, hx, h2, h3⟩
        · rintro x (hx | hx) hd
          · subst hx
            exact ih3 _ _ hfind
          · exact ih2 x hx hd
        · intro L v hf
          apply ih3
          rw [find_append, hf]
    · obtain ⟨ih1, ih2, ih3⟩ := ih _ _ _ _ hr
      simp only [before_END_cons _ _ he, List.mem_cons]
      refine ⟨?_, ?_, ih3⟩
      · intro L
        rw [ih1 L]
        constructor
        · rintro (h1 | ⟨x, hx, h2⟩)
          · exact Or.inl h1
          · exact Or.inr ⟨x, Or.inr hx, h2⟩
        · rintro (h1 | ⟨x, hx | hx, h2, h3⟩)
          · exact Or.inl h1
          · subst hx
            simp [defines_symbol, hloc] at h3
          · exact Or.inr ⟨x, hx, h2, h3⟩
      · rintro x (hx | hx) hd
        · subst hx
          simp [defines_symbol, hloc] at hd
        · exact ih2 x hx hd

/-- The pieces of a successful `pass_1`. -/
theorem pass_1_ok (lines : List (List Char)) (g : Globals) (h : pass_1 lines = .ok g) :
    ∃ program start_idx end_idx location_counter intermediate_file,
      read_program lines 1 = .ok program ∧
      find_start program 0 = .ok start_idx ∧
      stoi (default_start (program.getD start_idx (instruction.default [] 0))).operand 16
        = .ok g.program_starting_address ∧
      find_end (program.set start_idx
        (default_start (program.getD start_idx (instruction.default [] 0)))) 0 = .ok end_idx ∧
      assign_locations start_idx (with_defaults program start_idx end_idx) 0
        g.program_starting_address [] = .ok (g.program, location_counter, g.SYMTAB) ∧
      g.length_of_program = location_counter - g.program_starting_address ∧
      write_all g.program = .ok intermediate_file ∧
      g.program_name
        = (default_start (program.getD start_idx (instruction.default [] 0))).label ∧
      g.first_executable_instruction = 0 ∧
      int_checked (location_counter - g.program_starting_address)
        = .ok g.length_of_program := by
  unfold pass_1 at h
  obtain ⟨program, h1, ha⟩ := (bind_eq_ok _ _ _).mp h
  obtain ⟨si, h2, hb⟩ := (bind_eq_ok _ _ _).mp ha
  obtain ⟨psa, h3, hc⟩ := (bind_eq_ok _ _ _).mp hb
  obtain ⟨ei, h4, hd⟩ := (bind_eq_ok _ _ _).mp hc
  obtain ⟨r, h5, he⟩ := (bind_eq_ok _ _ _).mp hd
  obtain ⟨len, h6, hf⟩ := (bind_eq_ok _ _ _).mp he
  obtain ⟨imf, h7, hg⟩ := (bind_eq_ok _ _ _).mp hf
  injection hg with hg
  subst hg
  have hlen : len = r.2.1 - psa := by
    unfold int_checked at h6
    split at h6
    · injection h6 with h6; exact h6.symm
    · cases h6
  exact ⟨program, si, ei, r.2.1, imf, h1, h2, h3, h4, h5, hlen, h7, rfl, rfl, h6⟩

/-- The three shapes of a record the constructor returns. -/
theorem new_cases (line : List Char) (n : Nat) (ins : instruction)
    (h : instruction.new line n = .ok ins) :
    (∃ text, ins = { instruction.default line n with comment := text, is_comment := true }) ∨
    ins = { instruction.default line n with is_blank := true } ∨
    (∃ words label mnemonic operand ty sz, words ≠ [] ∧
      parse_words words = .ok (label, mnemonic, operand) ∧
      (if operand.length ≠ 0 then classify_operand operand else .ok .O_NOOPD) = .ok ty ∧
      compute_size mnemonic operand ty = .ok sz ∧
      ins = { instruction.default line n with
              label := label, mnemonic := mnemonic, operand := operand,
              type_of_operand := ty, size_in_memory := sz }) := by
  unfold instruction.new at h
  cases hc : comment_scan line with
  | some text =>
    rw [hc] at h
    injection h with h
    exact Or.inl ⟨text, h.symm⟩
  | none =>
    rw [hc] at h
    simp only at h
    split at h
    · injection h with h
      exact Or.inr (Or.inl h.symm)
    · rename_i hw
      obtain ⟨lmo, h1, h⟩ := (bind_eq_ok _ _ _).mp h
      obtain ⟨lok, h2, h⟩ := (bind_eq_ok _ _ _).mp h
      split at h
      · cases h
      · obtain ⟨ty, h3, h⟩ := (bind_eq_ok _ _ _).mp h
        obtain ⟨sz, h4, h⟩ := (bind_eq_ok _ _ _).mp h
        injection h with h
        refine Or.inr (Or.inr ⟨_, lmo.1, lmo.2.1, lmo.2.2, ty, sz, ?_, h1, h3, h4, h.symm⟩)
        intro h0
        exact hw (by rw [h0]; rfl)

theorem parse_words_keyword (words : List (List Char)) (label mnemonic operand : List Char)
    (hw : words ≠ []) (h : parse_words words = .ok (label, mnemonic, operand)) :
    is_keyword mnemonic = true := by
  unfold parse_words at h
  split at h
  · exact absurd rfl hw
  · split at h
    · rename_i hc
      injection h with h
      injection h with _ h
      injection h with h _
      subst h
      simp [is_keyword, hc]
    · split at h
      · rename_i hc
        injection h with h
        injection h with _ h
        injection h with h _
        subst h
        simp [is_keyword, hc]
      · cases h
  · rename_i w0 w1
    simp only at h
    by_cases h0 : is_keyword w0 = true <;> by_cases h1 : is_keyword w1 = true <;>
      simp [h0, h1] at h
    · obtain ⟨_, rfl, _⟩ := h
      exact h0
    · obtain ⟨_, rfl, _⟩ := h
      exact h1
  · rename_i w0 w1 w2
    split at h
    · cases h
    · rename_i hc
      injection h with h
      injection h with _ h
      injection h with h _
      subst h
      unfold is_keyword
      cases h1 : count OPTAB w1 <;> cases h2 : count DIRECTIVES w1 <;> simp [h1, h2] at hc ⊢
  · cases h

theorem classify_operand_CHRAR (operand : List Char)
    (h : classify_operand operand = .ok .O_CHRAR) : operand.length ≤ 33 := by
  unfold classify_operand at h
  simp only at h
  split at h
  · split at h
    · cases h
    · split at h
      · cases h
      · obtain ⟨ok, _, h⟩ := (bind_eq_ok _ _ _).mp h
        split at h <;> cases h
  · split at h
    · split at h
      · cases h
      · split at h
        · split at h <;> cases h
        · split at h
          · split at h
            · cases h
            · split at h
              · cases h
              · split at h
                · cases h
                · omega
          · cases h
    · split at h
      · split at h <;> cases h
      · obtain ⟨ok, _, h⟩ := (bind_eq_ok _ _ _).mp h
        split at h <;> cases h

theorem compute_size_END (operand : List Char) (ty : OperandType) (sz : Int)
    (h : compute_size "END".toList operand ty = .ok sz) : sz = 0 := by
  unfold compute_size at h
  rw [if_neg (by decide), if_pos (Or.inr rfl)] at h
  injection h with h
  exact h.symm

theorem new_parsed_ok (line : List Char) (n : Nat) (ins : instruction)
    (h : instruction.new line n = .ok ins) : parsed_ok ins := by
  rcases new_cases line n ins h with
    ⟨text, rfl⟩ | rfl | ⟨words, label, mnemonic, operand, ty, sz, hw, hp, hty, hsz, rfl⟩
  · simp [parsed_ok, instruction.default]
  · simp [parsed_ok, instruction.default]
  · have hk := parse_words_keyword words label mnemonic operand hw hp
    have hne : mnemonic ≠ [] := by
      intro h0
      rw [h0] at hk
      revert hk
      decide
    refine ⟨rfl, rfl, rfl, ?_, ?_, ?_, ?_, ?_⟩
    · intro ho
      have ho1 : operand = [] := ho
      rw [ho1] at hty
      simp only [List.length_nil, ne_eq, not_true_eq_false, if_false] at hty
      injection hty with hty
      exact hty.symm
    · intro hm
      exact absurd hm hne
    · intro _
      exact ⟨rfl, rfl⟩
    · intro hm
      have hm1 : mnemonic = "END".toList := hm
      rw [hm1] at hsz
      exact compute_size_END _ _ _ hsz
    · intro ht
      have ht1 : ty = .O_CHRAR := ht
      subst ht1
      split at hty
      · exact classify_operand_CHRAR _ hty
      · cases hty

theorem read_program_parsed : ∀ (lines : List (List Char)) (n : Nat)
    (program : List instruction), read_program lines n = .ok program →
    ∀ ins ∈ program, parsed_ok ins := by
  intro lines
  induction lines with
  | nil =>
    intro n program h
    rw [read_program] at h
    injection h with h
    subst h
    simp
  | cons line rest ih =>
    intro n program h
    rw [read_program] at h
    obtain ⟨ins, h1, ha⟩ := (bind_eq_ok _ _ _).mp h
    obtain ⟨tail, h2, hb⟩ := (bind_eq_ok _ _ _).mp ha
    injection hb with hb
    subst hb
    intro x hx
    rcases List.mem_cons.mp hx with hx | hx
    · subst hx
      exact new_parsed_ok _ _ _ h1
    · exact ih _ _ h2 x hx

/-! ### Relating the program before and after `pass_1` -/

theorem forall2_refl {R : instruction → instruction → Prop} (hR : ∀ y, R y y) :
    ∀ l : List instruction, List.Forall₂ R l l := by
  intro l
  induction l with
  | nil => exact List.Forall₂.nil
  | cons a l ih => exact List.Forall₂.cons (hR a) ih

theorem forall2_set_getD {R : instruction → instruction → Prop} (hR : ∀ y, R y y)
    (f : instruction → instruction) (hf : ∀ y, R y (f y)) (d : instruction) :
    ∀ (l : List instruction) (i : Nat), List.Forall₂ R l (l.set i (f (l.getD i d))) := by
  intro l
  induction l with
  | nil => intro i; exact List.Forall₂.nil
  | cons a l ih =>
    intro i
    cases i with
    | zero => exact List.Forall₂.cons (hf a) (forall2_refl hR l)
    | succ i =>
      simp only [List.set_cons_succ, List.getD_cons_succ]
      exact List.Forall₂.cons (hR a) (ih i)

theorem forall2_trans {R : instruction → instruction → Prop}
    (hR : ∀ a b c, R a b → R b c → R a c) :
    ∀ (l1 l2 l3 : List instruction), List.Forall₂ R l1 l2 → List.Forall₂ R l2 l3 →
      List.Forall₂ R l1 l3 := by
  intro l1 l2 l3 h12
  induction h12 generalizing l3 with
  | nil => intro h; cases h; exact List.Forall₂.nil
  | cons hab _ ih =>
    intro h
    cases h with
    | cons hbc h23 => exact List.Forall₂.cons (hR _ _ _ hab hbc) (ih _ h23)

theorem forall2_left {R : instruction → instruction → Prop} {l1 l2 : List instruction}
    (h : List.Forall₂ R l1 l2) : ∀ b ∈ l2, ∃ a ∈ l1, R a b := by
  induction h with
  | nil => intro b hb; cases hb
  | cons hab _ ih =>
    intro b hb
    rcases List.mem_cons.mp hb with hb | hb
    · subst hb
      exact ⟨_, List.mem_cons_self _ _, hab⟩
    · obtain ⟨a, ha, hr⟩ := ih b hb
      exact ⟨a, List.mem_cons_of_mem _ ha, hr⟩

theorem same_core_refl (a : instruction) : same_core a a :=
  ⟨rfl, rfl, rfl, rfl, rfl, rfl, rfl⟩

theorem defaulted_refl (a : instruction) : defaulted a a :=
  ⟨same_core_refl a, fun _ => rfl, fun _ => rfl, rfl, rfl⟩

theorem defaulted_trans (a b c : instruction) (h1 : defaulted a b) (h2 : defaulted b c) :
    defaulted a c := by
  obtain ⟨⟨m1, s1, t1, c1, b1, o1, x1⟩, l1, p1, q1, r1⟩ := h1
  obtain ⟨⟨m2, s2, t2, c2, b2, o2, x2⟩, l2, p2, q2, r2⟩ := h2
  refine ⟨⟨m2.trans m1, s2.trans s1, t2.trans t1, c2.trans c1, b2.trans b1, o2.trans o1,
    x2.trans x1⟩, ?_, ?_, q2.trans q1, r2.trans r1⟩
  · intro h
    have := l1 h
    rw [l2 (by rw [this]; exact h), this]
  · intro h
    have := p1 h
    rw [p2 (by rw [this]; exact h), this]

theorem defaulted_default_start (a : instruction) : defaulted a (default_start a) := by
  unfold default_start
  by_cases h1 : a.label = [] <;> by_cases h2 : a.operand = [] <;>
    simp [h1, h2, defaulted, same_core]

theorem defaulted_default_end (lbl : List Char) (a : instruction) :
    defaulted a (default_end lbl a) := by
  unfold default_end
  by_cases h2 : a.operand = [] <;> simp [h2, defaulted, same_core]

theorem with_defaults_defaulted (program : List instruction) (si ei : Nat) :
    List.Forall₂ defaulted program (with_defaults program si ei) := by
  unfold with_defaults
  exact forall2_trans defaulted_trans _ _ _
    (forall2_set_getD defaulted_refl default_start defaulted_default_start _ program si)
    (forall2_set_getD defaulted_refl _ (defaulted_default_end _) _ _ ei)

theorem assign_locations_relocated (si : Nat) : ∀ (l : List instruction) (i : Nat) (lc : Int)
    (st : List (List Char × Int)) (out : List instruction × Int × List (List Char × Int)),
    assign_locations si l i lc st = .ok out → List.Forall₂ relocated l out.1 := by
  intro l
  induction l with
  | nil =>
    intro i lc st out h
    rw [assign_locations] at h
    injection h with h
    subst h
    exact List.Forall₂.nil
  | cons ins rest ih =>
    intro i lc st out h
    have hrefl : ∀ y, relocated y y := fun y => ⟨same_core_refl y, rfl, rfl⟩
    rcases assign_locations_cons si ins rest i lc st out h with
      ⟨_, rfl⟩ | ⟨_, _, _, st1, r, _, hr, rfl⟩ | ⟨_, _, r, hr, rfl⟩
    · exact forall2_refl hrefl _
    · exact List.Forall₂.cons ⟨⟨rfl, rfl, rfl, rfl, rfl, rfl, rfl⟩, rfl, rfl⟩ (ih _ _ _ _ hr)
    · exact List.Forall₂.cons (hrefl ins) (ih _ _ _ _ hr)

/-- What holds of every record of the program after `pass_1`. -/
theorem pass_1_program (lines : List (List Char)) (g : Globals) (h : pass_1 lines = .ok g) :
    ∀ ins ∈ g.program,
      ins.has_object_code = false ∧ ins.object_code = [] ∧
      (ins.mnemonic ≠ [] → ins.is_comment = false ∧ ins.is_blank = false) ∧
      (ins.mnemonic = "END".toList → ins.size_in_memory = 0) ∧
      (ins.type_of_operand = .O_CHRAR → ins.operand.length ≤ 33) := by
  obtain ⟨program, si, ei, lc, imf, h1, _, _, _, h5, _⟩ := pass_1_ok lines g h
  intro c hc
  obtain ⟨b, hb, ⟨m2, s2, t2, c2, b2, o2, x2⟩, l2, p2⟩ :=
    forall2_left (assign_locations_relocated _ _ _ _ _ _ h5) c hc
  obtain ⟨a, ha, ⟨m1, s1, t1, c1, b1, o1, x1⟩, l1, p1, q1, r1⟩ :=
    forall2_left (with_defaults_defaulted program si ei) b hb
  obtain ⟨f1, f2, f3, f4, f5, f6, f7, f8⟩ := read_program_parsed _ _ _ h1 a ha
  refine ⟨by rw [x2, x1, f2], by rw [o2, o1, f3], ?_, ?_, ?_⟩
  · intro hm
    rw [c2, c1, b2, b1]
    exact f6 (by rw [← m1, ← m2]; exact hm)
  · intro hm
    rw [s2, s1]
    exact f7 (by rw [← m1, ← m2]; exact hm)
  · intro ht
    have hta : a.type_of_operand = .O_CHRAR := by rw [← t1, ← t2]; exact ht
    have hne : a.operand ≠ [] := by
      intro h0
      rw [f4 h0] at hta
      cases hta
    rw [p2, p1 hne]
    exact f8 hta

theorem pass_1_unlocated (lines : List (List Char)) (program : List instruction)
    (h1 : read_program lines 1 = .ok program) (si ei : Nat) :
    ∀ ins ∈ with_defaults program si ei, ins.has_location = false := by
  intro b hb
  obtain ⟨a, ha, _, _, _, q1, _⟩ := forall2_left (with_defaults_defaulted program si ei) b hb
  rw [q1]
  exact (read_program_parsed _ _ _ h1 a ha).1

theorem mem_upto_END : ∀ (l : List instruction) (x : instruction),
    x ∈ upto_END l → x ∈ before_END l ∨ x.mnemonic = "END".toList := by
  intro l
  induction l with
  | nil => intro x hx; cases hx
  | cons a l ih =>
    intro x hx
    rw [upto_END] at hx
    split at hx
    · rename_i he
      rw [List.mem_singleton] at hx
      subst hx
      exact Or.inr he
    · rename_i he
      rw [before_END_cons _ _ he]
      rcases List.mem_cons.mp hx with hx | hx
      · exact Or.inl (hx ▸ List.mem_cons_self _ _)
      · rcases ih x hx with h | h
        · exact Or.inl (List.mem_cons_of_mem _ h)
        · exact Or.inr h

theorem before_END_subset_upto_END : ∀ (l : List instruction) (x : instruction),
    x ∈ before_END l → x ∈ upto_END l := by
  intro l
  induction l with
  | nil => intro x hx; exact hx
  | cons a l ih =>
    intro x hx
    by_cases he : a.mnemonic = "END".toList
    · rw [before_END_cons_END _ _ he] at hx
      cases hx
    · rw [before_END_cons _ _ he] at hx
      rw [upto_END, if_neg he]
      rcases List.mem_cons.mp hx with hx | hx
      · exact hx ▸ List.mem_cons_self _ _
      · exact List.mem_cons_of_mem _ (ih x hx)

theorem before_END_subset (l : List instruction) (x : instruction)
    (h : x ∈ before_END l) : x ∈ l :=
  (List.takeWhile_sublist _).subset h

theorem defines_symbol_iff (ins : instruction) :
    defines_symbol ins = true ↔
      (ins.label ≠ [] ∧ (ins.size_in_memory ≠ 0 ∨ ins.mnemonic = "START".toList)) := by
  unfold defines_symbol is_located
  rw [Bool.and_eq_true, Bool.or_eq_true, decide_eq_true_eq, decide_eq_true_eq,
    decide_eq_true_eq]
  exact And.comm

theorem stoi_range (str : List Char) (base : Nat) (r : Int) (h : stoi str base = .ok r) :
    -2147483648 ≤ r ∧ r ≤ 2147483647 := by
  unfold stoi at h
  simp only at h
  split at h
  · cases h
  · split at h
    · rename_i hr
      injection h with h
      rw [← h]
      exact hr
    · cases h

theorem to_hex_length_le (n : Int) (size : Nat) (h : n.natAbs < 16 ^ 8) :
    (to_hex n size).length ≤ size + 8 := by
  have := hex_digits_rev_length_le n 8 h
  unfold to_hex pad_zeros
  simp only [List.length_reverse, List.length_append, List.length_replicate]
  omega

theorem encode_chars_length : ∀ (cs code : List Char), encode_chars cs = .ok code →
    code.length = 2 * cs.length := by
  intro cs
  induction cs with
  | nil =>
    intro code h
    rw [encode_chars] at h
    injection h with h
    subst h
    rfl
  | cons c rest ih =>
    intro code h
    rw [encode_chars] at h
    obtain ⟨hc, h1, ha⟩ := (bind_eq_ok _ _ _).mp h
    obtain ⟨t, h2, hb⟩ := (bind_eq_ok _ _ _).mp ha
    injection hb with hb
    subst hb
    have hlen : hc.length = 2 := by
      unfold encode_char at h1
      simp only at h1
      split at h1
      · injection h1 with h1
        subst h1
        rfl
      · cases h1
    rw [List.length_append, hlen, ih _ h2, List.length_cons]
    ring

/-- No object code `pass_2` gives an instruction is longer than 60 characters, when the
instruction had none before and a character array operand has at most 33 characters. -/
theorem encode_instruction_length (symtab : List (List Char × Int)) (ins ins1 : instruction)
    (h : encode_instruction symtab ins = .ok ins1) (h0 : ins.object_code = [])
    (hch : ins.type_of_operand = .O_CHRAR → ins.operand.length ≤ 33) :
    ins1.object_code.length ≤ 60 := by
  unfold encode_instruction at h
  split at h
  · split at h
    · cases h
    · injection h with h
      subst h
      simp [h0]
  · split at h
    · simp only at h
      split at h
      · cases h
      · split at h
        · cases h
        · split at h
          · obtain ⟨data, h1, ha⟩ := (bind_eq_ok _ _ _).mp h
            split at ha
            · cases ha
            · injection ha with ha
              subst ha
              have hr := stoi_range _ _ _ h1
              have hl := to_hex_length_le data (2 * max_data_size ins.mnemonic) (by omega)
              have hm : max_data_size ins.mnemonic ≤ 3 := by
                unfold max_data_size; split <;> omega
              show (to_hex data (2 * max_data_size ins.mnemonic)).length ≤ 60
              omega
          · split at h
            · split at h
              · cases h
              · rename_i hlen
                injection h with h
                subst h
                simp only [ne_eq, Decidable.not_not] at hlen
                show List.length _ ≤ 60
                rw [hlen]
                omega
            · split at h
              · rename_i hty
                obtain ⟨code, h1, ha⟩ := (bind_eq_ok _ _ _).mp h
                injection ha with ha
                subst ha
                have := encode_chars_length _ _ h1
                have hop := hch hty
                show (ins.object_code ++ code).length ≤ 60
                rw [List.length_append, h0, this, List.length_take, List.length_drop]
                simp only [List.length_nil]
                omega
              · cases h
    · split at h
      · split at h
        · cases h
        · injection h with h
          subst h
          show "4C0000".toList.length ≤ 60
          decide
      · split at h
        · cases h
        · simp only at h
          split at h
          · cases h
          · obtain ⟨data, h1, ha⟩ := (bind_eq_ok _ _ _).mp h
            split at ha
            · cases ha
            · rename_i hlen
              injection ha with ha
              subst ha
              show (pad_zeros (hex_digits_rev data) 6).reverse.length ≤ 60
              unfold pad_zeros
              simp only [List.length_reverse, List.length_append, List.length_replicate]
              omega

/-- One iteration of the main loop of `pass_2`, read backwards from a successful result. -/
theorem encode_program_cons (symtab : List (List Char × Int)) (ins : instruction)
    (rest : List instruction) (fei : Int) (out : List instruction × Int)
    (h : encode_program symtab (ins :: rest) fei = .ok out) :
    (is_skipped ins ∧ ∃ r, encode_program symtab rest fei = .ok r ∧ out = (ins :: r.1, r.2)) ∨
    (¬ is_skipped ins ∧ ins.mnemonic = "END".toList ∧ ins.type_of_operand = .O_LABEL ∧
      count symtab ins.operand = true ∧ out = (ins :: rest, at_key symtab ins.operand)) ∨
    (¬ is_skipped ins ∧ ins.mnemonic ≠ "END".toList ∧
      ∃ ins1 r, encode_instruction symtab ins = .ok ins1 ∧
        encode_program symtab rest fei = .ok r ∧ out = (ins1 :: r.1, r.2)) := by
  rw [encode_program] at h
  split at h
  · rename_i hs
    obtain ⟨r, h1, ha⟩ := (bind_eq_ok _ _ _).mp h
    injection ha with ha
    exact Or.inl ⟨hs, r, h1, ha.symm⟩
  · rename_i hs
    split at h
    · rename_i he
      split at h
      · cases h
      · rename_i hty
        split at h
        · cases h
        · rename_i hc
          injection h with h
          refine Or.inr (Or.inl ⟨hs, he, ?_, ?_, h.symm⟩)
          · simpa using hty
          · simpa using hc
    · rename_i he
      obtain ⟨ins1, h1, ha⟩ := (bind_eq_ok _ _ _).mp h
      obtain ⟨r, h2, hb⟩ := (bind_eq_ok _ _ _).mp ha
      injection hb with hb
      exact Or.inr (Or.inr ⟨hs, he, ins1, r, h1, h2, hb.symm⟩)

theorem encode_program_length (symtab : List (List Char × Int)) :
    ∀ (l : List instruction) (fei : Int) (out : List instruction × Int),
    encode_program symtab l fei = .ok out →
    (∀ ins ∈ l, ins.object_code = [] ∧
      (ins.type_of_operand = .O_CHRAR → ins.operand.length ≤ 33)) →
    ∀ ins ∈ out.1, ins.object_code.length ≤ 60 := by
  intro l
  induction l with
  | nil =>
    intro fei out h _
    rw [encode_program] at h
    injection h with h
    subst h
    simp
  | cons ins rest ih =>
    intro fei out h hl
    have hrest : ∀ x ∈ rest, x.object_code = [] ∧
        (x.type_of_operand = .O_CHRAR → x.operand.length ≤ 33) :=
      fun x hx => hl x (List.mem_cons_of_mem _ hx)
    have hins := hl ins (List.mem_cons_self _ _)
    have hfresh : ∀ x ∈ ins :: rest, x.object_code.length ≤ 60 := by
      intro x hx
      rw [(hl x hx).1]
      simp
    rcases encode_program_cons symtab ins rest fei out h with
      ⟨_, r, hr, rfl⟩ | ⟨_, _, _, _, rfl⟩ | ⟨_, _, ins1, r, h1, hr, rfl⟩
    · intro x hx
      rcases List.mem_cons.mp hx with hx | hx
      · exact hfresh x (hx ▸ List.mem_cons_self _ _)
      · exact ih _ _ hr hrest x hx
    · exact hfresh
    · intro x hx
      rcases List.mem_cons.mp hx with hx | hx
      · subst hx
        exact encode_instruction_length symtab ins _ h1 hins.1 hins.2
      · exact ih _ _ hr hrest x hx

theorem record_ok_new (location : Int) (object_code : List Char)
    (h : object_code.length ≤ 60) :
    record_ok ((text_record.new location).insert object_code) := by
  simp [record_ok, text_record.new, text_record.insert, h]

theorem record_ok_insert (tr : text_record) (object_code : List Char) (h : record_ok tr)
    (hlen : ¬ tr.total_length + object_code.length > 60) :
    record_ok (tr.insert object_code) := by
  obtain ⟨h1, h2⟩ := h
  simp only [record_ok, text_record.insert, List.map_append, List.sum_append, List.map_cons,
    List.map_nil, List.sum_cons, List.sum_nil]
  omega

/-- The packer keeps every text record within 60 characters. -/
theorem generate_records_ok (g : Globals) : ∀ (l : List instruction) (st out : Records),
    generate_records g l st = .ok out →
    (∀ ins ∈ l, ins.object_code.length ≤ 60) →
    (∀ tr ∈ st.text_records, record_ok tr) →
    ∀ tr ∈ out.text_records, record_ok tr := by
  intro l
  induction l with
  | nil =>
    intro st out h _ hst
    rw [generate_records] at h
    injection h with h
    subst h
    exact hst
  | cons ins rest ih =>
    intro st out h hl hst
    have hrest : ∀ x ∈ rest, x.object_code.length ≤ 60 :=
      fun x hx => hl x (List.mem_cons_of_mem _ hx)
    have hins := hl ins (List.mem_cons_self _ _)
    rw [generate_records] at h
    split at h
    · exact ih _ _ h hrest hst
    · split at h
      · exact ih _ _ h hrest hst
      · split at h
        · injection h with h
          subst h
          exact hst
        · split at h
          · exact ih _ _ h hrest hst
          · split at h
            · refine ih _ _ h hrest ?_
              intro tr htr
              rcases List.mem_append.mp htr with htr | htr
              · exact hst tr htr
              · rw [List.mem_singleton] at htr
                subst htr
                exact record_ok_new _ _ hins
            · split at h
              · cases h
              · rename_i back hback
                have hmem : back ∈ st.text_records := List.mem_of_getLast?_eq_some hback
                split at h
                · refine ih _ _ h hrest ?_
                  intro tr htr
                  rcases List.mem_append.mp htr with htr | htr
                  · exact hst tr htr
                  · rw [List.mem_singleton] at htr
                    subst htr
                    exact record_ok_new _ _ hins
                · rename_i hlen
                  refine ih _ _ h hrest ?_
                  intro tr htr
                  rcases List.mem_append.mp htr with htr | htr
                  · exact hst tr (List.dropLast_subset _ htr)
                  · rw [List.mem_singleton] at htr
                    subst htr
                    exact record_ok_insert _ _ (hst back hmem) hlen

/-- The pieces of a successful `pass_2`. -/
theorem pass_2_ok (g g2 : Globals) (h : pass_2 g = .ok g2) :
    ∃ r listing recs,
      encode_program g.SYMTAB g.program g.first_executable_instruction = .ok r ∧
      write_listing r.1 = .ok listing ∧
      generate_records { g with program := r.1, first_executable_instruction := r.2 } r.1
        { header_record := [], insert_new := true, text_records := [], end_record := [] }
        = .ok recs ∧
      g2.program = r.1 ∧ g2.first_executable_instruction = r.2 ∧
      g2.SYMTAB = g.SYMTAB ∧ g2.length_of_program = g.length_of_program ∧
      g2.program_starting_address = g.program_starting_address ∧
      g2.program_name = g.program_name ∧
      g2.header_record = recs.header_record ∧ g2.text_records = recs.text_records ∧
      g2.end_record = recs.end_record := by
  unfold pass_2 at h
  obtain ⟨r, h1, ha⟩ := (bind_eq_ok _ _ _).mp h
  obtain ⟨listing, h2, hb⟩ := (bind_eq_ok _ _ _).mp ha
  obtain ⟨recs, h3, hc⟩ := (bind_eq_ok _ _ _).mp hb
  injection hc with hc
  subst hc
  exact ⟨r, listing, recs, h1, h2, h3, rfl, rfl, rfl, rfl, rfl, rfl, rfl, rfl, rfl⟩

theorem assemble_ok (lines : List (List Char)) (g2 : Globals) (h : assemble lines = .ok g2) :
    ∃ g, pass_1 lines = .ok g ∧ pass_2 g = .ok g2 := by
  unfold assemble at h
  exact (bind_eq_ok _ _ _).mp h

/-! ### Cutting a program after its first `END` -/

theorem upto_END_cons_END (ins : instruction) (rest : List instruction)
    (h : ins.mnemonic = "END".toList) : upto_END (ins :: rest) = [ins] := by
  rw [upto_END, if_pos h]

theorem upto_END_cons (ins : instruction) (rest : List instruction)
    (h : ins.mnemonic ≠ "END".toList) : upto_END (ins :: rest) = ins :: upto_END rest := by
  rw [upto_END, if_neg h]

theorem after_END_cons_END (ins : instruction) (rest : List instruction)
    (h : ins.mnemonic = "END".toList) : after_END (ins :: rest) = rest := by
  simp [after_END, before_END_cons_END _ _ h]

theorem after_END_cons (ins : instruction) (rest : List instruction)
    (h : ins.mnemonic ≠ "END".toList) : after_END (ins :: rest) = after_END rest := by
  simp [after_END, before_END_cons _ _ h]

theorem upto_END_eq_take : ∀ l : List instruction,
    upto_END l = l.take ((before_END l).length + 1) := by
  intro l
  induction l with
  | nil => rfl
  | cons a l ih =>
    by_cases he : a.mnemonic = "END".toList
    · rw [upto_END_cons_END _ _ he, before_END_cons_END _ _ he]
      simp
    · rw [upto_END_cons _ _ he, before_END_cons _ _ he, ih]
      simp

theorem before_END_length_congr {R : instruction → instruction → Prop}
    (hR : ∀ a b, R a b → b.mnemonic = a.mnemonic) {l1 l2 : List instruction}
    (h : List.Forall₂ R l1 l2) : (before_END l2).length = (before_END l1).length := by
  induction h with
  | nil => rfl
  | @cons a b l1 l2 hab _ ih =>
    have hm := hR a b hab
    by_cases he : a.mnemonic = "END".toList
    · rw [before_END_cons_END _ _ he, before_END_cons_END _ _ (by rw [hm]; exact he)]
    · rw [before_END_cons _ _ he, before_END_cons _ _ (by rw [hm]; exact he)]
      simp [ih]

theorem read_program_take : ∀ (lines : List (List Char)) (n m : Nat)
    (program : List instruction), read_program lines n = .ok program →
    read_program (lines.take m) n = .ok (program.take m) := by
  intro lines
  induction lines with
  | nil =>
    intro n m program h
    rw [read_program] at h
    injection h with h
    subst h
    simp [read_program]
  | cons line rest ih =>
    intro n m program h
    rw [read_program] at h
    obtain ⟨ins, h1, ha⟩ := (bind_eq_ok _ _ _).mp h
    obtain ⟨tail, h2, hb⟩ := (bind_eq_ok _ _ _).mp ha
    injection hb with hb
    subst hb
    cases m with
    | zero => simp [read_program]
    | succ m =>
      rw [List.take_succ_cons, List.take_succ_cons, read_program, h1, ih _ _ _ h2]
      rfl

theorem find_start_upto : ∀ (l : List instruction) (i si : Nat),
    find_start l i = .ok si →
    find_start (upto_END l) i = .ok si ∧ i ≤ si ∧ si < i + (before_END l).length := by
  intro l
  induction l with
  | nil =>
    intro i si h
    rw [find_start] at h
    cases h
  | cons a l ih =>
    intro i si h
    rw [find_start] at h
    split at h
    · rename_i hs
      injection h with h
      subst h
      have he : a.mnemonic ≠ "END".toList := by
        rw [hs]; decide
      rw [upto_END_cons _ _ he, before_END_cons _ _ he, find_start, if_pos hs]
      simp
    · rename_i hs
      split at h
      · cases h
      · rename_i hm
        have hm1 : a.mnemonic = [] := by simpa using hm
        have he : a.mnemonic ≠ "END".toList := by
          rw [hm1]; decide
        obtain ⟨h1, h2, h3⟩ := ih _ _ h
        rw [upto_END_cons _ _ he, before_END_cons _ _ he, find_start, if_neg hs, if_neg hm]
        refine ⟨h1, by omega, ?_⟩
        simp only [List.length_cons]
        omega

theorem find_end_upto : ∀ (l : List instruction) (i ei : Nat),
    find_end l i = .ok ei →
    find_end (upto_END l) i = .ok ei ∧ ei = i + (before_END l).length ∧
      (before_END l).length < l.length := by
  intro l
  induction l with
  | nil =>
    intro i ei h
    rw [find_end] at h
    cases h
  | cons a l ih =>
    intro i ei h
    rw [find_end] at h
    split at h
    · rename_i he
      injection h with h
      subst h
      rw [upto_END_cons_END _ _ he, before_END_cons_END _ _ he, find_end, if_pos he]
      simp
    · rename_i he
      obtain ⟨h1, h2, h3⟩ := ih _ _ h
      rw [upto_END_cons _ _ he, before_END_cons _ _ he, find_end, if_neg he]
      refine ⟨h1, ?_, ?_⟩ <;> simp only [List.length_cons] <;> omega

theorem getD_take (l : List instruction) (i m : Nat) (d : instruction) (h : i < m) :
    (l.take m).getD i d = l.getD i d := by
  simp [List.getD_eq_getElem?_getD, List.getElem?_take, h]

theorem with_defaults_take (l : List instruction) (si ei m : Nat) (h1 : si < m)
    (h2 : ei < m) : with_defaults (l.take m) si ei = (with_defaults l si ei).take m := by
  unfold with_defaults
  simp only [List.set_take, getD_take _ _ _ _ h1]
  rw [← List.set_take, getD_take _ _ _ _ h2]

theorem map_ok {ε α β : Type} (f : α → β) (a : α) :
    Except.map f (Except.ok a : Except ε α) = .ok (f a) := rfl

theorem map_error {ε α β : Type} (f : α → β) (e : ε) :
    Except.map f (Except.error e : Except ε α) = .error e := rfl

/-- The location loop does on the program cut after its first `END` what it does on the
whole program. -/
theorem assign_locations_upto (si : Nat) : ∀ (l : List instruction) (i : Nat) (lc : Int)
    (st : List (List Char × Int)),
    assign_locations si (upto_END l) i lc st
      = (assign_locations si l i lc st).map (fun out => (upto_END out.1, out.2)) := by
  intro l
  induction l with
  | nil => intro i lc st; rfl
  | cons a l ih =>
    intro i lc st
    by_cases he : a.mnemonic = "END".toList
    · rw [upto_END_cons_END _ _ he]
      conv_lhs => rw [assign_locations]
      conv_rhs => rw [assign_locations]
      by_cases hs : a.mnemonic = "START".toList ∧ i ≠ si
      · rw [if_pos hs, if_pos hs]; rfl
      · rw [if_neg hs, if_neg hs, if_pos he, if_pos he, map_ok, upto_END_cons_END _ _ he]
    · rw [upto_END_cons _ _ he]
      conv_lhs => rw [assign_locations]
      conv_rhs => rw [assign_locations]
      by_cases hs : a.mnemonic = "START".toList ∧ i ≠ si
      · rw [if_pos hs, if_pos hs]; rfl
      · rw [if_neg hs, if_neg hs, if_neg he, if_neg he]
        by_cases hl : a.size_in_memory ≠ 0 ∨ a.mnemonic = "START".toList
        · rw [if_pos hl, if_pos hl]
          simp only [ih]
          cases h1 : (if a.label.length ≠ 0 then
              (if count st a.label = true then Except.error (Err.E_SALEX a.label)
               else Except.ok (insert st a.label lc))
             else Except.ok st : Except Err (List (List Char × Int))) with
          | error e => simp only [h1, bind, Except.bind, map_error]
          | ok st1 =>
            simp only [h1, bind, Except.bind]
            cases h2 : int_checked (lc + a.size_in_memory) with
            | error e => simp only [map_error]
            | ok lc1 =>
              simp only
              cases h3 : assign_locations si l (i + 1) lc1 st1 with
              | error e => simp only [map_error]
              | ok r =>
                simp only [map_ok]
                rw [upto_END_cons _ _ (by exact he)]
        · rw [if_neg hl, if_neg hl]
          simp only [ih]
          cases h3 : assign_locations si l (i + 1) lc st with
          | error e => simp only [bind, Except.bind, map_error]
          | ok r =>
            simp only [bind, Except.bind, map_ok]
            rw [upto_END_cons _ _ he]

theorem write_all_upto : ∀ (l : List instruction) (s : List Char),
    write_all l = .ok s → ∃ s1, write_all (upto_END l) = .ok s1 := by
  intro l
  induction l with
  | nil => intro s h; exact ⟨s, h⟩
  | cons a l ih =>
    intro s h
    rw [write_all] at h
    obtain ⟨s1, h1, ha⟩ := (bind_eq_ok _ _ _).mp h
    obtain ⟨t, h2, _⟩ := (bind_eq_ok _ _ _).mp ha
    by_cases he : a.mnemonic = "END".toList
    · rw [upto_END_cons_END _ _ he]
      exact ⟨s1 ++ [], by simp only [write_all, h1, bind, Except.bind]⟩
    · obtain ⟨t1, h3⟩ := ih _ h2
      rw [upto_END_cons _ _ he]
      exact ⟨s1 ++ t1, by simp only [write_all, h1, h3, bind, Except.bind]⟩

theorem write_listing_upto : ∀ (l : List instruction) (s : List Char),
    write_listing l = .ok s → ∃ s1, write_listing (upto_END l) = .ok s1 := by
  intro l
  induction l with
  | nil => intro s h; exact ⟨s, h⟩
  | cons a l ih =>
    intro s h
    rw [write_listing] at h
    obtain ⟨s1, h1, ha⟩ := (bind_eq_ok _ _ _).mp h
    obtain ⟨t, h2, _⟩ := (bind_eq_ok _ _ _).mp ha
    by_cases he : a.mnemonic = "END".toList
    · rw [upto_END_cons_END _ _ he]
      exact ⟨a.object_code ++ INDENT ++ s1 ++ [],
        by simp only [write_listing, h1, bind, Except.bind]⟩
    · obtain ⟨t1, h3⟩ := ih _ h2
      rw [upto_END_cons _ _ he]
      exact ⟨a.object_code ++ INDENT ++ s1 ++ t1,
        by simp only [write_listing, h1, h3, bind, Except.bind]⟩

theorem assign_locations_after_END (si : Nat) : ∀ (l : List instruction) (i : Nat) (lc : Int)
    (st : List (List Char × Int)) (out : List instruction × Int × List (List Char × Int)),
    assign_locations si l i lc st = .ok out → after_END out.1 = after_END l := by
  intro l
  induction l with
  | nil =>
    intro i lc st out h
    rw [assign_locations] at h
    injection h with h
    subst h
    rfl
  | cons ins rest ih =>
    intro i lc st out h
    rcases assign_locations_cons si ins rest i lc st out h with
      ⟨_, rfl⟩ | ⟨he, _, _, st1, r, _, hr, rfl⟩ | ⟨he, _, r, hr, rfl⟩
    · rfl
    · have he1 : ({ ins with location := lc, has_location := true } : instruction).mnemonic
          ≠ "END".toList := he
      rw [after_END_cons _ _ he1, after_END_cons _ _ he]
      exact ih _ _ _ _ hr
    · rw [after_END_cons _ _ he, after_END_cons _ _ he]
      exact ih _ _ _ _ hr

/-- A successful `pass_1` put together from its pieces. -/
theorem pass_1_of_parts (lines : List (List Char)) (program : List instruction)
    (si ei : Nat) (psa len : Int) (out : List instruction × Int × List (List Char × Int))
    (imf : List Char)
    (h1 : read_program lines 1 = .ok program)
    (h2 : find_start program 0 = .ok si)
    (h3 : stoi (default_start (program.getD si (instruction.default [] 0))).operand 16
      = .ok psa)
    (h4 : find_end (program.set si
      (default_start (program.getD si (instruction.default [] 0)))) 0 = .ok ei)
    (h5 : assign_locations si (with_defaults program si ei) 0 psa [] = .ok out)
    (h6 : int_checked (out.2.1 - psa) = .ok len)
    (h7 : write_all out.1 = .ok imf) :
    ∃ g, pass_1 lines = .ok g ∧ g.program = out.1 ∧ g.SYMTAB = out.2.2 ∧
      g.program_starting_address = psa ∧ g.length_of_program = len ∧
      g.program_name = (default_start (program.getD si (instruction.default [] 0))).label ∧
      g.first_executable_instruction = 0 := by
  unfold with_defaults at h5
  refine ⟨{ program := out.1, SYMTAB := out.2.2, program_starting_address := psa,
            first_executable_instruction := 0, length_of_program := len,
            program_name := (default_start (program.getD si (instruction.default [] 0))).label,
            warnings := start_warnings (program.getD si (instruction.default [] 0))
              ++ (if ((program.set si (default_start
                    (program.getD si (instruction.default [] 0)))).getD ei
                    (instruction.default [] 0)).operand = [] then [Warn.W_NOENO] else []),
            intermediate_file := imf, assembly_listing := [], header_record := [],
            text_records := [], end_record := [], object_program := [] },
    ?_, rfl, rfl, rfl, rfl, rfl, rfl⟩
  unfold pass_1
  simp only [h1, h2, h3, h4, h5, h6, h7, bind, Except.bind]

theorem relocated_mnemonic (a b : instruction) (h : relocated a b) :
    b.mnemonic = a.mnemonic := h.1.1

theorem defaulted_mnemonic (a b : instruction) (h : defaulted a b) :
    b.mnemonic = a.mnemonic := h.1.1

/-- `pass_1` accepts the program cut after its first `END`, with the same results. -/
theorem pass_1_upto (lines : List (List Char)) (g : Globals) (h : pass_1 lines = .ok g) :
    ∃ g1, pass_1 (lines.take ((before_END g.program).length + 1)) = .ok g1 ∧
      g1.program = upto_END g.program ∧ g1.SYMTAB = g.SYMTAB ∧
      g1.program_starting_address = g.program_starting_address ∧
      g1.length_of_program = g.length_of_program ∧
      g1.program_name = g.program_name ∧
      g1.first_executable_instruction = g.first_executable_instruction := by
  obtain ⟨program, si, ei, lc, imf, h1, h2, h3, h4, h5, _, h7, h8, h9, h6⟩ := pass_1_ok lines g h
  have k1 : (before_END g.program).length
      = (before_END (with_defaults program si ei)).length :=
    before_END_length_congr relocated_mnemonic (assign_locations_relocated _ _ _ _ _ _ h5)
  have k2 : (before_END (with_defaults program si ei)).length = (before_END program).length :=
    before_END_length_congr defaulted_mnemonic (with_defaults_defaulted program si ei)
  have k3 : (before_END (program.set si
      (default_start (program.getD si (instruction.default [] 0))))).length
        = (before_END program).length :=
    before_END_length_congr defaulted_mnemonic
      (forall2_set_getD defaulted_refl default_start defaulted_default_start _ program si)
  obtain ⟨s1, s2, s3⟩ := find_start_upto _ _ _ h2
  obtain ⟨e1, e2, e3⟩ := find_end_upto _ _ _ h4
  rw [k1, k2]
  have hsi : si < (before_END program).length + 1 := by omega
  have hei : ei < (before_END program).length + 1 := by omega
  rw [upto_END_eq_take] at s1
  rw [upto_END_eq_take, k3, List.set_take] at e1
  have h5a := assign_locations_upto si (with_defaults program si ei) 0
    g.program_starting_address []
  rw [h5, map_ok, upto_END_eq_take (with_defaults program si ei), k2,
    ← with_defaults_take _ _ _ _ hsi hei] at h5a
  obtain ⟨imf1, h7a⟩ := write_all_upto _ _ h7
  obtain ⟨g1, p1, p2, p3, p4, p5, p6, p7⟩ := pass_1_of_parts
    (lines.take ((before_END program).length + 1))
    (program.take ((before_END program).length + 1)) si ei g.program_starting_address
    g.length_of_program (upto_END g.program, lc, g.SYMTAB) imf1
    (read_program_take _ _ _ _ h1) s1
    (by rw [getD_take _ _ _ _ hsi]; exact h3)
    (by rw [getD_take _ _ _ _ hsi]; exact e1)
    h5a h6 h7a
  refine ⟨g1, p1, p2, p3, p4, p5, ?_, ?_⟩
  · rw [p6, h8, getD_take _ _ _ _ hsi]
  · rw [p7, h9]

/-- `pass_2` writes only `object_code` and `has_object_code` of an instruction. -/
theorem encode_instruction_fields (symtab : List (List Char × Int)) (ins ins1 : instruction)
    (h : encode_instruction symtab ins = .ok ins1) :
    ins1 = { ins with object_code := ins1.object_code,
                      has_object_code := ins1.has_object_code } := by
  unfold encode_instruction at h
  split at h
  · split at h
    · cases h
    · injection h with h
      subst h
      rfl
  · split at h
    · simp only at h
      split at h
      · cases h
      · split at h
        · cases h
        · split at h
          · obtain ⟨data, h1, ha⟩ := (bind_eq_ok _ _ _).mp h
            split at ha
            · cases ha
            · injection ha with ha
              subst ha
              rfl
          · split at h
            · split at h
              · cases h
              · injection h with h
                subst h
                rfl
            · split at h
              · obtain ⟨code, h1, ha⟩ := (bind_eq_ok _ _ _).mp h
                injection ha with ha
                subst ha
                rfl
              · cases h
    · split at h
      · split at h
        · cases h
        · injection h with h
          subst h
          rfl
      · split at h
        · cases h
        · simp only at h
          split at h
          · cases h
          · obtain ⟨data, h1, ha⟩ := (bind_eq_ok _ _ _).mp h
            split at ha
            · cases ha
            · injection ha with ha
              subst ha
              rfl

theorem encode_instruction_mnemonic (symtab : List (List Char × Int))
    (ins ins1 : instruction) (h : encode_instruction symtab ins = .ok ins1) :
    ins1.mnemonic = ins.mnemonic := by
  rw [encode_instruction_fields symtab ins ins1 h]

theorem END_not_skipped_tail (a : instruction) (l : List instruction)
    (h : END_not_skipped (a :: l)) : END_not_skipped l :=
  fun x hx => h x (List.mem_cons_of_mem _ hx)

theorem not_skipped_of_END (a : instruction) (l : List instruction)
    (h : END_not_skipped (a :: l)) (he : a.mnemonic = "END".toList) : ¬ is_skipped a := by
  obtain ⟨h1, h2⟩ := h a (List.mem_cons_self _ _) he
  unfold is_skipped
  rw [he, h1, h2]
  decide

/-- The main loop of `pass_2` does on the program cut after its first `END` what it
does on the whole program. -/
theorem encode_program_upto (symtab : List (List Char × Int)) :
    ∀ (l : List instruction) (fei : Int), END_not_skipped l →
    encode_program symtab (upto_END l) fei
      = (encode_program symtab l fei).map (fun out => (upto_END out.1, out.2)) := by
  intro l
  induction l with
  | nil => intro fei _; rfl
  | cons a l ih =>
    intro fei hl
    have ih1 := ih fei (END_not_skipped_tail a l hl)
    by_cases he : a.mnemonic = "END".toList
    · have hs : ¬ (a.mnemonic = "START".toList ∨ (a.is_comment = true ∨ a.is_blank = true)) :=
        not_skipped_of_END a l hl he
      rw [upto_END_cons_END _ _ he]
      conv_lhs => rw [encode_program]
      conv_rhs => rw [encode_program]
      rw [if_neg hs, if_neg hs, if_pos he, if_pos he]
      by_cases hty : a.type_of_operand ≠ .O_LABEL
      · rw [if_pos hty, if_pos hty]; rfl
      · rw [if_neg hty, if_neg hty]
        by_cases hc : (!count symtab a.operand) = true
        · rw [if_pos hc, if_pos hc]; rfl
        · rw [if_neg hc, if_neg hc, map_ok, upto_END_cons_END _ _ he]
    · rw [upto_END_cons _ _ he]
      conv_lhs => rw [encode_program]
      conv_rhs => rw [encode_program]
      by_cases hs : a.mnemonic = "START".toList ∨ (a.is_comment = true ∨ a.is_blank = true)
      · rw [if_pos hs, if_pos hs, ih1]
        cases h3 : encode_program symtab l fei with
        | error e => simp only [bind, Except.bind, map_error]
        | ok r =>
          simp only [bind, Except.bind, map_ok]
          rw [upto_END_cons _ _ he]
      · rw [if_neg hs, if_neg hs, if_neg he, if_neg he, ih1]
        cases h1 : encode_instruction symtab a with
        | error e => simp only [bind, Except.bind, map_error]
        | ok ins1 =>
          cases h3 : encode_program symtab l fei with
          | error e => simp only [bind, Except.bind, map_error]
          | ok r =>
            simp only [bind, Except.bind, map_ok]
            rw [upto_END_cons _ _ (by rw [encode_instruction_mnemonic _ _ _ h1]; exact he)]

theorem encode_program_after_END (symtab : List (List Char × Int)) :
    ∀ (l : List instruction) (fei : Int) (out : List instruction × Int), END_not_skipped l →
    encode_program symtab l fei = .ok out → after_END out.1 = after_END l := by
  intro l
  induction l with
  | nil =>
    intro fei out _ h
    rw [encode_program] at h
    injection h with h
    subst h
    rfl
  | cons a l ih =>
    intro fei out hl h
    have hl1 := END_not_skipped_tail a l hl
    rcases encode_program_cons symtab a l fei out h with
      ⟨hs, r, hr, rfl⟩ | ⟨_, _, _, _, rfl⟩ | ⟨_, he, ins1, r, h1, hr, rfl⟩
    · have he : a.mnemonic ≠ "END".toList := fun he => not_skipped_of_END a l hl he hs
      rw [after_END_cons _ _ he, after_END_cons _ _ he]
      exact ih _ _ hl1 hr
    · rfl
    · rw [after_END_cons _ _ he,
        after_END_cons _ _ (by rw [encode_instruction_mnemonic _ _ _ h1]; exact he)]
      exact ih _ _ hl1 hr

/-- The packer reads four globals only. -/
theorem generate_records_congr (g1 g2 : Globals) (h1 : g1.program_name = g2.program_name)
    (h2 : g1.program_starting_address = g2.program_starting_address)
    (h3 : g1.length_of_program = g2.length_of_program)
    (h4 : g1.first_executable_instruction = g2.first_executable_instruction) :
    ∀ (l : List instruction) (st : Records),
      generate_records g1 l st = generate_records g2 l st := by
  intro l
  induction l with
  | nil => intro st; rfl
  | cons a l ih =>
    intro st
    conv_lhs => rw [generate_records]
    conv_rhs => rw [generate_records]
    simp only [ih, h1, h2, h3, h4]

/-- The packer does on the program cut after its first `END` what it does on the whole
program. -/
theorem generate_records_upto (g : Globals) : ∀ (l : List instruction) (st : Records),
    END_not_skipped l → generate_records g (upto_END l) st = generate_records g l st := by
  intro l
  induction l with
  | nil => intro st _; rfl
  | cons a l ih =>
    intro st hl
    have ih1 : ∀ st, generate_records g (upto_END l) st = generate_records g l st :=
      fun st => ih st (END_not_skipped_tail a l hl)
    by_cases he : a.mnemonic = "END".toList
    · obtain ⟨c1, c2⟩ := hl a (List.mem_cons_self _ _) he
      have hs : a.mnemonic ≠ "START".toList := by rw [he]; decide
      rw [upto_END_cons_END _ _ he]
      conv_lhs => rw [generate_records]
      conv_rhs => rw [generate_records]
      simp only [c1, c2, Bool.false_eq_true, or_self, if_false, if_neg hs, if_pos he]
    · rw [upto_END_cons _ _ he]
      conv_lhs => rw [generate_records]
      conv_rhs => rw [generate_records]
      simp only [ih1]

/-- A successful `pass_2` put together from its pieces. -/
theorem pass_2_of_parts (g : Globals) (r : List instruction × Int) (listing : List Char)
    (recs : Records)
    (h1 : encode_program g.SYMTAB g.program g.first_executable_instruction = .ok r)
    (h2 : write_listing r.1 = .ok listing)
    (h3 : generate_records { g with program := r.1, first_executable_instruction := r.2 } r.1
        { header_record := [], insert_new := true, text_records := [], end_record := [] }
        = .ok recs) :
    ∃ g2, pass_2 g = .ok g2 ∧ g2.program = r.1 ∧ g2.first_executable_instruction = r.2 ∧
      g2.SYMTAB = g.SYMTAB ∧ g2.length_of_program = g.length_of_program ∧
      g2.program_starting_address = g.program_starting_address ∧
      g2.program_name = g.program_name ∧
      g2.header_record = recs.header_record ∧ g2.text_records = recs.text_records ∧
      g2.end_record = recs.end_record := by
  refine ⟨{ g with
        program := r.1, first_executable_instruction := r.2,
        assembly_listing := "Obj".toList ++ INDENT ++ "Location".toList
          ++ [Char.ofNat 10, Char.ofNat 10] ++ listing,
        header_record := recs.header_record,
        text_records := recs.text_records,
        end_record := recs.end_record,
        object_program := recs.header_record ++ [Char.ofNat 10]
          ++ (recs.text_records.map (fun tr => tr.to_string ++ [Char.ofNat 10])).flatten
          ++ recs.end_record ++ [Char.ofNat 10] },
    ?_, rfl, rfl, rfl, rfl, rfl, rfl, rfl, rfl, rfl⟩
  unfold pass_2
  simp only [h1, h2, h3, bind, Except.bind]

theorem encode_program_encoded (symtab : List (List Char × Int)) :
    ∀ (l : List instruction) (fei : Int) (out : List instruction × Int),
    encode_program symtab l fei = .ok out →
    List.Forall₂ (fun a b => b.mnemonic = a.mnemonic ∧ b.is_comment = a.is_comment ∧
      b.is_blank = a.is_blank) l out.1 := by
  intro l
  induction l with
  | nil =>
    intro fei out h
    rw [encode_program] at h
    injection h with h
    subst h
    exact List.Forall₂.nil
  | cons a l ih =>
    intro fei out h
    rcases encode_program_cons symtab a l fei out h with
      ⟨_, r, hr, rfl⟩ | ⟨_, _, _, _, rfl⟩ | ⟨_, _, ins1, r, h1, hr, rfl⟩
    · exact List.Forall₂.cons ⟨rfl, rfl, rfl⟩ (ih _ _ hr)
    · exact forall2_refl (fun _ => ⟨rfl, rfl, rfl⟩) _
    · refine List.Forall₂.cons ?_ (ih _ _ hr)
      rw [encode_instruction_fields symtab a ins1 h1]
      exact ⟨rfl, rfl, rfl⟩

theorem after_END_subset (l : List instruction) : ∀ x ∈ after_END l, x ∈ l :=
  fun _ hx => List.mem_of_mem_drop hx

/-! ### Data directives in `pass_2` -/

theorem take_digits_decimal : ∀ s : List Char, (∀ c ∈ s, isdigit c = true) →
    take_digits 10 s = s.map (fun c => c.toNat - 48) := by
  intro s
  induction s with
  | nil => intro _; rfl
  | cons c t ih =>
    intro h
    have hc : isdigit c = true := h c (List.mem_cons_self _ _)
    unfold isdigit at hc
    rw [Bool.and_eq_true, decide_eq_true_eq, decide_eq_true_eq] at hc
    have hd : digit_value 10 c = some (c.toNat - 48) := by
      unfold digit_value
      simp only
      rw [if_pos hc]
      show (if c.toNat - 48 < 10 then some (c.toNat - 48) else none) = some (c.toNat - 48)
      rw [if_pos (by omega)]
    rw [take_digits, hd, List.map_cons, ih (fun x hx => h x (List.mem_cons_of_mem _ hx))]

/-- `stoi` in base 10 on a non-empty string of decimal digits: its value when that fits
an `int`, else the uncaught `out_of_range`. -/
theorem stoi_decimal (s : List Char) (hne : s ≠ []) (hd : ∀ c ∈ s, isdigit c = true) :
    stoi s 10 = if decimal_value s ≤ 2147483647 then .ok (decimal_value s : Int)
                else .error .uncaught_exception := by
  obtain ⟨c, t, rfl⟩ := List.exists_cons_of_ne_nil hne
  have hc : isdigit c = true := hd c (List.mem_cons_self _ _)
  have hc2 := hc
  unfold isdigit at hc2
  rw [Bool.and_eq_true, decide_eq_true_eq, decide_eq_true_eq] at hc2
  have hsp : isspace c = false := by
    unfold isspace
    simp only [Bool.or_eq_false_iff, beq_eq_false_iff_ne, Bool.and_eq_false_iff,
      decide_eq_false_iff_not]
    constructor <;> omega
  have hdrop : (c :: t).dropWhile isspace = c :: t := by
    rw [List.dropWhile_cons_of_neg (by rw [hsp]; decide)]
  have h45 : ¬ c.toNat = 45 := by omega
  have h43 : ¬ c.toNat = 43 := by omega
  unfold stoi
  simp only [hdrop, h45, h43, if_false]
  have hskip : skip_0x 10 (c :: t) = c :: t := by
    unfold skip_0x
    rw [if_neg (by decide)]
  simp only [hskip, take_digits_decimal _ hd]
  rw [if_neg (by simp)]
  have hv : List.foldl (fun a d => a * 10 + d) 0 (List.map (fun c => c.toNat - 48) (c :: t))
      = decimal_value (c :: t) := by
    unfold decimal_value
    rw [List.foldl_map]
  rw [hv]
  unfold signed_value
  simp only [Bool.false_eq_true, if_false]
  by_cases hr : decimal_value (c :: t) ≤ 2147483647
  · rw [if_pos hr, if_pos (by constructor <;> omega)]
  · rw [if_neg hr, if_neg (by intro h; omega)]

/-- The branch of `pass_2` for a `WORD` or `BYTE` with a decimal operand. -/
theorem encode_decimal (symtab : List (List Char × Int)) (ins : instruction)
    (hm : ins.mnemonic = "WORD".toList ∨ ins.mnemonic = "BYTE".toList)
    (hty : ins.type_of_operand = .O_DECIM) :
    encode_instruction symtab ins = (do
      let data_decimal ← stoi ins.operand 10
      if data_decimal > ((2 ^ (8 * max_data_size ins.mnemonic) : Nat) : Int) - 1
      then .error .E_DTOUT
      else .ok { ins with has_object_code := true,
                          object_code := to_hex data_decimal (2 * max_data_size ins.mnemonic) }) := by
  unfold encode_instruction
  rw [if_neg (by rcases hm with h | h <;> rw [h] <;> decide),
    if_pos (by rcases hm with h | h <;> rw [h] <;> decide)]
  simp only
  rw [if_neg (fun h => h.2 hty), if_neg (fun h => h.1 hty), if_pos hty]

theorem quoted_content (tag : Char) (content : List Char) :
    ((tag :: quote :: (content ++ [quote])).drop 2).take
      ((tag :: quote :: (content ++ [quote])).length - 3) = content := by
  simp

/-- The branch of `pass_2` for a `BYTE` with a hexadecimal operand `X'content'`. -/
theorem encode_byte_hex (symtab : List (List Char × Int)) (ins : instruction)
    (content : List Char) (hm : ins.mnemonic = "BYTE".toList)
    (hty : ins.type_of_operand = .O_HEXAD) (hop : ins.operand = hex_operand content) :
    encode_instruction symtab ins =
      if (pad_even content.reverse).reverse.length ≠ 2 then .error .E_DTOUT
      else .ok { ins with has_object_code := true,
                          object_code := (pad_even content.reverse).reverse } := by
  have hc : (ins.operand.drop 2).take (ins.operand.length - 3) = content := by
    rw [hop]; exact quoted_content _ _
  unfold encode_instruction
  rw [if_neg (by rw [hm]; decide), if_pos (by rw [hm]; decide)]
  simp only
  rw [if_neg (fun h => absurd (hm ▸ h.1 : "BYTE".toList = "WORD".toList) (by decide)),
    if_neg (by rw [hty]; decide), if_neg (by rw [hty]; decide), if_pos hty, hc]

/-! ### Character arrays in `pass_2` -/

theorem hex_digit_char_upper (d : Nat) (h : d < 16) :
    hex_digit_char (d : Int) = upper_hex_digit d := by
  interval_cases d <;> rfl

theorem hex_pair_value (code : Nat) (h : code < 256) :
    hex_value (hex_pair code) = some code ∧ ∀ c ∈ hex_pair code, is_upper_hex c = true := by
  have h1 : code / 16 < 16 := by omega
  have h2 : code % 16 < 16 := by omega
  have e1 := hex_char_value_digit _ h1
  have e2 := hex_char_value_digit _ h2
  rw [hex_digit_char_upper _ h1] at e1
  rw [hex_digit_char_upper _ h2] at e2
  constructor
  · unfold hex_value hex_pair
    rw [hex_value_from, e1]
    simp only
    rw [hex_value_from, e2]
    simp only
    rw [hex_value_from]
    congr 1
    omega
  · intro c hc
    unfold hex_pair at hc
    simp only [List.mem_cons, List.mem_singleton, List.mem_nil_iff, or_false] at hc
    unfold is_upper_hex
    rcases hc with rfl | rfl
    · rw [e1]; rfl
    · rw [e2]; rfl

/-- For a character with a code from 1 to 127, `pass_2` appends the two uppercase
hexadecimal digits of the code. -/
theorem encode_char_ascii (c : Char) (h1 : 1 ≤ c.toNat) (h2 : c.toNat ≤ 127) :
    encode_char c = .ok (hex_pair c.toNat) := by
  have hci : char_to_int c = (c.toNat : Int) := by
    unfold char_to_int
    rw [if_pos (by omega)]
  unfold encode_char
  simp only [hci, hex_digits_rev_nat]
  by_cases hlt : c.toNat < 16
  · rw [Nat.digits_of_lt 16 c.toNat (by omega) hlt]
    have hd : c.toNat / 16 = 0 := by omega
    have hm : c.toNat % 16 = c.toNat := by omega
    simp only [List.map_cons, List.map_nil, pad_even, List.length_singleton, hex_pair, hd, hm,
      hex_digit_char_upper _ hlt]
    rfl
  · have hq : c.toNat / 16 < 16 := by omega
    have hr : c.toNat % 16 < 16 := by omega
    rw [Nat.digits_def' (by norm_num) (by omega),
      Nat.digits_of_lt 16 (c.toNat / 16) (by omega) hq]
    simp only [List.map_cons, List.map_nil, pad_even, List.length_cons, List.length_nil,
      hex_pair, hex_digit_char_upper _ hq, hex_digit_char_upper _ hr]
    rfl

theorem encode_chars_ascii : ∀ content : List Char,
    (∀ c ∈ content, 1 ≤ c.toNat ∧ c.toNat ≤ 127) →
    encode_chars content = .ok (content.map (fun c => hex_pair c.toNat)).flatten := by
  intro content
  induction content with
  | nil => intro _; rfl
  | cons c t ih =>
    intro h
    obtain ⟨h1, h2⟩ := h c (List.mem_cons_self _ _)
    rw [encode_chars, encode_char_ascii c h1 h2,
      ih (fun x hx => h x (List.mem_cons_of_mem _ hx))]
    rfl

/-- The branch of `pass_2` for a `BYTE` with a character array operand `C'content'`. -/
theorem encode_byte_chars (symtab : List (List Char × Int)) (ins : instruction)
    (content : List Char) (hm : ins.mnemonic = "BYTE".toList)
    (hty : ins.type_of_operand = .O_CHRAR) (hop : ins.operand = char_operand content) :
    encode_instruction symtab ins = (do
      let code ← encode_chars content
      .ok { ins with object_code := ins.object_code ++ code,
                     has_object_code := ins.has_object_code || !content.isEmpty }) := by
  have hc : (ins.operand.drop 2).take (ins.operand.length - 3) = content := by
    rw [hop]; exact quoted_content _ _
  unfold encode_instruction
  rw [if_neg (by rw [hm]; decide), if_pos (by rw [hm]; decide)]
  simp only
  rw [if_neg (fun h => absurd (hm ▸ h.1 : "BYTE".toList = "WORD".toList) (by decide)),
    if_neg (by rw [hty]; decide), if_neg (by rw [hty]; decide), if_neg (by rw [hty]; decide),
    if_pos hty, hc]

/-! ### Lines of two tokens -/

/-- The branch `words.size()==2` of the constructor. -/
theorem parse_two_words (t0 t1 : List Char) :
    parse_words [t0, t1] =
      if is_keyword t0 = true then
        (if is_keyword t1 = true then .error .E_TWOMN else .ok ([], t0, t1))
      else (if is_keyword t1 = true then .ok (t0, t1, []) else .error .E_NOOPN) := by
  rw [parse_words]
  cases is_keyword t0 <;> cases is_keyword t1 <;> simp

/-- The constructor on a line that is not a comment, after its tokens are known. -/
theorem new_of_words (line : List Char) (n : Nat) (words : List (List Char))
    (hc : comment_scan line = none) (hw : pop_empty_back (split_words line [] []) = words)
    (hne : words ≠ []) :
    instruction.new line n = (do
      let lmo ← parse_words words
      let label_ok ← (if lmo.1.length ≠ 0 then is_label_format lmo.1 else .ok true)
      if !label_ok then .error .E_NALNM
      else do
        let type_of_operand ←
          (if lmo.2.2.length ≠ 0 then classify_operand lmo.2.2 else .ok .O_NOOPD)
        let size_in_memory ← compute_size lmo.2.1 lmo.2.2 type_of_operand
        .ok { instruction.default line n with
              label := lmo.1, mnemonic := lmo.2.1, operand := lmo.2.2,
              type_of_operand := type_of_operand, size_in_memory := size_in_memory }) := by
  unfold instruction.new
  rw [hc]
  simp only [hw]
  rw [if_neg (by
    intro h
    exact hne (List.length_eq_zero.mp h))]

theorem new_fields (line : List Char) (n : Nat) (words : List (List Char))
    (label mnemonic operand : List Char) (ins : instruction)
    (hc : comment_scan line = none) (hw : pop_empty_back (split_words line [] []) = words)
    (hne : words ≠ []) (hp : parse_words words = .ok (label, mnemonic, operand))
    (h : instruction.new line n = .ok ins) :
    ins.label = label ∧ ins.mnemonic = mnemonic ∧ ins.operand = operand := by
  rw [new_of_words line n words hc hw hne, hp] at h
  obtain ⟨lmo, h0, hz⟩ := (bind_eq_ok _ _ _).mp h
  injection h0 with h0
  subst h0
  obtain ⟨lok, _, ha⟩ := (bind_eq_ok _ _ _).mp hz
  split at ha
  · cases ha
  · obtain ⟨ty, _, hb⟩ := (bind_eq_ok _ _ _).mp ha
    obtain ⟨sz, _, hd⟩ := (bind_eq_ok _ _ _).mp hb
    injection hd with hd
    subst hd
    exact ⟨rfl, rfl, rfl⟩

/-! ### Resolution of labels in `pass_2` -/

/-- The checks of `pass_2` on an operation other than `RSUB` up to the look-up of its
label. -/
theorem encode_operation_lookup (symtab : List (List Char × Int)) (ins : instruction)
    (hop : count OPTAB ins.mnemonic = true) (hrsub : ins.mnemonic ≠ "RSUB".toList)
    (hty : ins.type_of_operand = .O_LABEL ∨ ins.type_of_operand = .O_INDXD) :
    encode_instruction symtab ins =
      if (!count symtab (final_opd ins)) = true then .error (.E_INVSY (final_opd ins))
      else (do
        let data_decimal ← int_checked (at_key OPTAB ins.mnemonic * 65536 + indexed_summand ins
          + at_key symtab (final_opd ins))
        if (hex_digits_rev data_decimal).length > 6 then .error .E_INTRL
        else .ok { ins with object_code := (pad_zeros (hex_digits_rev data_decimal) 6).reverse,
                            has_object_code := true }) := by
  obtain ⟨hdir, _, _⟩ := OPTAB_key _ hop
  have hresw : ins.mnemonic ≠ "RESW".toList := by
    intro h; rw [h] at hdir; revert hdir; decide
  have hresb : ins.mnemonic ≠ "RESB".toList := by
    intro h; rw [h] at hdir; revert hdir; decide
  have hty2 : ¬ (ins.type_of_operand ≠ .O_LABEL ∧ ins.type_of_operand ≠ .O_INDXD) := by
    rcases hty with h | h <;> simp [h]
  unfold encode_instruction
  rw [if_neg (not_or.mpr ⟨hresw, hresb⟩), hdir]
  simp only [Bool.false_eq_true, if_false, if_neg hrsub, if_neg hty2]

/-- The main loop of `pass_2` gets through a prefix all of whose instructions it gets
past, and then does on the rest what it does on the rest alone. -/
theorem encode_program_through (symtab : List (List Char × Int)) (l : List instruction)
    (fei : Int) : ∀ pre : List instruction, pre.all (gets_through symtab) = true →
    ∃ pre1, encode_program symtab (pre ++ l) fei
      = (encode_program symtab l fei).map (fun r => (pre1 ++ r.1, r.2)) := by
  intro pre
  induction pre with
  | nil =>
    intro _
    refine ⟨[], ?_⟩
    rw [List.nil_append]
    cases encode_program symtab l fei <;> rfl
  | cons x pre ih =>
    intro h
    rw [List.all_cons, Bool.and_eq_true] at h
    obtain ⟨pre1, ih1⟩ := ih h.2
    have hx := h.1
    rw [List.cons_append, encode_program]
    by_cases hs : x.mnemonic = "START".toList ∨ (x.is_comment = true ∨ x.is_blank = true)
    · rw [if_pos hs, ih1]
      refine ⟨x :: pre1, ?_⟩
      cases encode_program symtab l fei <;> rfl
    · have hs1 : (decide (x.mnemonic = "START".toList) || (x.is_comment || x.is_blank))
          = false := by
        rw [Bool.eq_false_iff]
        intro hb
        apply hs
        simpa using hb
      unfold gets_through at hx
      rw [hs1, Bool.false_or, Bool.and_eq_true, decide_eq_true_eq] at hx
      obtain ⟨he, hok⟩ := hx
      rw [if_neg hs, if_neg he, ih1]
      cases hx1 : encode_instruction symtab x with
      | error e => rw [hx1] at hok; cases hok
      | ok x1 =>
        refine ⟨x1 :: pre1, ?_⟩
        cases encode_program symtab l fei <;> rfl

theorem pass_2_error (g : Globals) (e : Err)
    (h : encode_program g.SYMTAB g.program g.first_executable_instruction = .error e) :
    pass_2 g = .error e := by
  unfold pass_2
  rw [h]
  rfl

theorem assemble_error (lines : List (List Char)) (g : Globals) (e : Err)
    (h1 : pass_1 lines = .ok g) (h2 : pass_2 g = .error e) : assemble lines = .error e := by
  unfold assemble
  rw [h1]
  exact h2

/-! ### The START and END lines of an accepted program -/

theorem same_core_trans (a b c : instruction) (h1 : same_core a b) (h2 : same_core b c) :
    same_core a c := by
  obtain ⟨m1, s1, t1, c1, b1, o1, x1⟩ := h1
  obtain ⟨m2, s2, t2, c2, b2, o2, x2⟩ := h2
  exact ⟨m2.trans m1, s2.trans s1, t2.trans t1, c2.trans c1, b2.trans b1, o2.trans o1,
    x2.trans x1⟩

theorem find_start_same_core {l1 l2 : List instruction}
    (h : List.Forall₂ same_core l1 l2) : ∀ i, find_start l2 i = find_start l1 i := by
  induction h with
  | nil => intro i; rfl
  | cons hab _ ih =>
    intro i
    rw [find_start, find_start, hab.1, ih]

theorem find_end_same_core {l1 l2 : List instruction}
    (h : List.Forall₂ same_core l1 l2) : ∀ i, find_end l2 i = find_end l1 i := by
  induction h with
  | nil => intro i; rfl
  | cons hab _ ih =>
    intro i
    rw [find_end, find_end, hab.1, ih]

/-- Where the scan for `START` stops: after lines without a mnemonic. -/
theorem find_start_split : ∀ (l : List instruction) (i si : Nat),
    find_start l i = .ok si →
    ∃ pre s rest, l = pre ++ s :: rest ∧ (∀ x ∈ pre, x.mnemonic = []) ∧
      s.mnemonic = "START".toList ∧ si = i + pre.length := by
  intro l
  induction l with
  | nil => intro i si h; rw [find_start] at h; cases h
  | cons a l ih =>
    intro i si h
    rw [find_start] at h
    by_cases hs : a.mnemonic = "START".toList
    · rw [if_pos hs] at h
      injection h with h
      exact ⟨[], a, l, rfl, by simp, hs, by simp [h]⟩
    · rw [if_neg hs] at h
      by_cases he : a.mnemonic ≠ []
      · rw [if_pos he] at h; cases h
      · rw [if_neg he] at h
        obtain ⟨pre, s, rest, hl, hpre, hst, hsi⟩ := ih _ _ h
        refine ⟨a :: pre, s, rest, by rw [hl]; rfl, ?_, hst, ?_⟩
        · intro x hx
          rcases List.mem_cons.mp hx with hx | hx
          · rw [hx]; exact not_not.mp he
          · exact hpre x hx
        · rw [hsi, List.length_cons]; omega

/-- Where the scan for `END` stops. -/
theorem find_end_split : ∀ (l : List instruction) (i ei : Nat),
    find_end l i = .ok ei →
    ∃ mid e post, l = mid ++ e :: post ∧ (∀ x ∈ mid, x.mnemonic ≠ "END".toList) ∧
      e.mnemonic = "END".toList ∧ ei = i + mid.length := by
  intro l
  induction l with
  | nil => intro i ei h; rw [find_end] at h; cases h
  | cons a l ih =>
    intro i ei h
    rw [find_end] at h
    by_cases hs : a.mnemonic = "END".toList
    · rw [if_pos hs] at h
      injection h with h
      exact ⟨[], a, l, rfl, by simp, hs, by simp [h]⟩
    · rw [if_neg hs] at h
      obtain ⟨mid, e, post, hl, hmid, hst, hei⟩ := ih _ _ h
      refine ⟨a :: mid, e, post, by rw [hl]; rfl, ?_, hst, ?_⟩
      · intro x hx
        rcases List.mem_cons.mp hx with hx | hx
        · rw [hx]; exact hs
        · exact hmid x hx
      · rw [hei, List.length_cons]; omega

theorem find_end_append : ∀ (pre l : List instruction) (i : Nat),
    (∀ x ∈ pre, x.mnemonic ≠ "END".toList) →
    find_end (pre ++ l) i = find_end l (i + pre.length) := by
  intro pre
  induction pre with
  | nil => intro l i _; rfl
  | cons a pre ih =>
    intro l i h
    rw [List.cons_append, find_end, if_neg (h a (List.mem_cons_self _ _)),
      ih l (i + 1) (fun x hx => h x (List.mem_cons_of_mem _ hx)), List.length_cons]
    congr 1
    omega

/-- The location loop lets a `START` through only at `start_idx`. -/
theorem assign_locations_START (si : Nat) : ∀ (l : List instruction) (i : Nat) (lc : Int)
    (st : List (List Char × Int)) (out : List instruction × Int × List (List Char × Int)),
    assign_locations si l i lc st = .ok out →
    ∀ (j : Nat) (x : instruction), (before_END out.1)[j]? = some x →
      x.mnemonic = "START".toList → i + j = si := by
  intro l
  induction l with
  | nil =>
    intro i lc st out h j x hx
    rw [assign_locations] at h
    injection h with h
    subst h
    cases hx
  | cons ins rest ih =>
    intro i lc st out h j x hx hs
    rcases assign_locations_cons si ins rest i lc st out h with
      ⟨he, rfl⟩ | ⟨he, _, hsi, st1, r, _, hr, rfl⟩ | ⟨he, hloc, r, hr, rfl⟩
    · rw [before_END_cons_END _ _ he] at hx
      cases hx
    · rw [before_END_cons _ _ (by exact he)] at hx
      cases j with
      | zero =>
        simp only [List.getElem?_cons_zero, Option.some.injEq] at hx
        subst hx
        exact hsi hs
      | succ j =>
        simp only [List.getElem?_cons_succ] at hx
        have := ih _ _ _ _ hr j x hx hs
        omega
    · rw [before_END_cons _ _ he] at hx
      cases j with
      | zero =>
        simp only [List.getElem?_cons_zero, Option.some.injEq] at hx
        subst hx
        unfold is_located at hloc
        rw [Bool.or_eq_false_iff] at hloc
        exact absurd hs (of_decide_eq_false hloc.2)
      | succ j =>
        simp only [List.getElem?_cons_succ] at hx
        have := ih _ _ _ _ hr j x hx hs
        omega

theorem before_END_append (a : List instruction) (e : instruction) (post : List instruction)
    (ha : ∀ x ∈ a, x.mnemonic ≠ "END".toList) (he : e.mnemonic = "END".toList) :
    before_END (a ++ e :: post) = a := by
  induction a with
  | nil => exact before_END_cons_END _ _ he
  | cons x a ih =>
    rw [List.cons_append, before_END_cons _ _ (ha x (List.mem_cons_self _ _)),
      ih (fun y hy => ha y (List.mem_cons_of_mem _ hy))]

/-- A record without a mnemonic is a comment or a blank line. -/
theorem new_empty_mnemonic (line : List Char) (n : Nat) (ins : instruction)
    (h : instruction.new line n = .ok ins) (hm : ins.mnemonic = []) :
    ins.is_comment = true ∨ ins.is_blank = true := by
  rcases new_cases line n ins h with
    ⟨text, rfl⟩ | rfl | ⟨words, label, mnemonic, operand, ty, sz, hw, hp, hty, hsz, rfl⟩
  · exact Or.inl rfl
  · exact Or.inr rfl
  · have hk := parse_words_keyword words label mnemonic operand hw hp
    have hm1 : mnemonic = [] := hm
    rw [hm1] at hk
    exact absurd hk (by decide)

theorem read_program_empty_mnemonic : ∀ (lines : List (List Char)) (n : Nat)
    (program : List instruction), read_program lines n = .ok program →
    ∀ ins ∈ program, ins.mnemonic = [] → ins.is_comment = true ∨ ins.is_blank = true := by
  intro lines
  induction lines with
  | nil =>
    intro n program h
    rw [read_program] at h
    injection h with h
    subst h
    simp
  | cons line rest ih =>
    intro n program h
    rw [read_program] at h
    obtain ⟨ins, h1, ha⟩ := (bind_eq_ok _ _ _).mp h
    obtain ⟨tail, h2, hb⟩ := (bind_eq_ok _ _ _).mp ha
    injection hb with hb
    subst hb
    intro x hx
    rcases List.mem_cons.mp hx with hx | hx
    · subst hx
      exact new_empty_mnemonic _ _ _ h1
    · exact ih _ _ h2 x hx

/-- The programs before and after `pass_1` agree in every field but labels, operands and
locations. -/
theorem pass_1_same_core (lines : List (List Char)) (g : Globals) (h : pass_1 lines = .ok g) :
    ∃ program si ei, read_program lines 1 = .ok program ∧
      find_start program 0 = .ok si ∧
      find_end (program.set si
        (default_start (program.getD si (instruction.default [] 0)))) 0 = .ok ei ∧
      (∃ lc, assign_locations si (with_defaults program si ei) 0
        g.program_starting_address [] = .ok (g.program, lc, g.SYMTAB)) ∧
      List.Forall₂ same_core program g.program ∧
      List.Forall₂ same_core (program.set si
        (default_start (program.getD si (instruction.default [] 0)))) g.program := by
  obtain ⟨program, si, ei, lc, imf, h1, h2, _, h4, h5, _⟩ := pass_1_ok lines g h
  have hPg : List.Forall₂ same_core (with_defaults program si ei) g.program :=
    (assign_locations_relocated _ _ _ _ _ _ h5).imp (fun _ _ hr => hr.1)
  have h1P : List.Forall₂ same_core (program.set si
      (default_start (program.getD si (instruction.default [] 0))))
      (with_defaults program si ei) := by
    unfold with_defaults
    exact (forall2_set_getD defaulted_refl _ (defaulted_default_end _) _ _ ei).imp
      (fun _ _ hr => hr.1)
  have h01 : List.Forall₂ same_core program (program.set si
      (default_start (program.getD si (instruction.default [] 0)))) :=
    (forall2_set_getD defaulted_refl default_start defaulted_default_start _ program si).imp
      (fun _ _ hr => hr.1)
  have h1g := forall2_trans same_core_trans _ _ _ h1P hPg
  exact ⟨program, si, ei, h1, h2, h4, ⟨lc, h5⟩, forall2_trans same_core_trans _ _ _ h01 h1g, h1g⟩

/-! ### The program starting address -/

theorem isalnum_range (c : Char) (h : isalnum c = true) :
    (48 ≤ c.toNat ∧ c.toNat ≤ 57) ∨ (65 ≤ c.toNat ∧ c.toNat ≤ 90) ∨
      (97 ≤ c.toNat ∧ c.toNat ≤ 122) := by
  unfold isalnum isalpha isdigit at h
  simp only [Bool.or_eq_true, Bool.and_eq_true, decide_eq_true_eq] at h
  omega

/-- An operand the constructor classifies starts with a letter or a digit. -/
theorem classify_operand_head (operand : List Char) (ty : OperandType)
    (h : classify_operand operand = .ok ty) :
    ∃ c rest, operand = c :: rest ∧ isalnum c = true := by
  cases operand with
  | nil =>
    have : classify_operand [] = .error .E_INTRL := rfl
    rw [this] at h
    cases h
  | cons c rest =>
    refine ⟨c, rest, rfl, ?_⟩
    unfold classify_operand at h
    dsimp only at h
    split_ifs at h with h1 h2 h3 h4 h5 h6 h7 h8 h9 h10 h11 h12
    · obtain ⟨ok, hl, hk⟩ := (bind_eq_ok _ _ _).mp h
      have hok : ok = true := by
        cases ok with
        | false => cases hk
        | true => rfl
      subst hok
      cases hn : (c :: rest).length - 2 with
      | zero =>
        rw [hn] at hl
        cases hl
      | succ n =>
        rw [hn, List.take_succ_cons] at hl
        unfold is_label_format at hl
        injection hl with hl
        rw [Bool.and_eq_true] at hl
        unfold isalnum
        rw [hl.1]
        rfl
    · rw [List.getD_cons_zero] at h6
      rw [h6]
      decide
    · rw [List.getD_cons_zero] at h8
      rw [h8]
      decide
    · rw [List.getD_cons_zero] at h12
      unfold isalnum
      rw [h12]
      simp
    · obtain ⟨ok, hl, hk⟩ := (bind_eq_ok _ _ _).mp h
      have hok : ok = true := by
        cases ok with
        | false => cases hk
        | true => rfl
      subst hok
      unfold is_label_format at hl
      injection hl with hl
      rw [Bool.and_eq_true] at hl
      unfold isalnum
      rw [hl.1]
      rfl

/-- `stoi` of a string that starts with a letter or a digit is not negative. -/
theorem stoi_head_nonneg (c : Char) (rest : List Char) (base : Nat) (r : Int)
    (hc : isalnum c = true) (h : stoi (c :: rest) base = .ok r) : 0 ≤ r := by
  have hn := isalnum_range c hc
  have hsp : isspace c = false := by
    unfold isspace
    simp only [Bool.or_eq_false_iff, beq_eq_false_iff_ne, Bool.and_eq_false_iff,
      decide_eq_false_iff_not]
    constructor <;> omega
  have hdrop : (c :: rest).dropWhile isspace = c :: rest := by
    rw [List.dropWhile_cons_of_neg (by rw [hsp]; decide)]
  have h45 : ¬ c.toNat = 45 := by omega
  have h43 : ¬ c.toNat = 43 := by omega
  unfold stoi at h
  simp only [hdrop, h45, h43, if_false] at h
  split at h
  · cases h
  · split at h
    · injection h with h
      rw [← h]
      unfold signed_value
      simp only [Bool.false_eq_true, if_false]
      exact Int.natCast_nonneg _
    · cases h

/-- The operand of a record the constructor returns is empty or starts with a letter or a
digit. -/
theorem new_operand_head (line : List Char) (n : Nat) (ins : instruction)
    (h : instruction.new line n = .ok ins) :
    ins.operand = [] ∨ ∃ c rest, ins.operand = c :: rest ∧ isalnum c = true := by
  rcases new_cases line n ins h with
    ⟨text, rfl⟩ | rfl | ⟨words, label, mnemonic, operand, ty, sz, hw, hp, hty, hsz, rfl⟩
  · exact Or.inl rfl
  · exact Or.inl rfl
  · by_cases ho : operand.length ≠ 0
    · rw [if_pos ho] at hty
      exact Or.inr (classify_operand_head operand ty hty)
    · exact Or.inl (List.length_eq_zero.mp (not_not.mp ho))

theorem read_program_operand_head : ∀ (lines : List (List Char)) (n : Nat)
    (program : List instruction), read_program lines n = .ok program →
    ∀ ins ∈ program,
      ins.operand = [] ∨ ∃ c rest, ins.operand = c :: rest ∧ isalnum c = true := by
  intro lines
  induction lines with
  | nil =>
    intro n program h
    rw [read_program] at h
    injection h with h
    subst h
    simp
  | cons line rest ih =>
    intro n program h
    rw [read_program] at h
    obtain ⟨ins, h1, ha⟩ := (bind_eq_ok _ _ _).mp h
    obtain ⟨tail, h2, hb⟩ := (bind_eq_ok _ _ _).mp ha
    injection hb with hb
    subst hb
    intro x hx
    rcases List.mem_cons.mp hx with hx | hx
    · subst hx
      exact new_operand_head _ _ _ h1
    · exact ih _ _ h2 x hx

theorem find_start_lt : ∀ (l : List instruction) (i si : Nat),
    find_start l i = .ok si → i ≤ si ∧ si < i + l.length := by
  intro l i si h
  obtain ⟨pre, s, rest, hl, _, _, hsi⟩ := find_start_split l i si h
  rw [hl, hsi, List.length_append, List.length_cons]
  omega

theorem default_start_operand_head (s0 : instruction)
    (hop : s0.operand = [] ∨ ∃ c rest, s0.operand = c :: rest ∧ isalnum c = true) :
    ∃ c rest, (default_start s0).operand = c :: rest ∧ isalnum c = true := by
  rcases hop with hop | ⟨c, rest, hop, hc⟩
  · refine ⟨Char.ofNat 48, [], ?_, by decide⟩
    unfold default_start
    by_cases hl : s0.label = [] <;> simp [hl, hop]
  · refine ⟨c, rest, ?_, hc⟩
    unfold default_start
    by_cases hl : s0.label = [] <;> simp [hl, hop]

/-- The program starting address `pass_1` reads is never negative. -/
theorem pass_1_psa_nonneg (lines : List (List Char)) (g : Globals)
    (h : pass_1 lines = .ok g) : 0 ≤ g.program_starting_address := by
  obtain ⟨program, si, ei, lc, imf, h1, h2, h3, _⟩ := pass_1_ok lines g h
  have hlt := (find_start_lt _ _ _ h2).2
  have hmem : program.getD si (instruction.default [] 0) ∈ program := by
    rw [List.getD_eq_getElem _ _ (by omega)]
    exact List.getElem_mem _
  have hop := read_program_operand_head _ _ _ h1 _ hmem
  have hds := default_start_operand_head _ hop
  obtain ⟨c, rest, hop2, hc⟩ := hds
  rw [hop2] at h3
  exact stoi_head_nonneg c rest 16 _ hc h3

/-- The location loop gives a `START` that only lines without mnemonic and size precede
the location counter it was started with. -/
theorem assign_locations_first_START (si : Nat) : ∀ (l : List instruction) (i : Nat)
    (lc : Int) (st : List (List Char × Int))
    (out : List instruction × Int × List (List Char × Int)),
    assign_locations si l i lc st = .ok out →
    ∀ (pre : List instruction) (s : instruction) (rest : List instruction),
      out.1 = pre ++ s :: rest → (∀ x ∈ pre, x.mnemonic = [] ∧ x.size_in_memory = 0) →
      s.mnemonic = "START".toList → s.has_location = true ∧ s.location = lc := by
  intro l
  induction l with
  | nil =>
    intro i lc st out h pre s rest ho _ _
    rw [assign_locations] at h
    injection h with h
    subst h
    cases pre <;> cases ho
  | cons ins tail ih =>
    intro i lc st out h pre s rest ho hpre hs
    rcases assign_locations_cons si ins tail i lc st out h with
      ⟨he, rfl⟩ | ⟨he, hloc, _, st1, r, _, hr, rfl⟩ | ⟨he, hloc, r, hr, rfl⟩
    · cases pre with
      | nil =>
        injection ho with h1 h2
        rw [h1, hs] at he
        exact absurd he (by decide)
      | cons x pre =>
        injection ho with h1 h2
        rw [h1, (hpre x (List.mem_cons_self _ _)).1] at he
        exact absurd he (by decide)
    · cases pre with
      | nil =>
        injection ho with h1 h2
        rw [← h1]
        exact ⟨rfl, rfl⟩
      | cons x pre =>
        injection ho with h1 h2
        have hx := hpre x (List.mem_cons_self _ _)
        rw [← h1] at hx
        have hm : ins.mnemonic = [] := hx.1
        have hz : ins.size_in_memory = 0 := hx.2
        unfold is_located at hloc
        rw [hm, hz] at hloc
        exact absurd hloc (by decide)
    · cases pre with
      | nil =>
        injection ho with h1 h2
        rw [← h1] at hs
        unfold is_located at hloc
        rw [Bool.or_eq_false_iff] at hloc
        exact absurd hs (of_decide_eq_false hloc.2)
      | cons x pre =>
        injection ho with h1 h2
        exact ih _ _ _ _ hr pre s rest h2
          (fun y hy => hpre y (List.mem_cons_of_mem _ hy)) hs

theorem write_all_mem : ∀ (l : List instruction) (t : List Char), write_all l = .ok t →
    ∀ x ∈ l, ∃ u, x.to_string = .ok u := by
  intro l
  induction l with
  | nil => intro t _ x hx; cases hx
  | cons a l ih =>
    intro t h x hx
    rw [write_all] at h
    obtain ⟨u, h1, ha⟩ := (bind_eq_ok _ _ _).mp h
    obtain ⟨v, h2, _⟩ := (bind_eq_ok _ _ _).mp ha
    rcases List.mem_cons.mp hx with hx | hx
    · subst hx
      exact ⟨u, h1⟩
    · exact ih _ h2 x hx

/-- The shape of every program `pass_1` accepts: comments and blank lines, the one
`START` before the first `END` (located at the program starting address), lines that
are neither `START` nor `END`, the first `END`, and the rest. -/
theorem pass_1_shape (lines : List (List Char)) (g : Globals) (hg : pass_1 lines = .ok g) :
    ∃ pre start mid e post, g.program = pre ++ start :: (mid ++ e :: post) ∧
      (∀ x ∈ pre, x.is_comment = true ∨ x.is_blank = true) ∧
      start.mnemonic = "START".toList ∧
      (∀ x ∈ mid, x.mnemonic ≠ "START".toList ∧ x.mnemonic ≠ "END".toList) ∧
      e.mnemonic = "END".toList ∧
      start.has_location = true ∧ start.location = g.program_starting_address := by
  obtain ⟨program1, si, ei, h1, h2, h4, ⟨lc, h5⟩, h0g, h1g⟩ := pass_1_same_core lines g hg
  have hfs : find_start g.program 0 = .ok si := by
    rw [find_start_same_core h0g]; exact h2
  have hfe : find_end g.program 0 = .ok ei := by
    rw [find_end_same_core h1g]; exact h4
  obtain ⟨pre, s, rest, hl, hpre, hst, hsi⟩ := find_start_split _ _ _ hfs
  have hpre_end : ∀ x ∈ pre ++ [s], x.mnemonic ≠ "END".toList := by
    intro x hx
    rcases List.mem_append.mp hx with hx | hx
    · rw [hpre x hx]; decide
    · rw [List.mem_singleton.mp hx, hst]; decide
  have hl2 : g.program = (pre ++ [s]) ++ rest := by rw [hl]; simp
  rw [hl2, find_end_append _ _ _ hpre_end] at hfe
  obtain ⟨mid, e, post, hr, hmid, he, _⟩ := find_end_split _ _ _ hfe
  have hbefore : before_END g.program = pre ++ s :: mid := by
    have : g.program = (pre ++ s :: mid) ++ e :: post := by rw [hl, hr]; simp
    rw [this]
    apply before_END_append _ _ _ _ he
    intro x hx
    rcases List.mem_append.mp hx with hx | hx
    · exact hpre_end x (List.mem_append_left _ hx)
    · rcases List.mem_cons.mp hx with hx | hx
      · rw [hx, hst]; decide
      · exact hmid x hx
  have hparsed : ∀ x ∈ pre, (x.is_comment = true ∨ x.is_blank = true) ∧
      x.size_in_memory = 0 := by
    intro x hx
    have hxg : x ∈ g.program := by rw [hl]; exact List.mem_append_left _ hx
    obtain ⟨a, ha, hc⟩ := forall2_left h0g x hxg
    obtain ⟨m, sz, _, c, b, _, _⟩ := hc
    have hma : a.mnemonic = [] := by rw [← m]; exact hpre x hx
    obtain ⟨_, _, _, _, f5, _⟩ := read_program_parsed _ _ _ h1 a ha
    rw [c, b, sz]
    exact ⟨read_program_empty_mnemonic _ _ _ h1 a ha hma, (f5 hma).1⟩
  have hloc := assign_locations_first_START si _ _ _ _ _ h5 pre s rest hl
    (fun x hx => ⟨hpre x hx, (hparsed x hx).2⟩) hst
  refine ⟨pre, s, mid, e, post, by rw [hl, hr], fun x hx => (hparsed x hx).1, hst, ?_, he,
    hloc.1, hloc.2⟩
  intro x hx
  refine ⟨?_, hmid x hx⟩
  intro hs
  obtain ⟨k, hk, hkx⟩ := List.getElem_of_mem hx
  have hget : (before_END g.program)[pre.length + 1 + k]? = some x := by
    rw [hbefore, List.getElem?_append_right (by omega)]
    have : pre.length + 1 + k - pre.length = k + 1 := by omega
    rw [this, List.getElem?_cons_succ, List.getElem?_eq_getElem hk, hkx]
  have := assign_locations_START si _ _ _ _ _ h5 _ x hget hs
  omega

/-- The program starting address of an accepted program is below `2<<15`: `START` is
written to the intermediate file with that location. -/
theorem pass_1_psa_lt (lines : List (List Char)) (g : Globals)
    (h : pass_1 lines = .ok g) : g.program_starting_address < 65536 := by
  obtain ⟨pre, s, mid, e, post, hl, _, hst, _, _, hloc, hpsa⟩ := pass_1_shape lines g h
  obtain ⟨_, _, _, _, imf, _, _, _, _, _, _, hw, _⟩ := pass_1_ok lines g h
  have hmem : s ∈ g.program := by rw [hl]; simp
  obtain ⟨u, hu⟩ := write_all_mem _ _ hw s hmem
  obtain ⟨hc, hb⟩ := (pass_1_program lines g h s hmem).2.2.1 (by rw [hst]; decide)
  have hnn := pass_1_psa_nonneg lines g h
  unfold instruction.to_string at hu
  rw [hb, hc] at hu
  simp only [Bool.false_eq_true, if_false] at hu
  rw [if_pos ⟨hloc, by rw [hpsa]; exact hnn⟩] at hu
  by_contra hge
  rw [if_pos (by rw [hpsa]; omega)] at hu
  cases hu

/-! ### The header record -/

theorem forall2_append_left {R : instruction → instruction → Prop} :
    ∀ (a b l : List instruction), List.Forall₂ R (a ++ b) l →
    ∃ a1 b1, l = a1 ++ b1 ∧ List.Forall₂ R a a1 ∧ List.Forall₂ R b b1 := by
  intro a
  induction a with
  | nil => intro b l h; exact ⟨[], l, rfl, List.Forall₂.nil, h⟩
  | cons x a ih =>
    intro b l h
    rw [List.cons_append] at h
    cases h with
    | cons hxy hrest =>
      obtain ⟨a1, b1, hl, ha, hb⟩ := ih _ _ hrest
      exact ⟨_ :: a1, b1, by rw [hl]; rfl, List.Forall₂.cons hxy ha, hb⟩

/-- The shape of the program after the main loop of `pass_2`. -/
theorem encoded_shape (lines : List (List Char)) (g : Globals) (hg : pass_1 lines = .ok g)
    (r : List instruction × Int)
    (hr : encode_program g.SYMTAB g.program g.first_executable_instruction = .ok r) :
    ∃ pre start mid e post, r.1 = pre ++ start :: (mid ++ e :: post) ∧
      (∀ x ∈ pre, x.is_comment = true ∨ x.is_blank = true) ∧
      (start.mnemonic = "START".toList ∧ start.is_comment = false ∧ start.is_blank = false) ∧
      (∀ x ∈ mid, x.mnemonic ≠ "START".toList ∧ x.mnemonic ≠ "END".toList) ∧
      (e.mnemonic = "END".toList ∧ e.is_comment = false ∧ e.is_blank = false) := by
  obtain ⟨pre, s, mid, e, post, hl, hpre, hst, hmid, he, _⟩ := pass_1_shape lines g hg
  have hfacts := pass_1_program lines g hg
  have henc := encode_program_encoded g.SYMTAB _ _ _ hr
  rw [hl] at henc
  obtain ⟨pre1, t1, h1, hp1, ht1⟩ := forall2_append_left _ _ _ henc
  cases ht1 with
  | cons hs1 ht2 =>
    obtain ⟨mid1, t3, h3, hm1, ht3⟩ := forall2_append_left _ _ _ ht2
    cases ht3 with
    | cons he1 _ =>
      have hsg : s ∈ g.program := by rw [hl]; simp
      have heg : e ∈ g.program := by rw [hl]; simp
      obtain ⟨sc, sb⟩ := (hfacts s hsg).2.2.1 (by rw [hst]; decide)
      obtain ⟨ec, eb⟩ := (hfacts e heg).2.2.1 (by rw [he]; decide)
      refine ⟨pre1, _, mid1, _, _, by rw [h1, h3], ?_, ?_, ?_, ?_⟩
      · intro x hx
        obtain ⟨a, ha, hm, hc, hb⟩ := forall2_left hp1 x hx
        rw [hc, hb]
        exact hpre a ha
      · exact ⟨hs1.1.trans hst, hs1.2.1.trans sc, hs1.2.2.trans sb⟩
      · intro x hx
        obtain ⟨a, ha, hm, _, _⟩ := forall2_left hm1 x hx
        rw [hm]
        exact hmid a ha
      · exact ⟨he1.1.trans he, he1.2.1.trans ec, he1.2.2.trans eb⟩

theorem generate_records_skip (g : Globals) : ∀ (pre l : List instruction) (st : Records),
    (∀ x ∈ pre, x.is_comment = true ∨ x.is_blank = true) →
    generate_records g (pre ++ l) st = generate_records g l st := by
  intro pre
  induction pre with
  | nil => intro l st _; rfl
  | cons x pre ih =>
    intro l st h
    rw [List.cons_append, generate_records, if_pos (h x (List.mem_cons_self _ _))]
    exact ih l st (fun y hy => h y (List.mem_cons_of_mem _ hy))

theorem generate_records_START (g : Globals) (s : instruction) (l : List instruction)
    (st : Records) (hs : s.mnemonic = "START".toList) (hc : s.is_comment = false)
    (hb : s.is_blank = false) :
    generate_records g (s :: l) st = generate_records g l
      { st with header_record := st.header_record ++
          make_header g.program_name g.program_starting_address g.length_of_program } := by
  rw [generate_records, if_neg (by rw [hc, hb]; decide), if_pos hs]

/-- After `START` the record loop leaves the header record as it is. -/
theorem generate_records_header (g : Globals) (e : instruction) (post : List instruction)
    (he : e.mnemonic = "END".toList) (hc : e.is_comment = false) (hb : e.is_blank = false) :
    ∀ (mid : List instruction) (st out : Records),
    (∀ x ∈ mid, x.mnemonic ≠ "START".toList) →
    generate_records g (mid ++ e :: post) st = .ok out →
    out.header_record = st.header_record := by
  intro mid
  induction mid with
  | nil =>
    intro st out _ h
    rw [List.nil_append, generate_records, if_neg (by rw [hc, hb]; decide),
      if_neg (by rw [he]; decide), if_pos he] at h
    injection h with h
    rw [← h]
  | cons x mid ih =>
    intro st out hmid h
    have hrest : ∀ y ∈ mid, y.mnemonic ≠ "START".toList :=
      fun y hy => hmid y (List.mem_cons_of_mem _ hy)
    rw [List.cons_append, generate_records] at h
    split at h
    · exact (show _ = _ from (ih _ _ hrest h :))
    · rw [if_neg (hmid x (List.mem_cons_self _ _))] at h
      split at h
      · injection h with h
        rw [← h]
      · split at h
        · exact (show _ = _ from (ih _ _ hrest h :))
        · split at h
          · exact (show _ = _ from (ih _ _ hrest h :))
          · split at h
            · cases h
            · split at h
              · exact (show _ = _ from (ih _ _ hrest h :))
              · exact (show _ = _ from (ih _ _ hrest h :))

/-- The header record of an assembled program is the one header `pass_2` makes at
`START`. -/
theorem pass_2_header (lines : List (List Char)) (g g2 : Globals)
    (hg : pass_1 lines = .ok g) (h2 : pass_2 g = .ok g2) :
    g2.header_record
      = make_header g.program_name g.program_starting_address g.length_of_program := by
  obtain ⟨r, listing, recs, hr, _, hrec, _, _, _, _, _, _, hh, _⟩ := pass_2_ok g g2 h2
  obtain ⟨pre, s, mid, e, post, hl, hpre, ⟨hs, hsc, hsb⟩, hmid, ⟨he, hec, heb⟩⟩ :=
    encoded_shape lines g hg r hr
  rw [hh]
  rw [hl, generate_records_skip _ _ _ _ hpre, generate_records_START _ _ _ _ hs hsc hsb] at hrec
  have := generate_records_header _ e post he hec heb mid _ _ (fun x hx => (hmid x hx).1) hrec
  rw [this]
  rfl

theorem name_field_loop (program_name : List Char) :
    (List.range 6).map (fun i => if i < program_name.length
                                   then program_name.getD i (Char.ofNat 32)
                                   else Char.ofNat 32)
      = name_field program_name := by
  have hr : List.range 6 = [0, 1, 2, 3, 4, 5] := by decide
  rw [hr]
  unfold name_field
  rcases program_name with _ | ⟨a, _ | ⟨b, _ | ⟨c, _ | ⟨d, _ | ⟨e, _ | ⟨f, t⟩⟩⟩⟩⟩⟩ <;>
    simp [List.replicate]

theorem name_field_length (program_name : List Char) :
    (name_field program_name).length = 6 := by
  unfold name_field
  rw [List.length_append, List.length_take, List.length_replicate]
  omega

/-! ### Text records and gaps -/

/-- The record loop on `A ++ l`, when `A` has no `END`, is the loop on `A` followed by the
loop on `l` from the state reached. -/
theorem generate_records_append (g : Globals) (l : List instruction) :
    ∀ (A : List instruction) (st : Records), (∀ x ∈ A, x.mnemonic ≠ "END".toList) →
    generate_records g (A ++ l) st = (generate_records g A st) >>= generate_records g l := by
  intro A
  induction A with
  | nil => intro st _; rfl
  | cons x A ih =>
    intro st hA
    have hrest : ∀ y ∈ A, y.mnemonic ≠ "END".toList :=
      fun y hy => hA y (List.mem_cons_of_mem _ hy)
    have hx := hA x (List.mem_cons_self _ _)
    rw [List.cons_append]
    conv_lhs => rw [generate_records]
    conv_rhs => rw [generate_records]
    rw [if_neg hx, if_neg hx]
    split
    · exact ih _ hrest
    · split
      · exact ih _ hrest
      · split
        · exact ih _ hrest
        · split
          · exact ih _ hrest
          · cases st.text_records.getLast? with
            | none => rfl
            | some back =>
              simp only
              split
              · exact ih _ hrest
              · exact ih _ hrest

/-- Records that are closed (a new record is due, or a later record is open) are not
touched by the record loop: it does on `T0 ++ T` what it does on `T`. -/
theorem generate_records_closed (g : Globals) (T0 : List text_record) :
    ∀ (l : List instruction) (st : Records),
    (st.insert_new = true ∨ st.text_records ≠ []) →
    generate_records g l { st with text_records := T0 ++ st.text_records }
      = (generate_records g l st).map
          (fun o => { o with text_records := T0 ++ o.text_records }) := by
  intro l
  induction l with
  | nil => intro st _; rfl
  | cons x l ih =>
    intro st hst
    conv_lhs => rw [generate_records]
    conv_rhs => rw [generate_records]
    simp only
    split
    · exact ih st hst
    · split
      · exact ih ⟨st.header_record ++ make_header g.program_name g.program_starting_address
          g.length_of_program, st.insert_new, st.text_records, st.end_record⟩ hst
      · split
        · rfl
        · split
          · exact ih ⟨st.header_record, true, st.text_records, st.end_record⟩ (Or.inl rfl)
          · split
            · rw [List.append_assoc]
              exact ih ⟨st.header_record, false,
                st.text_records ++ [(text_record.new x.location).insert x.object_code],
                st.end_record⟩ (Or.inr (by simp))
            · rename_i hnew
              have hne : st.text_records ≠ [] := by
                rcases hst with h | h
                · exact absurd h hnew
                · exact h
              rw [List.getLast?_append_of_ne_nil _ hne]
              cases hq : st.text_records.getLast? with
              | none =>
                exact absurd (List.getLast?_eq_none_iff.mp hq) hne
              | some back =>
                simp only
                split
                · rw [List.append_assoc]
                  exact ih ⟨st.header_record, st.insert_new,
                    st.text_records ++ [(text_record.new x.location).insert x.object_code],
                    st.end_record⟩ (Or.inr (by simp))
                · rw [List.dropLast_append_of_ne_nil _ hne, List.append_assoc]
                  exact ih ⟨st.header_record, st.insert_new,
                    st.text_records.dropLast ++ [back.insert x.object_code],
                    st.end_record⟩ (Or.inr (by simp))

theorem is_content_iff (x : instruction) :
    is_content x = true ↔
      ¬ (x.is_comment = true ∨ x.is_blank = true) ∧ x.mnemonic ≠ "START".toList ∧
        x.mnemonic ≠ "END".toList ∧
        ¬ (x.mnemonic = "RESW".toList ∨ x.mnemonic = "RESB".toList) := by
  unfold is_content
  simp only [Bool.and_eq_true, Bool.not_eq_true', decide_eq_true_eq, not_or, Bool.not_eq_true]
  tauto

theorem content_codes_cons_content (x : instruction) (l : List instruction)
    (h : is_content x = true) :
    content_codes (x :: l) = x.object_code :: content_codes l := by
  unfold content_codes
  rw [before_END_cons _ _ ((is_content_iff x).mp h).2.2.1, List.filter_cons_of_pos h,
    List.map_cons]

theorem content_codes_cons_other (x : instruction) (l : List instruction)
    (he : x.mnemonic ≠ "END".toList) (h : ¬ is_content x = true) :
    content_codes (x :: l) = content_codes l := by
  unfold content_codes
  rw [before_END_cons _ _ he, List.filter_cons_of_neg h]

theorem content_codes_cons_END (x : instruction) (l : List instruction)
    (he : x.mnemonic = "END".toList) : content_codes (x :: l) = [] := by
  unfold content_codes
  rw [before_END_cons_END _ _ he]
  rfl

theorem fragments_append (T : List text_record) (tr : text_record) :
    fragments (T ++ [tr]) = fragments T ++ tr.records := by
  unfold fragments
  simp

theorem fragments_merge (T : List text_record) (back : text_record) (code : List Char)
    (h : T.getLast? = some back) :
    fragments (T.dropLast ++ [back.insert code]) = fragments T ++ [code] := by
  have hT : T = T.dropLast ++ [back] := by
    have hne : T ≠ [] := by
      intro h0
      rw [h0] at h
      cases h
    rw [List.getLast?_eq_getLast _ hne] at h
    injection h with h
    rw [← h, List.dropLast_append_getLast hne]
  conv_rhs => rw [hT]
  rw [fragments_append, fragments_append, List.append_assoc]
  rfl

/-- The fragments the record loop adds are the object codes of the content-bearing
instructions before the first `END`, in source order. -/
theorem generate_records_fragments (g : Globals) :
    ∀ (l : List instruction) (st out : Records), END_not_skipped l →
    generate_records g l st = .ok out →
    fragments out.text_records = fragments st.text_records ++ content_codes l := by
  intro l
  induction l with
  | nil =>
    intro st out _ h
    rw [generate_records] at h
    injection h with h
    subst h
    simp [content_codes, before_END]
  | cons x l ih =>
    intro st out hl h
    have hl1 := END_not_skipped_tail x l hl
    rw [generate_records] at h
    split at h
    · rename_i hs
      have he : x.mnemonic ≠ "END".toList := by
        intro he
        obtain ⟨c, b⟩ := hl x (List.mem_cons_self _ _) he
        rw [c, b] at hs
        revert hs
        decide
      rw [content_codes_cons_other x l he (fun hc => ((is_content_iff x).mp hc).1 hs)]
      exact ih _ _ hl1 h
    · split at h
      · rename_i hs
        have he : x.mnemonic ≠ "END".toList := by rw [hs]; decide
        rw [content_codes_cons_other x l he (fun hc => ((is_content_iff x).mp hc).2.1 hs)]
        exact (show _ = _ from (ih _ _ hl1 h :))
      · split at h
        · rename_i he
          injection h with h
          rw [← h, content_codes_cons_END x l he, List.append_nil]
        · split at h
          · rename_i _ _ he hg
            rw [content_codes_cons_other x l he
              (fun hc => ((is_content_iff x).mp hc).2.2.2 hg)]
            exact (show _ = _ from (ih _ _ hl1 h :))
          · rename_i hs1 hs2 he hg
            have hcont : is_content x = true := (is_content_iff x).mpr ⟨hs1, hs2, he, hg⟩
            rw [content_codes_cons_content x l hcont]
            split at h
            · have := ih _ _ hl1 h
              rw [this, fragments_append]
              simp [text_record.new, text_record.insert]
            · split at h
              · cases h
              · rename_i back hback
                split at h
                · have := ih _ _ hl1 h
                  rw [this, fragments_append]
                  simp [text_record.new, text_record.insert]
                · have := ih _ _ hl1 h
                  rw [this, fragments_merge _ _ _ hback]
                  simp

/-- The record loop keeps the first text record first, with its starting address, and
only appends fragments to it. -/
theorem generate_records_head (g : Globals) :
    ∀ (l : List instruction) (st out : Records) (tr0 : text_record) (T : List text_record),
    generate_records g l st = .ok out → st.text_records = tr0 :: T →
    ∃ tr T1, out.text_records = tr :: T1 ∧ tr.starting_address = tr0.starting_address ∧
      ∃ more, tr.records = tr0.records ++ more := by
  intro l
  induction l with
  | nil =>
    intro st out tr0 T h hT
    rw [generate_records] at h
    injection h with h
    subst h
    exact ⟨tr0, T, hT, rfl, [], by simp⟩
  | cons x l ih =>
    intro st out tr0 T h hT
    rw [generate_records] at h
    split at h
    · exact ih _ _ tr0 T h hT
    · split at h
      · exact ih _ _ tr0 T h hT
      · split at h
        · injection h with h
          subst h
          exact ⟨tr0, T, hT, rfl, [], by simp⟩
        · split at h
          · exact ih _ _ tr0 T h hT
          · split at h
            · exact ih _ _ tr0 (T ++ [(text_record.new x.location).insert x.object_code]) h
                (by show st.text_records ++ _ = _; rw [hT]; rfl)
            · split at h
              · cases h
              · rename_i back hback
                split at h
                · exact ih _ _ tr0 (T ++ [(text_record.new x.location).insert x.object_code])
                    h (by show st.text_records ++ _ = _; rw [hT]; rfl)
                · cases T with
                  | nil =>
                    rw [hT] at hback
                    injection hback with hback
                    subst hback
                    obtain ⟨tr, T1, h1, h2, more, h3⟩ :=
                      ih _ _ (tr0.insert x.object_code) [] h
                        (by show st.text_records.dropLast ++ _ = _; rw [hT]; rfl)
                    refine ⟨tr, T1, h1, h2, [x.object_code] ++ more, ?_⟩
                    rw [h3]
                    simp [text_record.insert]
                  | cons t T2 =>
                    exact ih _ _ tr0 ((t :: T2).dropLast ++ [back.insert x.object_code]) h
                      (by show st.text_records.dropLast ++ _ = _; rw [hT]; rfl)

/-- From a state where a new record is due and none is there, the first content-bearing
instruction opens the first text record, at its location. -/
theorem generate_records_first_content (g : Globals) (c : instruction)
    (rest : List instruction) (hc : is_content c = true) :
    ∀ (skip : List instruction) (st out : Records),
    (∀ x ∈ skip, is_content x = false ∧ x.mnemonic ≠ "END".toList) →
    st.insert_new = true → st.text_records = [] →
    generate_records g (skip ++ c :: rest) st = .ok out →
    ∃ tr T1, out.text_records = tr :: T1 ∧ tr.starting_address = c.location ∧
      ∃ more, tr.records = c.object_code :: more := by
  intro skip
  induction skip with
  | nil =>
    intro st out _ hnew hT h
    obtain ⟨c1, c2, c3, c4⟩ := (is_content_iff c).mp hc
    rw [List.nil_append, generate_records, if_neg c1, if_neg c2, if_neg c3, if_neg c4,
      if_pos hnew] at h
    exact generate_records_head g _ _ _ ((text_record.new c.location).insert c.object_code)
      [] h (by show st.text_records ++ _ = _; rw [hT]; rfl)
  | cons x skip ih =>
    intro st out hskip hnew hT h
    have hrest : ∀ y ∈ skip, is_content y = false ∧ y.mnemonic ≠ "END".toList :=
      fun y hy => hskip y (List.mem_cons_of_mem _ hy)
    obtain ⟨hx, hxe⟩ := hskip x (List.mem_cons_self _ _)
    rw [List.cons_append, generate_records] at h
    split at h
    · exact ih _ _ hrest hnew hT h
    · split at h
      · refine ih _ _ hrest ?_ ?_ h
        · exact hnew
        · exact hT
      · split at h
        · refine ih _ _ hrest ?_ ?_ h
          · rfl
          · exact hT
        · rename_i h1 h2 h4
          have := (is_content_iff x).mpr ⟨h1, h2, hxe, h4⟩
          rw [hx] at this
          cases this

theorem generate_records_gap (g : Globals) (res : instruction) (l : List instruction)
    (st : Records) (h : is_gap res = true) :
    generate_records g (res :: l) st
      = generate_records g l ⟨st.header_record, true, st.text_records, st.end_record⟩ := by
  unfold is_gap at h
  simp only [Bool.and_eq_true, Bool.not_eq_true', Bool.or_eq_true, decide_eq_true_eq] at h
  obtain ⟨⟨hc, hb⟩, hm⟩ := h
  have hs : res.mnemonic ≠ "START".toList := by
    rcases hm with hm | hm <;> rw [hm] <;> decide
  have he : res.mnemonic ≠ "END".toList := by
    rcases hm with hm | hm <;> rw [hm] <;> decide
  rw [generate_records, if_neg (by rw [hc, hb]; decide), if_neg hs, if_neg he, if_pos hm]

/-- The program of an assembled run has no `END` that is a comment or blank. -/
theorem assemble_END_not_skipped (lines : List (List Char)) (g2 : Globals)
    (h : assemble lines = .ok g2) : END_not_skipped g2.program := by
  obtain ⟨p, hp1, hp2⟩ := assemble_ok lines g2 h
  obtain ⟨r, _, _, e1, _, _, q1, _⟩ := pass_2_ok p g2 hp2
  have hprog := pass_1_program lines p hp1
  have henc := encode_program_encoded _ _ _ _ e1
  intro b hb he
  rw [q1] at hb
  obtain ⟨a, ha, m, c, bl⟩ := forall2_left henc b hb
  rw [c, bl]
  exact (hprog a ha).2.2.1 (by rw [← m, he]; decide)

/-! ### Classification of operands with a comma -/

theorem is_label_format_true (s : List Char) :
    is_label_format s = .ok true ↔ valid_label s := by
  unfold valid_label
  cases s with
  | nil =>
    constructor
    · intro h; cases h
    · rintro ⟨c, rest, h, _⟩; cases h
  | cons c rest =>
    unfold is_label_format
    constructor
    · intro h
      injection h with h
      rw [Bool.and_eq_true, List.all_eq_true] at h
      exact ⟨c, rest, rfl, h.1, h.2⟩
    · rintro ⟨c1, rest1, h, h1, h2⟩
      injection h with ha hb
      subst ha hb
      have : (isalpha c && rest.all isalnum) = true := by
        rw [Bool.and_eq_true, List.all_eq_true]
        exact ⟨h1, h2⟩
      show Except.ok (isalpha c && rest.all isalnum) = Except.ok true
      rw [this]

/-- The comma case of the classifier. -/
theorem classify_operand_comma (operand : List Char) (h : commas operand ≠ 0) :
    classify_operand operand =
      if commas operand > 1 then .error .E_SMFMT
      else if operand.length < 2 ∨
          ¬ (operand.getD (operand.length - 2) default = Char.ofNat 44 ∧
             operand.getD (operand.length - 1) default = Char.ofNat 88) then .error .E_WGIDX
      else (do
        let ok ← is_label_format (operand.take (operand.length - 2))
        if !ok then .error .E_NALNM else .ok .O_INDXD) := by
  unfold commas at h
  unfold classify_operand commas
  simp only
  rw [if_pos h]

/-- With a comma the classifier gives `O_INDXD` or a fatal error. -/
theorem classify_operand_comma_cases (operand : List Char) (h : commas operand ≠ 0) :
    classify_operand operand = .ok .O_INDXD ∨ ∃ e, classify_operand operand = .error e := by
  rw [classify_operand_comma operand h]
  split_ifs
  · exact Or.inr ⟨_, rfl⟩
  · exact Or.inr ⟨_, rfl⟩
  · cases is_label_format (operand.take (operand.length - 2)) with
    | error e => exact Or.inr ⟨e, rfl⟩
    | ok b =>
      cases b with
      | false => exact Or.inr ⟨_, rfl⟩
      | true => exact Or.inl rfl

theorem last_two (l : List Char) (d : Char) (h : 2 ≤ l.length) :
    l = l.take (l.length - 2) ++ [l.getD (l.length - 2) d, l.getD (l.length - 1) d] := by
  have h1 : l.length - 2 < l.length := by omega
  have h2 : l.length - 2 + 1 < l.length := by omega
  have h3 : l.length - 2 + 1 + 1 = l.length := by omega
  conv_lhs => rw [← List.take_append_drop (l.length - 2) l]
  rw [List.drop_eq_getElem_cons h1, List.drop_eq_getElem_cons h2, h3, List.drop_length,
    List.getD_eq_getElem _ _ h1]
  have h4 : l.length - 1 = l.length - 2 + 1 := by omega
  have h5 : l.length - 1 < l.length := by omega
  rw [List.getD_eq_getElem _ _ h5]
  simp only [h4]

theorem commas_append (a b : List Char) : commas (a ++ b) = commas a + commas b := by
  unfold commas
  rw [List.countP_append]

/-! ### Sizes the constructor computes -/

theorem is_upper_hex_range (c : Char) (h : is_upper_hex c = true) :
    (48 ≤ c.toNat ∧ c.toNat ≤ 57) ∨ (65 ≤ c.toNat ∧ c.toNat ≤ 70) := by
  unfold is_upper_hex hex_char_value at h
  by_cases h1 : 48 ≤ c.toNat ∧ c.toNat ≤ 57
  · exact Or.inl h1
  · by_cases h2 : 65 ≤ c.toNat ∧ c.toNat ≤ 70
    · exact Or.inr h2
    · rw [if_neg h1, if_neg h2] at h
      cases h

/-- On an uppercase hexadecimal digit `strtol` in base 16 reads the value the
specification gives the digit. -/
theorem digit_value_upper_hex (c : Char) (h : is_upper_hex c = true) :
    ∃ d, hex_char_value c = some d ∧ digit_value 16 c = some d := by
  rcases is_upper_hex_range c h with h1 | h1
  · refine ⟨c.toNat - 48, ?_, ?_⟩
    · unfold hex_char_value
      rw [if_pos h1]
    · unfold digit_value
      simp only
      rw [if_pos h1]
      show (if c.toNat - 48 < 16 then some (c.toNat - 48) else none) = some (c.toNat - 48)
      rw [if_pos (by omega)]
  · refine ⟨c.toNat - 55, ?_, ?_⟩
    · unfold hex_char_value
      rw [if_neg (by omega), if_pos h1]
    · unfold digit_value
      simp only
      rw [if_neg (by omega), if_neg (by omega), if_pos (by omega)]
      show (if c.toNat - 65 + 10 < 16 then some (c.toNat - 65 + 10) else none)
        = some (c.toNat - 55)
      rw [if_pos (by omega)]
      congr 1
      omega

theorem take_digits_upper_hex : ∀ (s : List Char) (acc : Nat),
    (∀ c ∈ s, is_upper_hex c = true) →
    hex_value_from s acc = some ((take_digits 16 s).foldl (fun a d => a * 16 + d) acc) ∧
      (take_digits 16 s).length = s.length := by
  intro s
  induction s with
  | nil => intro acc _; exact ⟨rfl, rfl⟩
  | cons c t ih =>
    intro acc h
    obtain ⟨d, h1, h2⟩ := digit_value_upper_hex c (h c (List.mem_cons_self _ _))
    obtain ⟨i1, i2⟩ := ih (16 * acc + d) (fun x hx => h x (List.mem_cons_of_mem _ hx))
    have ht : take_digits 16 (c :: t) = d :: take_digits 16 t := by
      rw [take_digits, h2]
    rw [ht, hex_value_from, h1]
    simp only [List.foldl_cons, List.length_cons]
    rw [Nat.mul_comm acc 16]
    exact ⟨i1, by rw [i2]⟩

theorem skip_0x_upper_hex (s : List Char) (h : ∀ c ∈ s, is_upper_hex c = true) :
    skip_0x 16 s = s := by
  unfold skip_0x
  rw [if_pos rfl]
  match s, h with
  | [], _ => rfl
  | [_], _ => rfl
  | [_, _], _ => rfl
  | z :: x :: d :: rest, h =>
    have hx := is_upper_hex_range x (h x (by simp))
    show (if z.toNat = 48 ∧ (x.toNat = 120 ∨ x.toNat = 88) ∧ (digit_value 16 d).isSome = true
      then d :: rest else z :: x :: d :: rest) = z :: x :: d :: rest
    rw [if_neg (by omega)]

/-- `stoi` in base 16 on a non-empty string of uppercase hexadecimal digits: the
number the string denotes when that fits an `int`, else the uncaught `out_of_range`. -/
theorem stoi_upper_hex (s : List Char) (hne : s ≠ [])
    (hd : ∀ c ∈ s, is_upper_hex c = true) :
    ∃ v, hex_value s = some v ∧
      stoi s 16 = if v ≤ 2147483647 then .ok (v : Int) else .error .uncaught_exception := by
  obtain ⟨hv, hlen⟩ := take_digits_upper_hex s 0 hd
  refine ⟨_, hv, ?_⟩
  obtain ⟨c, t, rfl⟩ := List.exists_cons_of_ne_nil hne
  have hc := is_upper_hex_range c (hd c (List.mem_cons_self _ _))
  have hsp : isspace c = false := by
    unfold isspace
    simp only [Bool.or_eq_false_iff, beq_eq_false_iff_ne, Bool.and_eq_false_iff,
      decide_eq_false_iff_not]
    constructor <;> omega
  have hdrop : (c :: t).dropWhile isspace = c :: t := by
    rw [List.dropWhile_cons_of_neg (by rw [hsp]; decide)]
  have h45 : ¬ c.toNat = 45 := by omega
  have h43 : ¬ c.toNat = 43 := by omega
  unfold stoi
  simp only [hdrop, h45, h43, if_false, skip_0x_upper_hex _ hd]
  have hemp : (take_digits 16 (c :: t)).isEmpty = false := by
    cases hq : take_digits 16 (c :: t) with
    | nil => rw [hq] at hlen; cases hlen
    | cons _ _ => rfl
  rw [hemp]
  simp only [Bool.false_eq_true, if_false]
  unfold signed_value
  simp only [Bool.false_eq_true, if_false]
  generalize (take_digits 16 (c :: t)).foldl (fun a d => a * 16 + d) 0 = v
  by_cases hr : v ≤ 2147483647
  · rw [if_pos hr, if_pos (by constructor <;> omega)]
  · rw [if_neg hr, if_neg (by intro h; omega)]

theorem quoted_form (l : List Char) (tag : Char) (h4 : ¬ l.length < 4)
    (h0 : l.getD 0 default = tag) (h1 : l.getD 1 default = quote)
    (h2 : l.getD (l.length - 1) default = quote) :
    ∃ content, content ≠ [] ∧ l = tag :: quote :: (content ++ [quote]) := by
  match l, h4, h0, h1, h2 with
  | [], h4, _, _, _ => simp at h4
  | [_], h4, _, _, _ => simp at h4
  | a :: b :: rest, h4, h0, h1, h2 =>
    have hne : rest ≠ [] := by
      intro h
      rw [h] at h4
      simp at h4
    have ha : a = tag := h0
    have hb : b = quote := h1
    have hlast : rest.getLast hne = quote := by
      have hlen : (a :: b :: rest).length - 1 = rest.length - 1 + 2 := by
        have := List.length_pos.mpr hne
        simp only [List.length_cons]
        omega
      rw [hlen] at h2
      have hlt : rest.length - 1 < rest.length := by
        have := List.length_pos.mpr hne
        omega
      have h3 : rest.getD (rest.length - 1) default = quote := h2
      rw [List.getD_eq_getElem _ _ hlt] at h3
      rw [List.getLast_eq_getElem]
      exact h3
    refine ⟨rest.dropLast, ?_, ?_⟩
    · intro h0
      have hl := congrArg List.length h0
      rw [List.length_dropLast] at hl
      simp only [List.length_cons, List.length_nil] at h4 hl
      omega
    · rw [ha, hb]
      congr 2
      rw [← hlast, List.dropLast_append_getLast hne]

/-- The form of an operand by the kind the classifier gives it. -/
theorem classify_operand_form (operand : List Char) (ty : OperandType)
    (h : classify_operand operand = .ok ty) :
    (ty = .O_DECIM → operand ≠ [] ∧ ∀ c ∈ operand, isdigit c = true) ∧
    (ty = .O_HEXAD → ∃ content, content ≠ [] ∧ operand = hex_operand content) ∧
    (ty = .O_CHRAR → ∃ content, content ≠ [] ∧ operand = char_operand content) ∧
    (ty = .O_LABEL ∨ ty = .O_INDXD → ∃ c rest, operand = c :: rest ∧ isalpha c = true) ∧
    ty ≠ .O_NOOPD := by
  cases operand with
  | nil =>
    have : classify_operand [] = .error .E_INTRL := rfl
    rw [this] at h
    cases h
  | cons c rest =>
    unfold classify_operand at h
    dsimp only at h
    split_ifs at h with h1 h2 h3 h4 h5 h6 h7 h8 h9 h10 h11 h12
    · obtain ⟨ok, hl, hk⟩ := (bind_eq_ok _ _ _).mp h
      have hok : ok = true := by
        cases ok with
        | false => cases hk
        | true => rfl
      subst hok
      injection hk with hk
      subst hk
      refine ⟨?_, ?_, ?_, ?_, by decide⟩
      · intro hx; cases hx
      · intro hx; cases hx
      · intro hx; cases hx
      · intro _
        cases hn : (c :: rest).length - 2 with
        | zero =>
          rw [hn] at hl
          cases hl
        | succ n =>
          rw [hn, List.take_succ_cons] at hl
          unfold is_label_format at hl
          injection hl with hl
          rw [Bool.and_eq_true] at hl
          exact ⟨c, rest, rfl, hl.1⟩
    · injection h with h
      subst h
      rw [not_or, not_not] at h5
      refine ⟨?_, ?_, ?_, ?_, by decide⟩
      · intro hx; cases hx
      · intro _
        exact quoted_form _ _ h5.1 h6 h5.2.1 h5.2.2
      · intro hx; cases hx
      · intro hx
        rcases hx with hx | hx <;> cases hx
    · injection h with h
      subst h
      rw [not_or, not_not] at h5
      refine ⟨?_, ?_, ?_, ?_, by decide⟩
      · intro hx; cases hx
      · intro hx; cases hx
      · intro _
        exact quoted_form _ _ h5.1 h8 h5.2.1 h5.2.2
      · intro hx
        rcases hx with hx | hx <;> cases hx
    · rename_i hall
      injection h with h
      subst h
      refine ⟨?_, ?_, ?_, ?_, by decide⟩
      · intro _
        refine ⟨by simp, ?_⟩
        intro x hx
        by_contra hxd
        apply hall
        rw [List.any_eq_true]
        exact ⟨x, hx, by simpa using hxd⟩
      · intro hx; cases hx
      · intro hx; cases hx
      · intro hx
        rcases hx with hx | hx <;> cases hx
    · obtain ⟨ok, hl, hk⟩ := (bind_eq_ok _ _ _).mp h
      have hok : ok = true := by
        cases ok with
        | false => cases hk
        | true => rfl
      subst hok
      injection hk with hk
      subst hk
      refine ⟨?_, ?_, ?_, ?_, by decide⟩
      · intro hx; cases hx
      · intro hx; cases hx
      · intro hx; cases hx
      · intro _
        unfold is_label_format at hl
        injection hl with hl
        rw [Bool.and_eq_true] at hl
        exact ⟨c, rest, rfl, hl.1⟩

theorem int_checked_ok (x y : Int) (h : int_checked x = .ok y) : y = x := by
  unfold int_checked at h
  split at h
  · injection h with h
    exact h.symm
  · cases h

/-- `stoi` in base 10 throws on a string that starts with a letter. -/
theorem stoi_alpha_head (c : Char) (rest : List Char) (hc : isalpha c = true) :
    stoi (c :: rest) 10 = .error .uncaught_exception := by
  have hn : (65 ≤ c.toNat ∧ c.toNat ≤ 90) ∨ (97 ≤ c.toNat ∧ c.toNat ≤ 122) := by
    unfold isalpha at hc
    simp only [Bool.or_eq_true, Bool.and_eq_true, decide_eq_true_eq] at hc
    exact hc
  have hsp : isspace c = false := by
    unfold isspace
    simp only [Bool.or_eq_false_iff, beq_eq_false_iff_ne, Bool.and_eq_false_iff,
      decide_eq_false_iff_not]
    constructor <;> omega
  have hdrop : (c :: rest).dropWhile isspace = c :: rest := by
    rw [List.dropWhile_cons_of_neg (by rw [hsp]; decide)]
  have h45 : ¬ c.toNat = 45 := by omega
  have h43 : ¬ c.toNat = 43 := by omega
  have hskip : skip_0x 10 (c :: rest) = c :: rest := by
    unfold skip_0x
    rw [if_neg (by decide)]
  have hd : digit_value 10 c = none := by
    unfold digit_value
    simp only
    rw [if_neg (by omega)]
    rcases hn with h | h
    · rw [if_neg (by omega), if_pos h]
      show (if c.toNat - 65 + 10 < 10 then some (c.toNat - 65 + 10) else none) = none
      rw [if_neg (by omega)]
    · rw [if_pos h]
      show (if c.toNat - 97 + 10 < 10 then some (c.toNat - 97 + 10) else none) = none
      rw [if_neg (by omega)]
  have htd : take_digits 10 (c :: rest) = [] := by
    rw [take_digits, hd]
  unfold stoi
  simp only [hdrop, h45, h43, if_false, hskip, htd]
  rfl

/-- What the constructor leaves in a record: a comment or blank line without mnemonic
and size, or a line whose operand it classified and whose size it computed. -/
theorem new_classified (line : List Char) (n : Nat) (ins : instruction)
    (h : instruction.new line n = .ok ins) :
    ((ins.is_comment = true ∨ ins.is_blank = true) ∧ ins.mnemonic = [] ∧
      ins.size_in_memory = 0) ∨
    (ins.is_comment = false ∧ ins.is_blank = false ∧
      (if ins.operand.length ≠ 0 then classify_operand ins.operand else .ok .O_NOOPD)
        = .ok ins.type_of_operand ∧
      compute_size ins.mnemonic ins.operand ins.type_of_operand = .ok ins.size_in_memory) := by
  rcases new_cases line n ins h with
    ⟨text, rfl⟩ | rfl | ⟨words, label, mnemonic, operand, ty, sz, hw, hp, hty, hsz, rfl⟩
  · exact Or.inl ⟨Or.inl rfl, rfl, rfl⟩
  · exact Or.inl ⟨Or.inr rfl, rfl, rfl⟩
  · exact Or.inr ⟨rfl, rfl, hty, hsz⟩

theorem int_wrap_of_range (x : Int) (h0 : -2147483648 ≤ x) (h1 : x ≤ 2147483647) :
    int_wrap x = x := by
  unfold int_wrap
  omega

/-- The size of a `RESW` (`k = 3`) or `RESB` (`k = 1`) line: its operand is decimal or
hexadecimal, its value `v` fits an `int`, and the size is the `int` the product `k * v`
leaves. -/
theorem compute_size_reserve (mnemonic operand : List Char) (ty : OperandType) (sz : Int)
    (k : Int)
    (hm : (mnemonic = "RESW".toList ∧ k = 3) ∨ (mnemonic = "RESB".toList ∧ k = 1))
    (hty : (if operand.length ≠ 0 then classify_operand operand else .ok .O_NOOPD) = .ok ty)
    (h : compute_size mnemonic operand ty = .ok sz) :
    (ty = .O_DECIM ∨ ty = .O_HEXAD) ∧
    (ty = .O_DECIM → decimal_value operand ≤ 2147483647 ∧
      sz = int_wrap (k * decimal_value operand)) ∧
    (ty = .O_HEXAD → ∀ content, operand = hex_operand content →
      (∀ c ∈ content, is_upper_hex c = true) →
      ∃ v, hex_value content = some v ∧ v ≤ 2147483647 ∧ sz = int_wrap (k * v)) := by
  have hstoi : operand.length ≠ 0 ∧
      ∃ v, (if ty = .O_HEXAD then stoi ((operand.drop 2).take (operand.length - 3)) 16
            else stoi operand 10) = .ok v ∧ sz = int_wrap (k * v) := by
    unfold compute_size at h
    rcases hm with ⟨hm, hk⟩ | ⟨hm, hk⟩
    · subst hm hk
      rw [if_neg (by decide), if_neg (by decide)] at h
      by_cases hl : operand.length = 0
      · rw [if_pos hl] at h; cases h
      · rw [if_neg hl, if_pos rfl] at h
        refine ⟨hl, ?_⟩
        by_cases hx : ty = .O_HEXAD
        · rw [if_pos hx] at h ⊢
          obtain ⟨v, h1, h2⟩ := (bind_eq_ok _ _ _).mp h
          injection h2 with h2
          exact ⟨v, h1, h2.symm⟩
        · rw [if_neg hx] at h ⊢
          obtain ⟨v, h1, h2⟩ := (bind_eq_ok _ _ _).mp h
          injection h2 with h2
          exact ⟨v, h1, by rw [← h2, mul_comm]⟩
    · subst hm hk
      rw [if_neg (by decide), if_neg (by decide)] at h
      by_cases hl : operand.length = 0
      · rw [if_pos hl] at h; cases h
      · rw [if_neg hl, if_neg (by decide), if_pos rfl] at h
        refine ⟨hl, ?_⟩
        by_cases hx : ty = .O_HEXAD
        · rw [if_pos hx] at h ⊢
          have hr := stoi_range _ _ _ h
          exact ⟨sz, h, by rw [one_mul, int_wrap_of_range _ hr.1 hr.2]⟩
        · rw [if_neg hx] at h ⊢
          have hr := stoi_range _ _ _ h
          exact ⟨sz, h, by rw [one_mul, int_wrap_of_range _ hr.1 hr.2]⟩
  obtain ⟨hl, v, hv, hsz⟩ := hstoi
  rw [if_pos hl] at hty
  obtain ⟨f1, f2, f3, f4, f5⟩ := classify_operand_form operand ty hty
  refine ⟨?_, ?_, ?_⟩
  · cases ty with
    | O_NOOPD => exact absurd rfl f5
    | O_DECIM => exact Or.inl rfl
    | O_HEXAD => exact Or.inr rfl
    | O_LABEL =>
      obtain ⟨c, rest, hop, hc⟩ := f4 (Or.inl rfl)
      rw [if_neg (by decide), hop, stoi_alpha_head c rest hc] at hv
      cases hv
    | O_INDXD =>
      obtain ⟨c, rest, hop, hc⟩ := f4 (Or.inr rfl)
      rw [if_neg (by decide), hop, stoi_alpha_head c rest hc] at hv
      cases hv
    | O_CHRAR =>
      obtain ⟨content, _, hop⟩ := f3 rfl
      rw [if_neg (by decide), hop] at hv
      unfold char_operand at hv
      rw [stoi_alpha_head _ _ (by decide)] at hv
      cases hv
  · intro hd
    obtain ⟨hne, hdig⟩ := f1 hd
    rw [if_neg (by rw [hd]; decide), stoi_decimal operand hne hdig] at hv
    split at hv
    · rename_i hle
      injection hv with hv
      exact ⟨hle, by rw [hsz, ← hv]⟩
    · cases hv
  · intro hx content hop hhex
    obtain ⟨content1, hne, hop1⟩ := f2 hx
    have hc : content1 = content := by
      rw [hop] at hop1
      unfold hex_operand at hop1
      injection hop1 with _ hop1
      injection hop1 with _ hop1
      exact (List.append_cancel_right hop1).symm
    subst hc
    rw [if_pos hx, hop, hex_operand, quoted_content] at hv
    obtain ⟨w, hw1, hw2⟩ := stoi_upper_hex content1 hne hhex
    rw [hw2] at hv
    split at hv
    · rename_i hle
      injection hv with hv
      exact ⟨w, hw1, hle, by rw [hsz, ← hv]⟩
    · cases hv

theorem compute_size_BYTE (operand : List Char) (ty : OperandType) (sz : Int)
    (hty : (if operand.length ≠ 0 then classify_operand operand else .ok .O_NOOPD) = .ok ty)
    (h : compute_size "BYTE".toList operand ty = .ok sz) :
    (ty = .O_HEXAD ∨ ty = .O_DECIM → sz = 1) ∧
    (ty = .O_CHRAR → ∃ content, content ≠ [] ∧ operand = char_operand content ∧
      sz = content.length ∧ sz = (operand.length : Int) - 3) := by
  unfold compute_size at h
  rw [if_neg (by decide), if_neg (by decide)] at h
  by_cases hl : operand.length = 0
  · rw [if_pos hl] at h; cases h
  · rw [if_neg hl, if_neg (by decide), if_neg (by decide), if_neg (by decide), if_pos rfl] at h
    rw [if_pos hl] at hty
    obtain ⟨_, _, f3, _, _⟩ := classify_operand_form operand ty hty
    constructor
    · rintro (hx | hx)
      · rw [if_pos hx] at h
        injection h with h
        exact h.symm
      · rw [if_neg (by rw [hx]; decide), if_neg (by rw [hx]; decide)] at h
        injection h with h
        exact h.symm
    · intro hx
      rw [if_neg (by rw [hx]; decide), if_pos hx] at h
      injection h with h
      obtain ⟨content, hne, hop⟩ := f3 hx
      refine ⟨content, hne, hop, ?_, h.symm⟩
      rw [← h, hop]
      unfold char_operand
      simp only [List.length_cons, List.length_append, List.length_nil]
      push_cast
      ring

/-! ### Object code and reserved bytes -/

theorem DIRECTIVES_key (mnemonic : List Char) (h : count DIRECTIVES mnemonic = true) :
    mnemonic = "START".toList ∨ mnemonic = "END".toList ∨ mnemonic = "BYTE".toList ∨
      mnemonic = "WORD".toList ∨ mnemonic = "RESB".toList ∨ mnemonic = "RESW".toList := by
  unfold count at h
  rw [List.any_eq_true] at h
  obtain ⟨kv, hkv, hk⟩ := h
  have hk1 : kv.1 = mnemonic := of_decide_eq_true hk
  simp only [DIRECTIVES, List.mem_cons, List.mem_singleton, List.not_mem_nil, or_false] at hkv
  rw [← hk1]
  rcases hkv with rfl | rfl | rfl | rfl | rfl | rfl
  · exact Or.inl rfl
  · exact Or.inr (Or.inl rfl)
  · exact Or.inr (Or.inr (Or.inl rfl))
  · exact Or.inr (Or.inr (Or.inr (Or.inl rfl)))
  · exact Or.inr (Or.inr (Or.inr (Or.inr (Or.inl rfl))))
  · exact Or.inr (Or.inr (Or.inr (Or.inr (Or.inr rfl))))

theorem sized_ok_of_no_mnemonic (ins : instruction) (hm : ins.mnemonic = [])
    (hty : ins.type_of_operand = .O_NOOPD) (hz : ins.size_in_memory = 0)
    (hcb : ins.is_comment = true ∨ ins.is_blank = true) : sized_ok ins := by
  unfold sized_ok
  rw [hm, hty]
  refine ⟨fun hx => absurd hx (by decide), fun hx => absurd hx (by decide),
    fun hx => absurd hx (by decide), fun hx => absurd hx (by decide), ?_, fun _ => hz⟩
  intro hx
  rcases hcb with h | h
  · rw [hx.1] at h; cases h
  · rw [hx.2] at h; cases h

theorem new_sized_ok (line : List Char) (n : Nat) (ins : instruction)
    (h : instruction.new line n = .ok ins) : sized_ok ins := by
  rcases new_cases line n ins h with
    ⟨text, rfl⟩ | rfl | ⟨words, label, mnemonic, operand, ty, sz, hw, hp, hty, hsz, rfl⟩
  · exact sized_ok_of_no_mnemonic _ rfl rfl rfl (Or.inl rfl)
  · exact sized_ok_of_no_mnemonic _ rfl rfl rfl (Or.inr rfl)
  · have hk := parse_words_keyword words label mnemonic operand hw hp
    refine ⟨?_, ?_, ?_, ?_, fun _ => hk, ?_⟩
    · intro hop
      have hop1 : count OPTAB mnemonic = true := hop
      unfold compute_size at hsz
      rw [hop1, if_pos rfl] at hsz
      injection hsz with hsz
      exact hsz.symm
    · intro hx
      have hx1 : mnemonic = "WORD".toList := hx
      rw [hx1] at hsz
      unfold compute_size at hsz
      rw [if_neg (by decide), if_neg (by decide)] at hsz
      by_cases hl : operand.length = 0
      · rw [if_pos hl] at hsz; cases hsz
      · rw [if_neg hl, if_neg (by decide), if_neg (by decide), if_pos rfl] at hsz
        injection hsz with hsz
        exact hsz.symm
    · intro hx
      have hx1 : mnemonic = "BYTE".toList := hx
      rw [hx1] at hsz
      obtain ⟨b1, b2⟩ := compute_size_BYTE _ _ _ hty hsz
      refine ⟨b1, ?_⟩
      intro hc
      obtain ⟨content, c1, c2, c3, _⟩ := b2 hc
      exact ⟨content, c1, c2, c3⟩
    · intro hd
      have hd1 : ty = .O_DECIM := hd
      by_cases hl : operand.length ≠ 0
      · rw [if_pos hl] at hty
        exact (classify_operand_form operand ty hty).1 hd1
      · rw [if_neg hl] at hty
        injection hty with hty
        rw [← hty] at hd1
        cases hd1
    · intro hx
      rcases hx with hx | hx | hx
      · cases hx
      · cases hx
      · have hx1 : mnemonic = "START".toList := hx
        rw [hx1] at hsz
        unfold compute_size at hsz
        rw [if_neg (by decide), if_pos (Or.inl rfl)] at hsz
        injection hsz with hsz
        exact hsz.symm

theorem read_program_sized : ∀ (lines : List (List Char)) (n : Nat)
    (program : List instruction), read_program lines n = .ok program →
    ∀ ins ∈ program, sized_ok ins := by
  intro lines
  induction lines with
  | nil =>
    intro n program h
    rw [read_program] at h
    injection h with h
    subst h
    simp
  | cons line rest ih =>
    intro n program h
    rw [read_program] at h
    obtain ⟨ins, h1, ha⟩ := (bind_eq_ok _ _ _).mp h
    obtain ⟨tail, h2, hb⟩ := (bind_eq_ok _ _ _).mp ha
    injection hb with hb
    subst hb
    intro x hx
    rcases List.mem_cons.mp hx with hx | hx
    · subst hx
      exact new_sized_ok _ _ _ h1
    · exact ih _ _ h2 x hx

/-- The defaults and locations of `pass_1` keep what `sized_ok` says. -/
theorem sized_ok_transfer (a b : instruction) (hs : sized_ok a)
    (hcore : same_core a b) (hop : a.operand ≠ [] → b.operand = a.operand) : sized_ok b := by
  obtain ⟨m, sz, ty, c, bl, _, _⟩ := hcore
  obtain ⟨s1, s2, s3, s4, s5, s6⟩ := hs
  unfold sized_ok
  rw [m, sz, ty, c, bl]
  refine ⟨s1, s2, ?_, ?_, s5, s6⟩
  · intro hx
    obtain ⟨b1, b2⟩ := s3 hx
    refine ⟨b1, ?_⟩
    intro hc
    obtain ⟨content, c1, c2, c3⟩ := b2 hc
    have hne : a.operand ≠ [] := by rw [c2]; unfold char_operand; simp
    exact ⟨content, c1, by rw [hop hne]; exact c2, c3⟩
  · intro hd
    obtain ⟨d1, d2⟩ := s4 hd
    rw [hop d1]
    exact ⟨d1, d2⟩

theorem pass_1_sized (lines : List (List Char)) (g : Globals) (h : pass_1 lines = .ok g) :
    ∀ ins ∈ g.program, sized_ok ins := by
  obtain ⟨program, si, ei, lc, imf, h1, _, _, _, h5, _⟩ := pass_1_ok lines g h
  intro c hc
  obtain ⟨b, hb, hcore2, l2, p2⟩ :=
    forall2_left (assign_locations_relocated _ _ _ _ _ _ h5) c hc
  obtain ⟨a, ha, hcore1, l1, p1, _, _⟩ :=
    forall2_left (with_defaults_defaulted program si ei) b hb
  have hsa := read_program_sized _ _ _ h1 a ha
  have hsb := sized_ok_transfer a b hsa hcore1 p1
  exact sized_ok_transfer b c hsb hcore2 (fun _ => p2)

/-- The object code `pass_2` gives a line other than `RESW` and `RESB` has two characters
for each byte `pass_1` reserved for it, and at least one byte is reserved. -/
theorem encode_instruction_exact (symtab : List (List Char × Int)) (ins ins1 : instruction)
    (h : encode_instruction symtab ins = .ok ins1) (hs : sized_ok ins)
    (h0 : ins.object_code = []) (hns : ¬ is_skipped ins)
    (he : ins.mnemonic ≠ "END".toList)
    (hg : ¬ (ins.mnemonic = "RESW".toList ∨ ins.mnemonic = "RESB".toList)) :
    (ins1.object_code.length : Int) = 2 * ins1.size_in_memory ∧ 0 < ins1.size_in_memory ∧
      ins1.has_object_code = true := by
  obtain ⟨s1, s2, s3, s4, s5, _⟩ := hs
  have hsz : ins1.size_in_memory = ins.size_in_memory := by
    rw [encode_instruction_fields symtab ins ins1 h]
  rw [hsz]
  unfold is_skipped at hns
  rw [not_or, not_or] at hns
  obtain ⟨hst, hnc, hnb⟩ := hns
  have hkey : is_keyword ins.mnemonic = true :=
    s5 ⟨by simpa using hnc, by simpa using hnb⟩
  unfold encode_instruction at h
  rw [if_neg hg] at h
  by_cases hdir : count DIRECTIVES ins.mnemonic = true
  · rw [if_pos hdir] at h
    simp only at h
    have hmn : ins.mnemonic = "BYTE".toList ∨ ins.mnemonic = "WORD".toList := by
      rcases DIRECTIVES_key _ hdir with hx | hx | hx | hx | hx | hx
      · exact absurd hx hst
      · exact absurd hx he
      · exact Or.inl hx
      · exact Or.inr hx
      · exact absurd (Or.inr hx) hg
      · exact absurd (Or.inl hx) hg
    split at h
    · cases h
    · rename_i hw
      split at h
      · cases h
      · split at h
        · rename_i hty
          obtain ⟨hne, hdig⟩ := s4 hty
          rw [stoi_decimal _ hne hdig] at h
          split at h
          · simp only [bind, Except.bind] at h
            split at h
            · cases h
            · rename_i hbound
              injection h with h
              subst h
              have hm : max_data_size ins.mnemonic = 1 ∨ max_data_size ins.mnemonic = 3 := by
                unfold max_data_size
                split
                · exact Or.inr rfl
                · exact Or.inl rfl
              have hsize : ins.size_in_memory = max_data_size ins.mnemonic := by
                rcases hmn with hx | hx
                · rw [(s3 hx).1 (Or.inr hty)]
                  unfold max_data_size
                  rw [if_neg (by rw [hx]; decide)]
                  rfl
                · rw [s2 hx]
                  unfold max_data_size
                  rw [if_pos hx]
                  rfl
              have hlt : decimal_value ins.operand < 16 ^ (2 * max_data_size ins.mnemonic) := by
                have h16 : (16 : Nat) ^ (2 * max_data_size ins.mnemonic)
                    = 2 ^ (8 * max_data_size ins.mnemonic) := by
                  rw [show (16 : Nat) = 2 ^ 4 by norm_num, ← pow_mul]; congr 1; ring
                have hp : 0 < 2 ^ (8 * max_data_size ins.mnemonic) := Nat.pow_pos (by norm_num)
                rw [h16]
                have hb2 : ¬ ((decimal_value ins.operand : Int)
                    > ((2 ^ (8 * max_data_size ins.mnemonic) : Nat) : Int) - 1) := hbound
                omega
              have hlen := to_hex_length _ _ hlt
              refine ⟨?_, ?_, rfl⟩
              · show ((to_hex _ _).length : Int) = _
                rw [hlen, hsize]
                push_cast
                ring
              · rw [hsize]
                rcases hm with hm | hm <;> rw [hm] <;> decide
          · cases h
        · rename_i hty
          have hbyte : ins.mnemonic = "BYTE".toList := by
            rcases hmn with hx | hx
            · exact hx
            · exact absurd ⟨hx, hty⟩ hw
          split at h
          · rename_i hx
            split at h
            · cases h
            · rename_i hlen
              injection h with h
              subst h
              simp only [ne_eq, Decidable.not_not] at hlen
              refine ⟨?_, ?_, rfl⟩
              · show ((List.length _ : Nat) : Int) = _
                rw [hlen, (s3 hbyte).1 (Or.inl hx)]
                rfl
              · rw [(s3 hbyte).1 (Or.inl hx)]
                decide
          · split at h
            · rename_i hc
              obtain ⟨content, c1, c2, c3⟩ := (s3 hbyte).2 hc
              have hcont : (ins.operand.drop 2).take (ins.operand.length - 3) = content := by
                rw [c2]; exact quoted_content _ _
              rw [hcont] at h
              obtain ⟨code, h1, ha⟩ := (bind_eq_ok _ _ _).mp h
              injection ha with ha
              subst ha
              have hcl := encode_chars_length _ _ h1
              have hpos : 0 < content.length := List.length_pos.mpr c1
              refine ⟨?_, ?_, ?_⟩
              · show (((ins.object_code ++ code).length : Nat) : Int) = _
                rw [h0, List.nil_append, hcl, c3]
                push_cast
                ring
              · rw [c3]
                exact_mod_cast hpos
              · show (ins.has_object_code || !content.isEmpty) = true
                cases content with
                | nil => exact absurd rfl c1
                | cons _ _ => simp
            · cases h
  · rw [if_neg hdir] at h
    have hop : count OPTAB ins.mnemonic = true := by
      unfold is_keyword at hkey
      rw [Bool.or_eq_true] at hkey
      rcases hkey with hk | hk
      · exact absurd hk hdir
      · exact hk
    rw [s1 hop]
    split at h
    · split at h
      · cases h
      · injection h with h
        subst h
        refine ⟨?_, by decide, rfl⟩
        show (("4C0000".toList.length : Nat) : Int) = 2 * 3
        decide
    · split at h
      · cases h
      · simp only at h
        split at h
        · cases h
        · obtain ⟨data, h1, ha⟩ := (bind_eq_ok _ _ _).mp h
          split at ha
          · cases ha
          · rename_i hlen
            injection ha with ha
            subst ha
            refine ⟨?_, by decide, rfl⟩
            show (((pad_zeros (hex_digits_rev data) 6).reverse.length : Nat) : Int) = 2 * 3
            unfold pad_zeros
            simp only [List.length_reverse, List.length_append, List.length_replicate]
            omega

/-- Every instruction after the main loop of `pass_2` is the instruction `pass_1` left,
unchanged or encoded. -/
theorem encode_program_steps (symtab : List (List Char × Int)) :
    ∀ (l : List instruction) (fei : Int) (out : List instruction × Int),
    encode_program symtab l fei = .ok out →
    List.Forall₂ (fun a b => b = a ∨ (¬ is_skipped a ∧ a.mnemonic ≠ "END".toList ∧
      encode_instruction symtab a = .ok b)) l out.1 := by
  intro l
  induction l with
  | nil =>
    intro fei out h
    rw [encode_program] at h
    injection h with h
    subst h
    exact List.Forall₂.nil
  | cons a l ih =>
    intro fei out h
    rcases encode_program_cons symtab a l fei out h with
      ⟨_, r, hr, rfl⟩ | ⟨_, _, _, _, rfl⟩ | ⟨hs, he, ins1, r, h1, hr, rfl⟩
    · exact List.Forall₂.cons (Or.inl rfl) (ih _ _ hr)
    · exact forall2_refl (fun y => Or.inl rfl) _
    · exact List.Forall₂.cons (Or.inr ⟨hs, he, h1⟩) (ih _ _ hr)

/-- What holds of every instruction of an assembled program: it has no object code, or
its object code has two characters for each of its bytes, of which there is at least
one, and it is neither `RESW` nor `RESB`. -/
theorem assemble_object_code (lines : List (List Char)) (g2 : Globals)
    (h : assemble lines = .ok g2) :
    ∀ ins ∈ g2.program,
      (ins.has_object_code = false ∧ ins.object_code = []) ∨
      ((ins.object_code.length : Int) = 2 * ins.size_in_memory ∧ 0 < ins.size_in_memory ∧
        ins.has_object_code = true ∧ is_content ins = true) := by
  obtain ⟨g, hg, h2⟩ := assemble_ok lines g2 h
  obtain ⟨r, _, _, e1, _, _, q1, _⟩ := pass_2_ok g g2 h2
  have hprog := pass_1_program lines g hg
  have hsized := pass_1_sized lines g hg
  have hsteps := encode_program_steps _ _ _ _ e1
  intro b hb
  rw [q1] at hb
  obtain ⟨a, ha, hab⟩ := forall2_left hsteps b hb
  obtain ⟨p1, p2, _⟩ := hprog a ha
  rcases hab with rfl | ⟨hs, he, henc⟩
  · exact Or.inl ⟨p1, p2⟩
  · by_cases hgap : a.mnemonic = "RESW".toList ∨ a.mnemonic = "RESB".toList
    · unfold encode_instruction at henc
      rw [if_pos hgap] at henc
      split at henc
      · cases henc
      · injection henc with henc
        subst henc
        exact Or.inl ⟨p1, p2⟩
    · obtain ⟨x1, x2, x3⟩ := encode_instruction_exact _ _ _ henc (hsized a ha) p2 hs he hgap
      refine Or.inr ⟨x1, x2, x3, ?_⟩
      have hf := encode_instruction_fields _ _ _ henc
      unfold is_skipped at hs
      rw [not_or] at hs
      apply (is_content_iff b).mpr
      rw [hf]
      exact ⟨hs.2, hs.1, he, hgap⟩

/-! ### Locations and text records -/

theorem assign_locations_located_from (si : Nat) : ∀ (l : List instruction) (i : Nat)
    (lc : Int) (st : List (List Char × Int))
    (out : List instruction × Int × List (List Char × Int)),
    assign_locations si l i lc st = .ok out → located_from lc out.1 := by
  intro l
  induction l with
  | nil =>
    intro i lc st out h
    rw [assign_locations] at h
    injection h with h
    subst h
    exact True.intro
  | cons ins rest ih =>
    intro i lc st out h
    rcases assign_locations_cons si ins rest i lc st out h with
      ⟨he, rfl⟩ | ⟨he, hloc, _, st1, r, _, hr, rfl⟩ | ⟨he, hloc, r, hr, rfl⟩
    · exact Or.inl he
    · refine Or.inr ?_
      have hl : is_located { ins with location := lc, has_location := true } = true := hloc
      rw [if_pos hl]
      exact ⟨rfl, ih _ _ _ _ hr⟩
    · refine Or.inr ?_
      rw [if_neg (by rw [hloc]; decide)]
      exact ih _ _ _ _ hr

theorem located_from_congr {l1 l2 : List instruction}
    (h : List.Forall₂ (fun a b => b.mnemonic = a.mnemonic ∧
      b.size_in_memory = a.size_in_memory ∧ b.location = a.location) l1 l2) :
    ∀ lc, located_from lc l1 → located_from lc l2 := by
  induction h with
  | nil => intro lc _; exact True.intro
  | @cons a b la lb hab _ ih =>
    intro lc hl
    obtain ⟨m, s, c⟩ := hab
    have hloc : is_located b = is_located a := by
      unfold is_located
      rw [m, s]
    rcases hl with hl | hl
    · exact Or.inl (m.trans hl)
    · refine Or.inr ?_
      rw [hloc, c, s]
      by_cases hx : is_located a = true
      · rw [if_pos hx] at hl ⊢
        exact ⟨hl.1, ih _ hl.2⟩
      · rw [if_neg hx] at hl ⊢
        exact ih _ hl

theorem record_from_new (x : instruction)
    (hx : (x.object_code.length : Int) = 2 * x.size_in_memory) :
    record_from ((text_record.new x.location).insert x.object_code) [x] := by
  refine ⟨rfl, ?_, ?_, ?_⟩
  · simp [text_record.new, text_record.insert]
  · intro c hc
    rw [List.mem_singleton.mp hc]
    exact hx
  · intro k c hk
    cases k with
    | zero =>
      simp only [List.getElem?_cons_zero, Option.some.injEq] at hk
      subst hk
      simp [text_record.new, text_record.insert]
    | succ k => simp at hk

theorem record_from_insert (back : text_record) (srcs : List instruction) (x : instruction)
    (hb : record_from back srcs)
    (hx : (x.object_code.length : Int) = 2 * x.size_in_memory)
    (hloc : 2 * (x.location - back.starting_address) = (back.total_length : Int)) :
    record_from (back.insert x.object_code) (srcs ++ [x]) := by
  obtain ⟨b1, b2, b3, b4⟩ := hb
  have hsum : back.total_length = (srcs.map (fun s => s.object_code.length)).sum := by
    rw [b2, b1, List.map_map]
    rfl
  refine ⟨?_, ?_, ?_, ?_⟩
  · show back.records ++ [x.object_code] = _
    rw [b1, List.map_append]
    rfl
  · show back.total_length + x.object_code.length = ((back.records ++ [x.object_code]).map _).sum
    rw [List.map_append, List.sum_append, ← b2]
    simp
  · intro c hc
    rcases List.mem_append.mp hc with hc | hc
    · exact b3 c hc
    · rw [List.mem_singleton.mp hc]
      exact hx
  · intro k c hk
    show 2 * (c.location - back.starting_address) = _
    by_cases hlt : k < srcs.length
    · rw [List.getElem?_append_left hlt] at hk
      rw [List.take_append_of_le_length (by omega)]
      exact b4 k c hk
    · have hk0 : k = srcs.length := by
        by_contra hne
        have : (srcs ++ [x]).length ≤ k := by
          rw [List.length_append, List.length_singleton]; omega
        rw [List.getElem?_eq_none this] at hk
        cases hk
      subst hk0
      rw [List.getElem?_append_right (le_refl _), Nat.sub_self] at hk
      simp only [List.getElem?_cons_zero, Option.some.injEq] at hk
      subst hk
      rw [List.take_append_of_le_length (le_refl _), List.take_length, hloc, hsum,
        Nat.cast_list_sum, List.map_map]
      rfl

theorem forall2_snoc {α β : Type} {R : α → β → Prop} :
    ∀ (T : List α) (t : α) (gs : List β), List.Forall₂ R (T ++ [t]) gs →
    ∃ g0 s, gs = g0 ++ [s] ∧ List.Forall₂ R T g0 ∧ R t s := by
  intro T
  induction T with
  | nil =>
    intro t gs h
    cases h with
    | cons hts hrest =>
      cases hrest
      exact ⟨[], _, rfl, List.Forall₂.nil, hts⟩
  | cons a T ih =>
    intro t gs h
    rw [List.cons_append] at h
    cases h with
    | cons hab hrest =>
      obtain ⟨g0, s, hg, h0, hs⟩ := ih t _ hrest
      exact ⟨_ :: g0, s, by rw [hg]; rfl, List.Forall₂.cons hab h0, hs⟩

theorem forall2_append_snoc {α β : Type} {R : α → β → Prop} (T : List α) (t : α)
    (g0 : List β) (s : β) (h0 : List.Forall₂ R T g0) (hs : R t s) :
    List.Forall₂ R (T ++ [t]) (g0 ++ [s]) := by
  induction h0 with
  | nil => exact List.Forall₂.cons hs List.Forall₂.nil
  | cons hab _ ih => exact List.Forall₂.cons hab ih

theorem located_from_skip (lc : Int) (x : instruction) (l : List instruction)
    (he : x.mnemonic ≠ "END".toList) (hz : x.size_in_memory = 0)
    (h : located_from lc (x :: l)) : located_from lc l := by
  rcases h with h | h
  · exact absurd h he
  · by_cases hx : is_located x = true
    · rw [if_pos hx, hz, add_zero] at h
      exact h.2
    · rw [if_neg hx] at h
      exact h

theorem located_from_content (lc : Int) (x : instruction) (l : List instruction)
    (he : x.mnemonic ≠ "END".toList) (hz : 0 < x.size_in_memory)
    (h : located_from lc (x :: l)) :
    x.location = lc ∧ located_from (lc + x.size_in_memory) l := by
  rcases h with h | h
  · exact absurd h he
  · have hx : is_located x = true := by
      unfold is_located
      rw [Bool.or_eq_true]
      exact Or.inl (decide_eq_true (by omega))
    rw [if_pos hx] at h
    exact h

/-- Opening a new text record at an instruction of the right length keeps the invariant
of the record loop. -/
theorem open_record (T : List text_record) (groups : List (List instruction))
    (x : instruction) (lc : Int)
    (hF : List.Forall₂ record_from T groups)
    (hlen : (x.object_code.length : Int) = 2 * x.size_in_memory) (hloc : x.location = lc) :
    List.Forall₂ record_from (T ++ [(text_record.new x.location).insert x.object_code])
        (groups ++ [[x]]) ∧
      ∃ back, (T ++ [(text_record.new x.location).insert x.object_code]).getLast? = some back ∧
        2 * (lc + x.size_in_memory - back.starting_address) = (back.total_length : Int) := by
  refine ⟨forall2_append_snoc _ _ _ _ hF (record_from_new x hlen),
    (text_record.new x.location).insert x.object_code, by simp, ?_⟩
  show 2 * (lc + x.size_in_memory - x.location) = ((0 + x.object_code.length : Nat) : Int)
  rw [hloc]
  push_cast
  omega

/-- What the record loop keeps true: every text record holds the object codes of a run
of content-bearing instructions, placed one after the other from its starting address;
and the open record ends where the location counter stands. -/
theorem generate_records_contiguous (g : Globals) :
    ∀ (l : List instruction) (st out : Records) (lc : Int) (groups : List (List instruction)),
    generate_records g l st = .ok out →
    located_from lc l →
    END_not_skipped l →
    (∀ x ∈ before_END l,
      (x.is_comment = true ∨ x.is_blank = true ∨ x.mnemonic = "START".toList) →
      x.size_in_memory = 0) →
    (∀ x ∈ before_END l, is_content x = true →
      (x.object_code.length : Int) = 2 * x.size_in_memory ∧ 0 < x.size_in_memory) →
    List.Forall₂ record_from st.text_records groups →
    (st.insert_new = false → ∃ back, st.text_records.getLast? = some back ∧
      2 * (lc - back.starting_address) = (back.total_length : Int)) →
    ∃ groups1, List.Forall₂ record_from out.text_records groups1 ∧
      groups1.flatten = groups.flatten ++ (before_END l).filter is_content := by
  intro l
  induction l with
  | nil =>
    intro st out lc groups h _ _ _ _ hF _
    rw [generate_records] at h
    injection h with h
    subst h
    exact ⟨groups, hF, by simp [before_END]⟩
  | cons x l ih =>
    intro st out lc groups h hl hEND hzero hcont hF hopen
    have hEND1 := END_not_skipped_tail x l hEND
    by_cases he : x.mnemonic = "END".toList
    · obtain ⟨c1, c2⟩ := hEND x (List.mem_cons_self _ _) he
      rw [generate_records, if_neg (by rw [c1, c2]; decide), if_neg (by rw [he]; decide),
        if_pos he] at h
      injection h with h
      subst h
      refine ⟨groups, hF, ?_⟩
      rw [before_END_cons_END _ _ he]
      simp
    · have hbe : before_END (x :: l) = x :: before_END l := before_END_cons _ _ he
      have hzero1 : ∀ y ∈ before_END l,
          (y.is_comment = true ∨ y.is_blank = true ∨ y.mnemonic = "START".toList) →
          y.size_in_memory = 0 := by
        intro y hy
        exact hzero y (by rw [hbe]; exact List.mem_cons_of_mem _ hy)
      have hcont1 : ∀ y ∈ before_END l, is_content y = true →
          (y.object_code.length : Int) = 2 * y.size_in_memory ∧ 0 < y.size_in_memory := by
        intro y hy
        exact hcont y (by rw [hbe]; exact List.mem_cons_of_mem _ hy)
      have hxin : x ∈ before_END (x :: l) := by rw [hbe]; exact List.mem_cons_self _ _
      rw [hbe]
      by_cases hskip : x.is_comment = true ∨ x.is_blank = true
      · rw [generate_records, if_pos hskip] at h
        have hz := hzero x hxin (by rcases hskip with h1 | h1; exact Or.inl h1; exact Or.inr (Or.inl h1))
        have hnc : ¬ is_content x = true := fun hc => ((is_content_iff x).mp hc).1 hskip
        rw [List.filter_cons_of_neg hnc]
        exact ih _ _ lc groups h (located_from_skip lc x l he hz hl) hEND1 hzero1 hcont1 hF hopen
      · by_cases hstart : x.mnemonic = "START".toList
        · rw [generate_records, if_neg hskip, if_pos hstart] at h
          have hz := hzero x hxin (Or.inr (Or.inr hstart))
          have hnc : ¬ is_content x = true := fun hc => ((is_content_iff x).mp hc).2.1 hstart
          rw [List.filter_cons_of_neg hnc]
          exact ih _ _ lc groups h (located_from_skip lc x l he hz hl) hEND1 hzero1 hcont1
            hF hopen
        · by_cases hgap : x.mnemonic = "RESW".toList ∨ x.mnemonic = "RESB".toList
          · rw [generate_records, if_neg hskip, if_neg hstart, if_neg he, if_pos hgap] at h
            have hnc : ¬ is_content x = true := fun hc => ((is_content_iff x).mp hc).2.2.2 hgap
            rw [List.filter_cons_of_neg hnc]
            have hl1 : ∃ lc1, located_from lc1 l := by
              rcases hl with hl | hl
              · exact absurd hl he
              · by_cases hx : is_located x = true
                · rw [if_pos hx] at hl
                  exact ⟨_, hl.2⟩
                · rw [if_neg hx] at hl
                  exact ⟨_, hl⟩
            obtain ⟨lc1, hl1⟩ := hl1
            exact ih _ _ lc1 groups h hl1 hEND1 hzero1 hcont1 hF
              (fun hn => by cases hn)
          · have hc : is_content x = true := (is_content_iff x).mpr ⟨hskip, hstart, he, hgap⟩
            obtain ⟨hlen, hpos⟩ := hcont x hxin hc
            obtain ⟨hloc, hl1⟩ := located_from_content lc x l he hpos hl
            rw [List.filter_cons_of_pos hc]
            rw [generate_records, if_neg hskip, if_neg hstart, if_neg he, if_neg hgap] at h
            by_cases hnew : st.insert_new = true
            · rw [if_pos hnew] at h
              obtain ⟨hF1, hopen1⟩ := open_record _ _ x lc hF hlen hloc
              obtain ⟨groups1, i1, i2⟩ := ih _ _ _ _ h hl1 hEND1 hzero1 hcont1 hF1
                (fun _ => hopen1)
              exact ⟨groups1, i1, by rw [i2]; simp⟩
            · rw [if_neg hnew] at h
              obtain ⟨back, hback, hb⟩ := hopen (by simpa using hnew)
              rw [hback] at h
              simp only at h
              by_cases hover : back.total_length + x.object_code.length > 60
              · rw [if_pos hover] at h
                obtain ⟨hF1, hopen1⟩ := open_record _ _ x lc hF hlen hloc
                obtain ⟨groups1, i1, i2⟩ := ih _ _ _ _ h hl1 hEND1 hzero1 hcont1 hF1
                  (fun _ => hopen1)
                exact ⟨groups1, i1, by rw [i2]; simp⟩
              · rw [if_neg hover] at h
                have hne : st.text_records ≠ [] := by
                  intro h0
                  rw [h0] at hback
                  cases hback
                have hT : st.text_records = st.text_records.dropLast ++ [back] := by
                  rw [List.getLast?_eq_getLast _ hne] at hback
                  injection hback with hback
                  rw [← hback, List.dropLast_append_getLast hne]
                rw [hT] at hF
                obtain ⟨g0, srcs, hg, h0, hs⟩ := forall2_snoc _ _ _ hF
                have hF1 := forall2_append_snoc _ _ _ _ h0
                  (record_from_insert back srcs x hs hlen (by rw [hloc]; exact hb))
                have hopen1 : ∃ b1, (st.text_records.dropLast
                      ++ [back.insert x.object_code]).getLast? = some b1 ∧
                    2 * (lc + x.size_in_memory - b1.starting_address)
                      = (b1.total_length : Int) := by
                  refine ⟨back.insert x.object_code, by simp, ?_⟩
                  show 2 * (lc + x.size_in_memory - back.starting_address)
                    = ((back.total_length + x.object_code.length : Nat) : Int)
                  push_cast
                  omega
                obtain ⟨groups1, i1, i2⟩ := ih _ _ _ _ h hl1 hEND1 hzero1 hcont1 hF1
                  (fun _ => hopen1)
                exact ⟨groups1, i1, by rw [i2, hg]; simp⟩

/-- Before the first `END`, every instruction after the main loop of `pass_2` was passed
over or encoded. -/
theorem encode_program_before_END (symtab : List (List Char × Int)) :
    ∀ (l : List instruction) (fei : Int) (out : List instruction × Int),
    encode_program symtab l fei = .ok out →
    ∀ b ∈ before_END out.1, is_skipped b ∨
      ∃ a ∈ l, ¬ is_skipped a ∧ a.mnemonic ≠ "END".toList ∧
        encode_instruction symtab a = .ok b := by
  intro l
  induction l with
  | nil =>
    intro fei out h b hb
    rw [encode_program] at h
    injection h with h
    subst h
    simp [before_END] at hb
  | cons a l ih =>
    intro fei out h b hb
    rcases encode_program_cons symtab a l fei out h with
      ⟨hs, r, hr, rfl⟩ | ⟨_, he, _, _, rfl⟩ | ⟨hs, he, ins1, r, h1, hr, rfl⟩
    · by_cases he : a.mnemonic = "END".toList
      · rw [before_END_cons_END _ _ he] at hb
        cases hb
      · rw [before_END_cons _ _ he] at hb
        rcases List.mem_cons.mp hb with hb | hb
        · rw [hb]
          exact Or.inl hs
        · rcases ih _ _ hr b hb with h1 | ⟨a1, ha1, h1⟩
          · exact Or.inl h1
          · exact Or.inr ⟨a1, List.mem_cons_of_mem _ ha1, h1⟩
    · rw [before_END_cons_END _ _ he] at hb
      cases hb
    · have he1 : ins1.mnemonic ≠ "END".toList := by
        rw [encode_instruction_mnemonic symtab a ins1 h1]
        exact he
      rw [before_END_cons _ _ he1] at hb
      rcases List.mem_cons.mp hb with hb | hb
      · rw [hb]
        exact Or.inr ⟨a, List.mem_cons_self _ _, hs, he, h1⟩
      · rcases ih _ _ hr b hb with h2 | ⟨a1, ha1, h2⟩
        · exact Or.inl h2
        · exact Or.inr ⟨a1, List.mem_cons_of_mem _ ha1, h2⟩

theorem sum_lengths (srcs : List instruction)
    (h : ∀ c ∈ srcs, (c.object_code.length : Int) = 2 * c.size_in_memory) :
    (((srcs.map (fun c => c.object_code.length)).sum : Nat) : Int)
      = 2 * (srcs.map (fun c => c.size_in_memory)).sum := by
  induction srcs with
  | nil => rfl
  | cons c srcs ih =>
    rw [List.map_cons, List.map_cons, List.sum_cons, List.sum_cons, Nat.cast_add,
      ih (fun y hy => h y (List.mem_cons_of_mem _ hy)), h c (List.mem_cons_self _ _)]
    ring

/-- The text records of an assembled program, with the instructions each was made
from. -/
theorem assemble_records (lines : List (List Char)) (g2 : Globals)
    (h : assemble lines = .ok g2) :
    ∃ groups : List (List instruction),
      List.Forall₂ record_from g2.text_records groups ∧
      groups.flatten = (before_END g2.program).filter is_content := by
  have hEND := assemble_END_not_skipped lines g2 h
  obtain ⟨g, hg, h2⟩ := assemble_ok lines g2 h
  obtain ⟨r, listing, recs, e1, _, e3, q1, _, _, _, _, _, _, q8, _⟩ := pass_2_ok g g2 h2
  obtain ⟨program, si, ei, lc, imf, _, _, _, _, h5, _⟩ := pass_1_ok lines g hg
  have hprog := pass_1_program lines g hg
  have hsized := pass_1_sized lines g hg
  have hsteps := encode_program_steps _ _ _ _ e1
  have hsame : List.Forall₂ (fun a b => b.mnemonic = a.mnemonic ∧
      b.size_in_memory = a.size_in_memory ∧ b.location = a.location) g.program r.1 := by
    refine hsteps.imp ?_
    intro a b hab
    rcases hab with rfl | ⟨_, _, henc⟩
    · exact ⟨rfl, rfl, rfl⟩
    · rw [encode_instruction_fields _ _ _ henc]
      exact ⟨rfl, rfl, rfl⟩
  have hloc : located_from g.program_starting_address r.1 :=
    located_from_congr hsame _ (assign_locations_located_from _ _ _ _ _ _ h5)
  have hzero : ∀ x ∈ before_END r.1,
      (x.is_comment = true ∨ x.is_blank = true ∨ x.mnemonic = "START".toList) →
      x.size_in_memory = 0 := by
    intro b hb hx
    obtain ⟨a, ha, hab⟩ := forall2_left hsteps b (before_END_subset _ _ hb)
    have hsa := (hsized a ha).2.2.2.2.2
    rcases hab with rfl | ⟨_, _, henc⟩
    · exact hsa hx
    · rw [encode_instruction_fields _ _ _ henc] at hx ⊢
      exact hsa hx
  have hcont : ∀ x ∈ before_END r.1, is_content x = true →
      (x.object_code.length : Int) = 2 * x.size_in_memory ∧ 0 < x.size_in_memory := by
    intro b hb hc
    obtain ⟨c1, c2, c3, c4⟩ := (is_content_iff b).mp hc
    rcases encode_program_before_END _ _ _ _ e1 b hb with hs | ⟨a, ha, hs, he, henc⟩
    · unfold is_skipped at hs
      rcases hs with hs | hs
      · exact absurd hs c2
      · exact absurd hs c1
    · have hm := encode_instruction_mnemonic _ _ _ henc
      rw [hm] at c4
      obtain ⟨x1, x2, _⟩ :=
        encode_instruction_exact _ _ _ henc (hsized a ha) (hprog a ha).2.1 hs he c4
      exact ⟨x1, x2⟩
  rw [q1] at hEND
  generalize ({ g with program := r.1, first_executable_instruction := r.2 } : Globals) = G
    at e3
  obtain ⟨groups, i1, i2⟩ := generate_records_contiguous G r.1 _ recs
    g.program_starting_address [] e3 hloc hEND hzero hcont List.Forall₂.nil
    (fun hn => by cases hn)
  refine ⟨groups, ?_, ?_⟩
  · rw [q8]
    exact i1
  · rw [q1, i2]
    rfl

theorem pad_even_upper (q : List Char) (h : ∀ c ∈ q, is_upper_hex c = true) :
    ∀ c ∈ pad_even q, is_upper_hex c = true := by
  intro c hc
  unfold pad_even at hc
  split at hc
  · rcases List.mem_append.mp hc with hc | hc
    · exact h c hc
    · rw [List.mem_singleton.mp hc]
      rfl
  · exact h c hc

theorem to_hex_of_nonneg (d : Int) (size : Nat) (h : 0 ≤ d) :
    ∀ c ∈ (pad_zeros (hex_digits_rev d) size).reverse, is_upper_hex c = true := by
  obtain ⟨n, rfl⟩ := Int.eq_ofNat_of_zero_le h
  exact to_hex_upper n size

/-- The characters of the object code `pass_2` gives a line other than `RESW` and `RESB`
are uppercase hexadecimal digits, when the address of an operation is not negative, the
content of a hexadecimal literal consists of such digits, and the content characters of a
character array have the codes 1 to 127. -/
theorem encode_instruction_hex (symtab : List (List Char × Int)) (ins ins1 : instruction)
    (h : encode_instruction symtab ins = .ok ins1) (hs : sized_ok ins)
    (h0 : ins.object_code = []) (hns : ¬ is_skipped ins)
    (he : ins.mnemonic ≠ "END".toList)
    (hg : ¬ (ins.mnemonic = "RESW".toList ∨ ins.mnemonic = "RESB".toList))
    (hadr : count OPTAB ins.mnemonic = true → ins.mnemonic ≠ "RSUB".toList →
      0 ≤ at_key symtab (final_opd ins))
    (hhex : ins.mnemonic = "BYTE".toList → ins.type_of_operand = .O_HEXAD →
      ∀ c ∈ (ins.operand.drop 2).take (ins.operand.length - 3), is_upper_hex c = true)
    (hchr : ins.mnemonic = "BYTE".toList → ins.type_of_operand = .O_CHRAR →
      ∀ c ∈ (ins.operand.drop 2).take (ins.operand.length - 3),
        1 ≤ c.toNat ∧ c.toNat ≤ 127) :
    ∀ c ∈ ins1.object_code, is_upper_hex c = true := by
  obtain ⟨s1, s2, s3, s4, s5, _⟩ := hs
  unfold is_skipped at hns
  rw [not_or, not_or] at hns
  obtain ⟨hst, hnc, hnb⟩ := hns
  have hkey : is_keyword ins.mnemonic = true :=
    s5 ⟨by simpa using hnc, by simpa using hnb⟩
  unfold encode_instruction at h
  rw [if_neg hg] at h
  by_cases hdir : count DIRECTIVES ins.mnemonic = true
  · rw [if_pos hdir] at h
    simp only at h
    have hmn : ins.mnemonic = "BYTE".toList ∨ ins.mnemonic = "WORD".toList := by
      rcases DIRECTIVES_key _ hdir with hx | hx | hx | hx | hx | hx
      · exact absurd hx hst
      · exact absurd hx he
      · exact Or.inl hx
      · exact Or.inr hx
      · exact absurd (Or.inr hx) hg
      · exact absurd (Or.inl hx) hg
    split at h
    · cases h
    · rename_i hw
      split at h
      · cases h
      · split at h
        · rename_i hty
          obtain ⟨hne, hdig⟩ := s4 hty
          rw [stoi_decimal _ hne hdig] at h
          split at h
          · simp only [bind, Except.bind] at h
            split at h
            · cases h
            · injection h with h
              subst h
              exact to_hex_upper _ _
          · cases h
        · rename_i hty
          have hbyte : ins.mnemonic = "BYTE".toList := by
            rcases hmn with hx | hx
            · exact hx
            · exact absurd ⟨hx, hty⟩ hw
          split at h
          · rename_i hx
            split at h
            · cases h
            · injection h with h
              subst h
              intro c hc
              have hc1 : c ∈ pad_even
                  ((ins.operand.drop 2).take (ins.operand.length - 3)).reverse :=
                List.mem_reverse.mp hc
              exact pad_even_upper _
                (fun x hx1 => hhex hbyte hx x (List.mem_reverse.mp hx1)) c hc1
          · split at h
            · rename_i hc
              rw [encode_chars_ascii _ (hchr hbyte hc)] at h
              injection h with h
              subst h
              intro c hcm
              have hcm1 : c ∈ (((ins.operand.drop 2).take (ins.operand.length - 3)).map
                  (fun (x : Char) => hex_pair x.toNat)).flatten := by
                have := hcm
                rw [h0, List.nil_append] at this
                exact this
              obtain ⟨l, hl, hcl⟩ := List.mem_flatten.mp hcm1
              obtain ⟨x, hx, rfl⟩ := List.mem_map.mp hl
              exact (hex_pair_value x.toNat (by have := (hchr hbyte hc x hx).2; omega)).2 c hcl
            · cases h
  · rw [if_neg hdir] at h
    have hop : count OPTAB ins.mnemonic = true := by
      unfold is_keyword at hkey
      rw [Bool.or_eq_true] at hkey
      rcases hkey with hk | hk
      · exact absurd hk hdir
      · exact hk
    split at h
    · split at h
      · cases h
      · injection h with h
        subst h
        show ∀ c ∈ "4C0000".toList, is_upper_hex c = true
        decide
    · rename_i hrsub
      split at h
      · cases h
      · simp only at h
        split at h
        · cases h
        · obtain ⟨data, h1, ha⟩ := (bind_eq_ok _ _ _).mp h
          split at ha
          · cases ha
          · injection ha with ha
            subst ha
            have hd := int_checked_ok _ _ h1
            obtain ⟨_, hop0, _⟩ := OPTAB_key _ hop
            have hidx : 0 ≤ indexed_summand ins := by
              unfold indexed_summand
              split <;> decide
            have hadr1 := hadr hop hrsub
            exact to_hex_of_nonneg data 6 (by rw [hd]; omega)

/-- The object code of every instruction of an assembled program consists of uppercase
hexadecimal digits, under the three conditions of `encode_instruction_hex`. -/
theorem assemble_object_code_hex (lines : List (List Char)) (g2 : Globals)
    (h : assemble lines = .ok g2) (b : instruction) (hb : b ∈ g2.program)
    (hadr : count OPTAB b.mnemonic = true → b.mnemonic ≠ "RSUB".toList →
      0 ≤ at_key g2.SYMTAB (final_opd b))
    (hhex : b.mnemonic = "BYTE".toList → b.type_of_operand = .O_HEXAD →
      ∀ c ∈ (b.operand.drop 2).take (b.operand.length - 3), is_upper_hex c = true)
    (hchr : b.mnemonic = "BYTE".toList → b.type_of_operand = .O_CHRAR →
      ∀ c ∈ (b.operand.drop 2).take (b.operand.length - 3),
        1 ≤ c.toNat ∧ c.toNat ≤ 127) :
    ∀ c ∈ b.object_code, is_upper_hex c = true := by
  obtain ⟨g, hg, h2⟩ := assemble_ok lines g2 h
  obtain ⟨r, _, _, e1, _, _, q1, _, qs, _⟩ := pass_2_ok g g2 h2
  have hprog := pass_1_program lines g hg
  have hsized := pass_1_sized lines g hg
  have hsteps := encode_program_steps _ _ _ _ e1
  rw [q1] at hb
  obtain ⟨a, ha, hab⟩ := forall2_left hsteps b hb
  obtain ⟨p1, p2, _⟩ := hprog a ha
  rcases hab with rfl | ⟨hs, he, henc⟩
  · intro c hc
    rw [p2] at hc
    cases hc
  · by_cases hgap : a.mnemonic = "RESW".toList ∨ a.mnemonic = "RESB".toList
    · unfold encode_instruction at henc
      rw [if_pos hgap] at henc
      split at henc
      · cases henc
      · injection henc with henc
        subst henc
        intro c hc
        rw [p2] at hc
        cases hc
    · have hf := encode_instruction_fields _ _ _ henc
      have hm : b.mnemonic = a.mnemonic := by rw [hf]
      have ho : b.operand = a.operand := by rw [hf]
      have ht : b.type_of_operand = a.type_of_operand := by rw [hf]
      have hfo : final_opd b = final_opd a := by
        unfold final_opd
        rw [ho, ht]
      rw [hm, ho, ht] at hhex hchr
      rw [hm, hfo, qs] at hadr
      exact encode_instruction_hex _ _ _ henc (hsized a ha) p2 hs he hgap hadr hhex hchr

/-! ## C1: Scenario A -/

/-- C1 (as the code behaves): assembling Scenario A succeeds with
`program_starting_address = 0x1000`, `ALPHA` resolved to `0x1003` (the `START` line
reserves no bytes, `FIRST` reserves 3), and the object code of `FIRST` is `001003`. -/
theorem C1_scenario_A :
    (assemble scenario_A).map scenario_A_view = .ok (0x1000, some 0x1003, "001003".toList) := by
  rfl

/-- C1 as stated fails: the run of Scenario A does not give `ALPHA = 0x1006` and object
code `001006`. -/
theorem C1_scenario_A_not_1006 :
    (assemble scenario_A).map scenario_A_view ≠ .ok (0x1000, some 0x1006, "001006".toList) := by
  rw [scenario_A_run]
  intro h
  injection h with h
  simp at h

/-! ## C2: object code of an operation -/

/-- C2 (amended): for every operation mnemonic other than `RSUB` and every Label or
Indexed operand whose (stripped) label resolves in the symbol table to an address `a`
with `0 ≤ a ≤ 0xFFFF`, and `a ≤ 0x7FFF` when the operand is Indexed, `pass_2` gives
object code of exactly 6 uppercase hex digits whose value is
`(opcode << 16) | indexing_bit | a`; bit 15 of that word is set whenever the operand is
Indexed. -/
theorem C2_operation_object_code (symtab : List (List Char × Int)) (ins : instruction)
    (a : Int)
    (hop : count OPTAB ins.mnemonic = true) (hrsub : ins.mnemonic ≠ "RSUB".toList)
    (hty : ins.type_of_operand = .O_LABEL ∨ ins.type_of_operand = .O_INDXD)
    (hfind : find symtab (final_opd ins) = some a) (ha0 : 0 ≤ a) (ha1 : a ≤ 0xFFFF)
    (hidx : ins.type_of_operand = .O_INDXD → a ≤ 0x7FFF) :
    ∃ ins1, encode_instruction symtab ins = .ok ins1 ∧ ins1.has_object_code = true ∧
      ins1.object_code.length = 6 ∧ (∀ c ∈ ins1.object_code, is_upper_hex c = true) ∧
      hex_value ins1.object_code
        = some (((at_key OPTAB ins.mnemonic).toNat <<< 16) ||| indexing_bit ins ||| a.toNat) ∧
      (ins.type_of_operand = .O_INDXD →
        Nat.testBit (((at_key OPTAB ins.mnemonic).toNat <<< 16) ||| indexing_bit ins
          ||| a.toNat) 15 = true) := by
  obtain ⟨_, hop0, hop1⟩ := OPTAB_key _ hop
  have hop2 : (at_key OPTAB ins.mnemonic).toNat ≤ 224 := by omega
  have han1 : a.toNat ≤ 65535 := by omega
  have han2 : ins.type_of_operand = .O_INDXD → a.toNat ≤ 32767 := by
    intro h; have := hidx h; omega
  have hor := fields_or_eq_add (at_key OPTAB ins.mnemonic).toNat a.toNat ins han1 han2
  rw [hor]
  refine ⟨_, encode_operation symtab ins a hop hrsub hty hfind ha0 ha1, rfl, ?_, ?_, ?_, ?_⟩
  · apply to_hex_length
    split <;> norm_num <;> omega
  · exact to_hex_upper _ _
  · exact hex_value_to_hex _ _
  · intro hx
    have := han2 hx
    rw [if_pos hx, Nat.testBit_to_div_mod]
    simp only [decide_eq_true_eq]
    omega

/-- C2 at a concrete input: `FIRST LDA ALPHA,X` with `ALPHA` at `0x1003` is encoded as
the six digits `009003`. -/
theorem C2_operation_object_code_witness :
    count OPTAB sample_indexed.mnemonic = true ∧
    find sample_symtab (final_opd sample_indexed) = some 0x1003 ∧
    ∃ ins1, encode_instruction sample_symtab sample_indexed = .ok ins1 ∧
      ins1.has_object_code = true ∧
      ins1.object_code.length = 6 ∧ (∀ c ∈ ins1.object_code, is_upper_hex c = true) ∧
      hex_value ins1.object_code
        = some (((at_key OPTAB sample_indexed.mnemonic).toNat <<< 16)
            ||| indexing_bit sample_indexed ||| (0x1003 : Int).toNat) ∧
      (sample_indexed.type_of_operand = .O_INDXD →
        Nat.testBit (((at_key OPTAB sample_indexed.mnemonic).toNat <<< 16)
          ||| indexing_bit sample_indexed ||| (0x1003 : Int).toNat) 15 = true) :=
  ⟨by decide, by decide,
   C2_operation_object_code sample_symtab sample_indexed 0x1003 (by decide) (by decide)
     (Or.inr rfl) (by decide) (by decide) (by decide) (fun _ => by decide)⟩

/-- C2 as stated fails for an Indexed operand at an address `≥ 0x8000` that `pass_1`
assigns: in `indexed_at_8000` the label `FIRST` is at `0x8000`, the operand `FIRST,X` is
Indexed, and the object code is `010000`, of value `0x10000`; that is not
`(0x00 << 16) | 0x8000 | 0x8000 = 0x8000`, and its bit 15 is clear. -/
theorem C2_indexed_high_address :
    (assemble indexed_at_8000).map second_line_view
      = .ok (some 0x8000, OperandType.O_INDXD, "010000".toList) ∧
    at_key OPTAB "LDA".toList = 0 ∧
    hex_value "010000".toList = some 0x10000 ∧
    hex_value "010000".toList ≠ some ((0 <<< 16) ||| 0x8000 ||| 0x8000) ∧
    Nat.testBit 0x10000 15 = false := by
  refine ⟨indexed_at_8000_run, by decide, by decide, by decide, by decide⟩

/-! ## C3: round trip of the 24-bit encoding -/

/-- C3 (amended): for every operation instruction that `pass_2` encodes (mnemonic in
`OPTAB` other than `RSUB`, Label or Indexed operand, resolved address `a` in the 15-bit
range `0 ≤ a ≤ 0x7FFF`), reading the object code as a number and taking bits 23..16,
bit 15 and bits 14..0 recovers the opcode, the indexing bit and the address. -/
theorem C3_encoding_round_trip (symtab : List (List Char × Int)) (ins : instruction)
    (a : Int)
    (hop : count OPTAB ins.mnemonic = true) (hrsub : ins.mnemonic ≠ "RSUB".toList)
    (hty : ins.type_of_operand = .O_LABEL ∨ ins.type_of_operand = .O_INDXD)
    (hfind : find symtab (final_opd ins) = some a) (ha0 : 0 ≤ a) (ha1 : a ≤ 0x7FFF) :
    ∃ ins1 word, encode_instruction symtab ins = .ok ins1 ∧
      hex_value ins1.object_code = some word ∧
      (decode_opcode word : Int) = at_key OPTAB ins.mnemonic ∧
      decode_indexed word = decide (ins.type_of_operand = .O_INDXD) ∧
      (decode_address word : Int) = a := by
  obtain ⟨_, hop0, hop1⟩ := OPTAB_key _ hop
  refine ⟨_, _, encode_operation symtab ins a hop hrsub hty hfind ha0 (by omega),
    hex_value_to_hex _ _, ?_, ?_, ?_⟩
  · unfold decode_opcode
    split <;> omega
  · unfold decode_indexed
    by_cases hx : ins.type_of_operand = .O_INDXD
    · simp only [hx, if_true, decide_True, beq_iff_eq]
      omega
    · simp only [hx, if_false, decide_False, beq_eq_false_iff_ne, ne_eq]
      omega
  · unfold decode_address
    split <;> omega

/-- C3 at a concrete input: the object code of `FIRST LDA ALPHA,X` with `ALPHA` at
`0x1003` decodes to opcode `0x00`, indexing bit set, address `0x1003`. -/
theorem C3_encoding_round_trip_witness :
    find sample_symtab (final_opd sample_indexed) = some 0x1003 ∧
    ∃ ins1 word, encode_instruction sample_symtab sample_indexed = .ok ins1 ∧
      hex_value ins1.object_code = some word ∧
      (decode_opcode word : Int) = at_key OPTAB sample_indexed.mnemonic ∧
      decode_indexed word = decide (sample_indexed.type_of_operand = .O_INDXD) ∧
      (decode_address word : Int) = 0x1003 :=
  ⟨by decide,
   C3_encoding_round_trip sample_symtab sample_indexed 0x1003 (by decide) (by decide)
     (Or.inr rfl) (by decide) (by decide) (by decide)⟩

/-- C3 as stated fails for an address `≥ 0x8000`: in `label_at_8000` the operand `FIRST`
is a Label (indexing bit 0) resolved to `0x8000`; the object code `008000` decodes to
indexing bit 1 and address 0. -/
theorem C3_round_trip_fails_at_8000 :
    (assemble label_at_8000).map second_line_view
      = .ok (some 0x8000, OperandType.O_LABEL, "008000".toList) ∧
    hex_value "008000".toList = some 0x8000 ∧
    decode_indexed 0x8000 = true ∧ decode_address 0x8000 = 0 := by
  refine ⟨label_at_8000_run, by decide, by decide, by decide⟩

/-! ## C4: program length -/

/-- C5: for every program `pass_1` accepts, a label `L` is a key of `SYMTAB` if and only
if some instruction at or before the first `END` carries the label `L` and has nonzero
`size_in_memory` or is `START`; and `SYMTAB` maps `L` to the location of that
instruction. -/
theorem C5_symtab_contents (lines : List (List Char)) (g : Globals)
    (h : pass_1 lines = .ok g) (L : List Char) :
    (count g.SYMTAB L = true ↔
      ∃ ins ∈ upto_END g.program, ins.label = L ∧ L ≠ [] ∧
        (ins.size_in_memory ≠ 0 ∨ ins.mnemonic = "START".toList)) ∧
    (∀ ins ∈ upto_END g.program, ins.label = L → L ≠ [] →
      (ins.size_in_memory ≠ 0 ∨ ins.mnemonic = "START".toList) →
      find g.SYMTAB L = some ins.location) := by
  obtain ⟨program, si, ei, lc, imf, h1, _, _, _, h5, _⟩ := pass_1_ok lines g h
  obtain ⟨k1, k2, _⟩ := assign_locations_symtab _ _ _ _ _ _ h5
  simp only at k1 k2
  have hend : ∀ ins ∈ upto_END g.program, ins.label = L → L ≠ [] →
      (ins.size_in_memory ≠ 0 ∨ ins.mnemonic = "START".toList) →
      ins ∈ before_END g.program ∧ defines_symbol ins = true := by
    intro ins hin hl hne hloc
    have hd : defines_symbol ins = true := (defines_symbol_iff ins).mpr ⟨by rw [hl]; exact hne, hloc⟩
    rcases mem_upto_END _ _ hin with hb | he
    · exact ⟨hb, hd⟩
    · exfalso
      have hmem : ins ∈ g.program := by
        have : ∀ (l : List instruction) (x : instruction), x ∈ upto_END l → x ∈ l := by
          intro l
          induction l with
          | nil => intro x hx; cases hx
          | cons a l ih =>
            intro x hx
            rw [upto_END] at hx
            split at hx
            · rw [List.mem_singleton] at hx; exact hx ▸ List.mem_cons_self _ _
            · rcases List.mem_cons.mp hx with hx | hx
              · exact hx ▸ List.mem_cons_self _ _
              · exact List.mem_cons_of_mem _ (ih x hx)
        exact this _ _ hin
      have hz := (pass_1_program lines g h ins hmem).2.2.2.1 he
      rcases hloc with hloc | hloc
      · exact hloc hz
      · rw [he] at hloc
        revert hloc
        decide
  constructor
  · rw [k1 L]
    constructor
    · rintro (h0 | ⟨ins, hin, hl, hd⟩)
      · simp [count] at h0
      · obtain ⟨hne, hloc⟩ := (defines_symbol_iff ins).mp hd
        exact ⟨ins, before_END_subset_upto_END _ _ hin, hl, by rw [← hl]; exact hne, hloc⟩
    · rintro ⟨ins, hin, hl, hne, hloc⟩
      obtain ⟨hb, hd⟩ := hend ins hin hl hne hloc
      exact Or.inr ⟨ins, hb, hl, hd⟩
  · intro ins hin hl hne hloc
    obtain ⟨hb, hd⟩ := hend ins hin hl hne hloc
    rw [← hl]
    exact k2 ins hb hd

/-- C5 at a concrete input: in Scenario A the label `ALPHA` is a key of `SYMTAB`. -/
theorem C5_symtab_contents_witness :
    ∃ g, pass_1 scenario_A = .ok g ∧
      ((count g.SYMTAB "ALPHA".toList = true ↔
        ∃ ins ∈ upto_END g.program, ins.label = "ALPHA".toList ∧ "ALPHA".toList ≠ [] ∧
          (ins.size_in_memory ≠ 0 ∨ ins.mnemonic = "START".toList)) ∧
      (∀ ins ∈ upto_END g.program, ins.label = "ALPHA".toList → "ALPHA".toList ≠ [] →
        (ins.size_in_memory ≠ 0 ∨ ins.mnemonic = "START".toList) →
        find g.SYMTAB "ALPHA".toList = some ins.location)) :=
  ⟨_, rfl, C5_symtab_contents scenario_A _ rfl "ALPHA".toList⟩

/-! ## C6: order and uniqueness of symbol addresses -/

/-- C8 (the code at the failing input): on Scenario A without the `END` operand, `pass_1`
succeeds, warns `W_NOENO` and sets the operand of `END` to the `START` label `COPY`,
but leaves its `type_of_operand` at `O_NOOPD`; `pass_2` then stops with `E_ENDOP`. -/
theorem C8_missing_end_operand_aborts :
    (pass_1 scenario_A_no_end_operand).map
        (fun g => (g.warnings, (g.program.getD 3 (instruction.default [] 0)).operand,
                   (g.program.getD 3 (instruction.default [] 0)).type_of_operand))
      = .ok ([Warn.W_NOENO], "COPY".toList, OperandType.O_NOOPD)
    ∧ assemble scenario_A_no_end_operand = .error Err.E_ENDOP := by
  constructor <;> rfl

/-! ## C9: instructions after the first END -/

/-- C9: for every program that assembles successfully, every instruction after the first
`END` has `has_location = false` and `has_object_code = false`; and the program with
everything after the first `END` removed also assembles, to the program cut at that
`END`, with the same `SYMTAB` (no label of a later line is added), the same
`length_of_program` and the same text records (and the same header and end record). -/
theorem C9_after_first_END_ignored (lines : List (List Char)) (g : Globals)
    (h : assemble lines = .ok g) :
    (∀ ins ∈ after_END g.program, ins.has_location = false ∧ ins.has_object_code = false) ∧
    ∃ g1, assemble (lines.take ((before_END g.program).length + 1)) = .ok g1 ∧
      g1.program = upto_END g.program ∧
      g1.length_of_program = g.length_of_program ∧
      g1.SYMTAB = g.SYMTAB ∧
      g1.text_records = g.text_records ∧
      g1.header_record = g.header_record ∧ g1.end_record = g.end_record := by
  obtain ⟨p, hp1, hp2⟩ := assemble_ok lines g h
  obtain ⟨r, listing, recs, e1, e2, e3, q1, q2, q3, q4, q5, q6, q7, q8, q9⟩ := pass_2_ok p g hp2
  have hprog := pass_1_program lines p hp1
  have hEND : END_not_skipped p.program := by
    intro ins hin he
    exact (hprog ins hin).2.2.1 (by rw [he]; decide)
  have henc := encode_program_encoded _ _ _ _ e1
  have hENDr : END_not_skipped r.1 := by
    intro b hb he
    obtain ⟨a, ha, m, c, bl⟩ := forall2_left henc b hb
    rw [c, bl]
    exact hEND a ha (by rw [← m]; exact he)
  have hk : (before_END g.program).length = (before_END p.program).length := by
    rw [q1]
    exact before_END_length_congr (fun a b hab => hab.1) henc
  constructor
  · intro ins hin
    rw [q1, encode_program_after_END _ _ _ _ hEND e1] at hin
    refine ⟨?_, (hprog ins (after_END_subset _ _ hin)).1⟩
    obtain ⟨program, si, ei, lc, imf, h1, _, _, _, h5, _⟩ := pass_1_ok lines p hp1
    rw [assign_locations_after_END _ _ _ _ _ _ h5] at hin
    exact pass_1_unlocated lines program h1 si ei ins (after_END_subset _ _ hin)
  · obtain ⟨p1, t1, t2, t3, t4, t5, t6, t7⟩ := pass_1_upto lines p hp1
    rw [hk]
    have e1a : encode_program p1.SYMTAB p1.program p1.first_executable_instruction
        = .ok (upto_END r.1, r.2) := by
      rw [t2, t3, t7, encode_program_upto _ _ _ hEND, e1, map_ok]
    obtain ⟨listing1, e2a⟩ := write_listing_upto _ _ e2
    have e3a : generate_records
        { p1 with program := (upto_END r.1, r.2).1,
                  first_executable_instruction := (upto_END r.1, r.2).2 }
        (upto_END r.1, r.2).1
        { header_record := [], insert_new := true, text_records := [], end_record := [] }
        = .ok recs := by
      rw [generate_records_congr
        { p1 with program := (upto_END r.1, r.2).1,
                  first_executable_instruction := (upto_END r.1, r.2).2 }
        { p with program := r.1, first_executable_instruction := r.2 } t6 t4 t5 rfl]
      show generate_records _ (upto_END r.1) _ = _
      rw [generate_records_upto _ _ _ hENDr]
      exact e3
    obtain ⟨g1, u1, u2, u3, u4, u5, u6, u7, u8, u9, u10⟩ :=
      pass_2_of_parts p1 (upto_END r.1, r.2) listing1 recs e1a e2a e3a
    refine ⟨g1, ?_, ?_, ?_, ?_, ?_, ?_, ?_⟩
    · unfold assemble
      rw [t1]
      exact u1
    · rw [u2, q1]
    · rw [u5, t5, q4]
    · rw [u4, t3, q3]
    · rw [u9, q8]
    · rw [u8, q7]
    · rw [u10, q9]

/-- C9 at a concrete input: Scenario A followed by two further lines assembles, and the
run is the run of Scenario A alone. -/
theorem C9_after_first_END_ignored_witness :
    ∃ g, assemble scenario_F = .ok g ∧
      scenario_F.take ((before_END g.program).length + 1) = scenario_A ∧
      (after_END g.program).map (fun ins => ins.label) = ["EXTRA".toList, "ALPHA".toList] ∧
      (∀ ins ∈ after_END g.program,
        ins.has_location = false ∧ ins.has_object_code = false) ∧
      ∃ g1, assemble (scenario_F.take ((before_END g.program).length + 1)) = .ok g1 ∧
        g1.program = upto_END g.program ∧
        g1.length_of_program = g.length_of_program ∧
        g1.SYMTAB = g.SYMTAB ∧
        g1.text_records = g.text_records ∧
        g1.header_record = g.header_record ∧ g1.end_record = g.end_record :=
  ⟨_, rfl, rfl, rfl, C9_after_first_END_ignored scenario_F _ rfl⟩

/-! ## C10: size of a text record -/

/-- C10: for every program that assembles successfully, every text record the packer
produced has `total_length` at most 60 (30 bytes), where `total_length` is the sum of the
lengths of its fragments. -/
theorem C10_text_record_at_most_60 (lines : List (List Char)) (g : Globals)
    (h : assemble lines = .ok g) :
    ∀ tr ∈ g.text_records,
      tr.total_length ≤ 60 ∧ tr.total_length = (tr.records.map List.length).sum := by
  obtain ⟨g1, hp1, hp2⟩ := assemble_ok lines g h
  obtain ⟨r, listing, recs, h1, _, h3, _, _, _, _, _, _, _, htr, _⟩ := pass_2_ok g1 g hp2
  have hprog := pass_1_program lines g1 hp1
  have hlen := encode_program_length _ _ _ _ h1
    (fun ins hin => ⟨(hprog ins hin).2.1, (hprog ins hin).2.2.2.2⟩)
  rw [htr]
  exact generate_records_ok _ _ _ _ h3 hlen (by simp)

/-- C10 at a concrete input: eleven `WORD` lines assemble into two text records, of 60
and 6 characters. -/
theorem C10_text_record_at_most_60_witness :
    ∃ g, assemble eleven_words = .ok g ∧
      g.text_records.map (fun tr => tr.total_length) = [60, 6] ∧
      ∀ tr ∈ g.text_records,
        tr.total_length ≤ 60 ∧ tr.total_length = (tr.records.map List.length).sum :=
  ⟨_, rfl, rfl, C10_text_record_at_most_60 eleven_words _ rfl⟩

/-! ## C11: hexadecimal literals -/

/-- C11 (the code at the failing input): the constructor accepts the line
`A BYTE X'GZ'` with `type_of_operand = O_HEXAD` (the test
`isdigit(dig) || ('A'<=dig || dig<='F')` holds of every character), and the program
`byte_GZ` assembles with the text record `T^001000^01^GZ`. -/
theorem C11_hex_literal_GZ_accepted :
    (instruction.new "A BYTE X'GZ'".toList 2).map
        (fun ins => (ins.mnemonic, ins.operand, ins.type_of_operand, ins.size_in_memory))
      = .ok ("BYTE".toList, "X'GZ'".toList, OperandType.O_HEXAD, 1) ∧
    (assemble byte_GZ).map data_line_view
      = .ok (OperandType.O_HEXAD, 0x1000, "GZ".toList, ["T^001000^01^GZ".toList]) := by
  constructor <;> rfl

/-! ## C12: WORD and BYTE with a decimal operand -/

/-- C12 (amended): for a `WORD` (`w = 3`) or `BYTE` (`w = 1`) directive with a Decimal
operand of value `v` that fits an `int` (`v ≤ 2^31 - 1`), `pass_2` raises the fatal
out-of-bounds error if and only if `v > 2^(8w) - 1`, and otherwise the object code is
exactly `2w` uppercase hex digits whose value is `v`. -/
theorem C12_decimal_constant (symtab : List (List Char × Int)) (ins : instruction) (w : Nat)
    (hm : (ins.mnemonic = "WORD".toList ∧ w = 3) ∨ (ins.mnemonic = "BYTE".toList ∧ w = 1))
    (hty : ins.type_of_operand = .O_DECIM)
    (hne : ins.operand ≠ []) (hd : ∀ c ∈ ins.operand, isdigit c = true)
    (hint : decimal_value ins.operand ≤ 2147483647) :
    (encode_instruction symtab ins = .error .E_DTOUT ↔
      decimal_value ins.operand > 2 ^ (8 * w) - 1) ∧
    (decimal_value ins.operand ≤ 2 ^ (8 * w) - 1 →
      ∃ ins1, encode_instruction symtab ins = .ok ins1 ∧ ins1.has_object_code = true ∧
        ins1.object_code.length = 2 * w ∧ (∀ c ∈ ins1.object_code, is_upper_hex c = true) ∧
        hex_value ins1.object_code = some (decimal_value ins.operand)) := by
  have hw : max_data_size ins.mnemonic = w := by
    unfold max_data_size
    rcases hm with ⟨h, rfl⟩ | ⟨h, rfl⟩
    · rw [if_pos h]
    · rw [if_neg (by rw [h]; decide)]
  have hw3 : w = 3 ∨ w = 1 := by rcases hm with ⟨_, h⟩ | ⟨_, h⟩ <;> simp [h]
  have henc := encode_decimal symtab ins (hm.imp And.left And.left) hty
  rw [stoi_decimal _ hne hd, if_pos hint, hw] at henc
  simp only [bind, Except.bind] at henc
  have hcast : ((decimal_value ins.operand : Int) > ((2 ^ (8 * w) : Nat) : Int) - 1) ↔
      decimal_value ins.operand > 2 ^ (8 * w) - 1 := by
    have hp : 0 < 2 ^ (8 * w) := Nat.pow_pos (by norm_num)
    constructor <;> intro h <;> omega
  by_cases hv : decimal_value ins.operand > 2 ^ (8 * w) - 1
  · rw [if_pos (hcast.mpr hv)] at henc
    refine ⟨⟨fun _ => hv, fun _ => henc⟩, ?_⟩
    intro h
    omega
  · rw [if_neg (fun h => hv (hcast.mp h))] at henc
    refine ⟨⟨?_, fun h => absurd h hv⟩, ?_⟩
    · intro h
      rw [henc] at h
      cases h
    · intro hle
      refine ⟨_, henc, rfl, ?_, to_hex_upper _ _, hex_value_to_hex _ _⟩
      apply to_hex_length
      have hp : 0 < 2 ^ (8 * w) := Nat.pow_pos (by norm_num)
      have : (16 : Nat) ^ (2 * w) = 2 ^ (8 * w) := by
        rw [show (16 : Nat) = 2 ^ 4 by norm_num, ← pow_mul]; congr 1; ring
      rw [this]
      omega

/-- C12 at concrete inputs: `WORD 16777215` gets the object code `FFFFFF`, and for
`WORD 16777216` (Scenario D) the theorem gives the out-of-bounds error. -/
theorem C12_decimal_constant_witness :
    (∃ ins1, encode_instruction [] (sample_decimal "WORD".toList "16777215".toList) = .ok ins1 ∧
      ins1.has_object_code = true ∧ ins1.object_code.length = 2 * 3 ∧
      (∀ c ∈ ins1.object_code, is_upper_hex c = true) ∧
      hex_value ins1.object_code = some (decimal_value "16777215".toList)) ∧
    encode_instruction [] (sample_decimal "WORD".toList "16777216".toList) = .error .E_DTOUT :=
  ⟨(C12_decimal_constant [] (sample_decimal "WORD".toList "16777215".toList) 3
      (Or.inl ⟨rfl, rfl⟩) rfl (by decide) (by decide) (by decide)).2 (by decide),
   (C12_decimal_constant [] (sample_decimal "WORD".toList "16777216".toList) 3
      (Or.inl ⟨rfl, rfl⟩) rfl (by decide) (by decide) (by decide)).1.mpr (by decide)⟩

/-- C12 as stated fails for a value that does not fit an `int`: for `A WORD 2147483648`
the call of `stoi` in `pass_2` throws `out_of_range`, which nothing catches; the run
ends with that exception and not with the out-of-bounds error `E_DTOUT`. -/
theorem C12_value_beyond_int :
    (pass_1 word_2_pow_31).map (fun g =>
        ((g.program.getD 1 (instruction.default [] 0)).mnemonic,
         (g.program.getD 1 (instruction.default [] 0)).type_of_operand,
         decimal_value (g.program.getD 1 (instruction.default [] 0)).operand))
      = .ok ("WORD".toList, OperandType.O_DECIM, 2147483648) ∧
    assemble word_2_pow_31 = .error Err.uncaught_exception ∧
    assemble word_2_pow_31 ≠ .error Err.E_DTOUT := by
  refine ⟨rfl, rfl, ?_⟩
  intro h
  have h2 : assemble word_2_pow_31 = .error Err.uncaught_exception := rfl
  rw [h2] at h
  injection h with h
  cases h

/-! ## C13: BYTE with a character array -/

/-- C13 (amended): for every `BYTE` directive with a CharArray operand `C'c1...cn'`
whose content characters have codes from 1 to 127 (7-bit ASCII, no NUL), the object code
is the concatenation, in source order, of the 2-digit uppercase hexadecimal character
code of each content character, so its length is `2n`. -/
theorem C13_char_array_object_code (symtab : List (List Char × Int)) (ins : instruction)
    (content : List Char) (hm : ins.mnemonic = "BYTE".toList)
    (hty : ins.type_of_operand = .O_CHRAR) (hop : ins.operand = char_operand content)
    (hnew : ins.object_code = [])
    (hascii : ∀ c ∈ content, 1 ≤ c.toNat ∧ c.toNat ≤ 127) :
    ∃ ins1, encode_instruction symtab ins = .ok ins1 ∧
      ins1.object_code = (content.map (fun c => hex_pair c.toNat)).flatten ∧
      ins1.object_code.length = 2 * content.length ∧
      (content ≠ [] → ins1.has_object_code = true) ∧
      ∀ c ∈ content, hex_value (hex_pair c.toNat) = some c.toNat ∧
        ∀ x ∈ hex_pair c.toNat, is_upper_hex x = true := by
  have h := encode_byte_chars symtab ins content hm hty hop
  rw [encode_chars_ascii content hascii] at h
  simp only [bind, Except.bind, hnew, List.nil_append] at h
  refine ⟨_, h, rfl, ?_, ?_, ?_⟩
  · show ((content.map (fun c => hex_pair c.toNat)).flatten).length = 2 * content.length
    clear h hop hascii
    induction content with
    | nil => rfl
    | cons c t ih =>
      rw [List.map_cons, List.flatten_cons, List.length_append, ih, List.length_cons]
      simp only [hex_pair, List.length_cons, List.length_nil]
      omega
  · intro hne
    show (ins.has_object_code || !content.isEmpty) = true
    cases content with
    | nil => exact absurd rfl hne
    | cons c t => simp
  · intro c hc
    exact hex_pair_value _ (by have := (hascii c hc).2; omega)

/-- C13 at a concrete input (Scenario C): `BYTE C'EOF'` gets the object code `454F46`. -/
theorem C13_char_array_object_code_witness :
    sample_byte_chars.operand = char_operand "EOF".toList ∧
    ("EOF".toList.map (fun c => hex_pair c.toNat)).flatten = "454F46".toList ∧
    ∃ ins1, encode_instruction [] sample_byte_chars = .ok ins1 ∧
      ins1.object_code = ("EOF".toList.map (fun c => hex_pair c.toNat)).flatten ∧
      ins1.object_code.length = 2 * "EOF".toList.length ∧
      ("EOF".toList ≠ [] → ins1.has_object_code = true) ∧
      ∀ c ∈ "EOF".toList, hex_value (hex_pair c.toNat) = some c.toNat ∧
        ∀ x ∈ hex_pair c.toNat, is_upper_hex x = true :=
  ⟨by decide, by decide,
   C13_char_array_object_code [] sample_byte_chars "EOF".toList (by decide) (by decide)
     (by decide) (by decide) (by decide)⟩

/-- C13 as stated fails for a content byte above 127: `char` is signed, so the byte
`0xE9` is read as `-23` and the digit loop pushes `)` and `/`; the object code of
`A BYTE C'<E9>'` is `/)`, not the character code `E9`. -/
theorem C13_high_byte_not_hex :
    (assemble byte_char_E9).map data_line_view
      = .ok (OperandType.O_CHRAR, 0x1000, "/)".toList, ["T^001000^01^/)".toList]) ∧
    hex_pair 233 = "E9".toList := by
  constructor <;> rfl

/-! ## C14: BYTE with a hexadecimal operand -/

/-- C14 (amended): for a `BYTE` directive with a Hex operand `X'content'` whose content
consists of hex digits, `pass_2` produces object code if and only if the content has one
or two digits; with two digits the object code is those two digits, with one digit it
is `0` followed by that digit (the odd length is padded), and content of any other
length is the fatal out-of-bounds error. -/
theorem C14_byte_hex_one_or_two_digits (symtab : List (List Char × Int)) (ins : instruction)
    (content : List Char) (hm : ins.mnemonic = "BYTE".toList)
    (hty : ins.type_of_operand = .O_HEXAD) (hop : ins.operand = hex_operand content)
    (_hhex : ∀ c ∈ content, is_upper_hex c = true) :
    ((∃ ins1, encode_instruction symtab ins = .ok ins1) ↔
      (content.length = 1 ∨ content.length = 2)) ∧
    (content.length = 2 → encode_instruction symtab ins
      = .ok { ins with has_object_code := true, object_code := content }) ∧
    (content.length = 1 → encode_instruction symtab ins
      = .ok { ins with has_object_code := true, object_code := Char.ofNat 48 :: content }) ∧
    (content.length ≠ 1 → content.length ≠ 2 →
      encode_instruction symtab ins = .error .E_DTOUT) := by
  have h := encode_byte_hex symtab ins content hm hty hop
  have h2 : content.length = 2 → encode_instruction symtab ins
      = .ok { ins with has_object_code := true, object_code := content } := by
    intro hl
    rw [h]
    have hp : pad_even content.reverse = content.reverse := by
      unfold pad_even
      rw [if_neg (by simp [hl])]
    rw [hp, List.reverse_reverse, if_neg (by simp [hl])]
  have h1 : content.length = 1 → encode_instruction symtab ins
      = .ok { ins with has_object_code := true, object_code := Char.ofNat 48 :: content } := by
    intro hl
    rw [h]
    have hp : pad_even content.reverse = content.reverse ++ [Char.ofNat 48] := by
      unfold pad_even
      rw [if_pos (by simp [hl])]
    rw [hp, List.reverse_append, List.reverse_reverse, if_neg (by simp [hl])]
    rfl
  have h0 : content.length ≠ 1 → content.length ≠ 2 →
      encode_instruction symtab ins = .error .E_DTOUT := by
    intro hl1 hl2
    rw [h, if_pos]
    unfold pad_even
    split <;> simp <;> omega
  refine ⟨⟨?_, ?_⟩, h2, h1, h0⟩
  · rintro ⟨ins1, hi⟩
    by_contra hn
    rw [not_or] at hn
    rw [h0 hn.1 hn.2] at hi
    cases hi
  · rintro (hl | hl)
    · exact ⟨_, h1 hl⟩
    · exact ⟨_, h2 hl⟩

/-- C14 at a concrete input: `A BYTE X'1F'` gets the object code `1F`. -/
theorem C14_byte_hex_one_or_two_digits_witness :
    sample_byte_hex.operand = hex_operand "1F".toList ∧
    ((∃ ins1, encode_instruction [] sample_byte_hex = .ok ins1) ↔
      ("1F".toList.length = 1 ∨ "1F".toList.length = 2)) ∧
    ("1F".toList.length = 2 → encode_instruction [] sample_byte_hex
      = .ok { sample_byte_hex with has_object_code := true, object_code := "1F".toList }) ∧
    ("1F".toList.length = 1 → encode_instruction [] sample_byte_hex
      = .ok { sample_byte_hex with has_object_code := true,
                                   object_code := Char.ofNat 48 :: "1F".toList }) ∧
    ("1F".toList.length ≠ 1 → "1F".toList.length ≠ 2 →
      encode_instruction [] sample_byte_hex = .error .E_DTOUT) :=
  ⟨by decide,
   C14_byte_hex_one_or_two_digits [] sample_byte_hex "1F".toList (by decide) (by decide)
     (by decide) (by decide)⟩

/-- C14 as stated fails: `A BYTE X'F'` has one digit between the quotes, yet `pass_2`
gives it the object code `0F` and the program assembles. -/
theorem C14_one_digit_accepted :
    (assemble byte_one_digit).map data_line_view
      = .ok (OperandType.O_HEXAD, 0x1000, "0F".toList, ["T^001000^01^0F".toList]) := by
  rfl

/-! ## C15: range of locations -/

/-- C15 (the code at the failing input): `label_at_8000` assembles although `FIRST` is
given the location `0x8000 = 2^15`, which is also its symbol-table address; the range
test of `to_string` is `location >= (2<<15)`, so only a start at `0x10000` is `E_LOCLG`. -/
theorem C15_location_8000_accepted :
    (assemble label_at_8000).map
        (fun g => ((g.program.getD 1 (instruction.default [] 0)).has_location,
                   (g.program.getD 1 (instruction.default [] 0)).location,
                   find g.SYMTAB "FIRST".toList))
      = .ok (true, 32768, some 32768) ∧
    assemble start_at_10000 = .error Err.E_LOCLG := by
  constructor <;> rfl

/-! ## C16: undeclared labels -/

/-- C16 (amended): for every program `pass_1` accepts, when the main loop of `pass_2`
reaches (having got through all earlier instructions, none of them `END`) an operation
other than `RSUB` whose Label operand, or Indexed operand with `,X` stripped, is not a
key of `SYMTAB`, the run ends with the fatal `E_INVSY` naming that label and no object
program; likewise at an `END` whose operand label is not a key.  Conversely, when the
label is a key the operation raises no `E_INVSY`, and at `END` the loop ends without
error. -/
theorem C16_undeclared_label (lines : List (List Char)) (g : Globals)
    (pre rest : List instruction) (ins : instruction)
    (hp1 : pass_1 lines = .ok g) (hprog : g.program = pre ++ ins :: rest)
    (hpre : pre.all (gets_through g.SYMTAB) = true) :
    (count OPTAB ins.mnemonic = true → ins.mnemonic ≠ "RSUB".toList →
      (ins.type_of_operand = .O_LABEL ∨ ins.type_of_operand = .O_INDXD) →
      ((count g.SYMTAB (final_opd ins) = false →
          assemble lines = .error (.E_INVSY (final_opd ins))) ∧
       (count g.SYMTAB (final_opd ins) = true →
          ∀ L, encode_instruction g.SYMTAB ins ≠ .error (.E_INVSY L)))) ∧
    (ins.mnemonic = "END".toList → ins.type_of_operand = .O_LABEL →
      ((count g.SYMTAB ins.operand = false →
          assemble lines = .error (.E_INVSY ins.operand)) ∧
       (count g.SYMTAB ins.operand = true →
          ∃ r, encode_program g.SYMTAB g.program g.first_executable_instruction = .ok r ∧
            r.2 = at_key g.SYMTAB ins.operand))) := by
  obtain ⟨pre1, hthrough⟩ :=
    encode_program_through g.SYMTAB (ins :: rest) g.first_executable_instruction pre hpre
  rw [← hprog] at hthrough
  have hmem : ins ∈ g.program := by rw [hprog]; simp
  have hfacts := pass_1_program lines g hp1 ins hmem
  constructor
  · intro hop hrsub hty
    obtain ⟨hdir, _, _⟩ := OPTAB_key _ hop
    have hne : ins.mnemonic ≠ [] := by
      intro h; rw [h] at hop; revert hop; decide
    obtain ⟨hc, hb⟩ := hfacts.2.2.1 hne
    have hs : ¬ (ins.mnemonic = "START".toList ∨ (ins.is_comment = true ∨ ins.is_blank = true)) := by
      rw [hc, hb]
      intro h
      rcases h with h | h | h
      · rw [h] at hdir; revert hdir; decide
      · cases h
      · cases h
    have he : ins.mnemonic ≠ "END".toList := by
      intro h; rw [h] at hdir; revert hdir; decide
    have hlook := encode_operation_lookup g.SYMTAB ins hop hrsub hty
    constructor
    · intro hcount
      rw [hcount] at hlook
      simp only [Bool.not_false, if_true] at hlook
      apply assemble_error lines g _ hp1
      apply pass_2_error
      rw [hthrough, encode_program, if_neg hs, if_neg he, hlook]
      rfl
    · intro hcount L hL
      rw [hcount] at hlook
      simp only [Bool.not_true, Bool.false_eq_true, if_false] at hlook
      rw [hlook] at hL
      cases hchk : int_checked (at_key OPTAB ins.mnemonic * 65536 + indexed_summand ins
          + at_key g.SYMTAB (final_opd ins)) with
      | error e =>
        rw [hchk] at hL
        unfold int_checked at hchk
        split at hchk
        · cases hchk
        · injection hchk with hchk
          subst hchk
          cases hL
      | ok d =>
        rw [hchk] at hL
        simp only [bind, Except.bind] at hL
        split at hL <;> cases hL
  · intro he hty
    have hne : ins.mnemonic ≠ [] := by rw [he]; decide
    obtain ⟨hc, hb⟩ := hfacts.2.2.1 hne
    have hs : ¬ (ins.mnemonic = "START".toList ∨ (ins.is_comment = true ∨ ins.is_blank = true)) := by
      rw [hc, hb, he]
      decide
    constructor
    · intro hcount
      apply assemble_error lines g _ hp1
      apply pass_2_error
      rw [hthrough, encode_program, if_neg hs, if_pos he, if_neg (by rw [hty]; decide), hcount]
      rfl
    · intro hcount
      rw [hthrough, encode_program, if_neg hs, if_pos he, if_neg (by rw [hty]; decide), hcount]
      exact ⟨_, rfl, rfl⟩

/-- C16 at a concrete input (Scenario E): `FIRST LDA NOPE` with no line labelled `NOPE`
ends the run with `E_INVSY` naming `NOPE`. -/
theorem C16_undeclared_label_witness :
    pass_1 undeclared_operand = .ok
      { program := [start_COPY, lda_NOPE, end_FIRST],
        SYMTAB := [("COPY".toList, 4096), ("FIRST".toList, 4096)],
        program_starting_address := 4096, first_executable_instruction := 0,
        length_of_program := 3, program_name := "COPY".toList, warnings := [],
        intermediate_file := ("Loc-1000\t\tCOPY\t\tSTART\t\t1000\n"
          ++ "Loc-1000\t\tFIRST\t\tLDA\t\tNOPE\nLoc-None\t\t\t\tEND\t\tFIRST\n").toList,
        assembly_listing := [], header_record := [], text_records := [], end_record := [],
        object_program := [] } ∧
    assemble undeclared_operand = .error (.E_INVSY "NOPE".toList) :=
  ⟨rfl,
   ((C16_undeclared_label undeclared_operand _ [start_COPY] [end_FIRST] lda_NOPE rfl rfl rfl).1
      (by decide) (by decide) (Or.inl rfl)).1 (by decide)⟩

/-- C16 as stated fails when an earlier line ends the run: the third line of
`undeclared_behind_word`, before the `END`, is `FIRST LDA NOPE`, an operation with a
Label operand that is not a key of `SYMTAB`, and `pass_1` accepts the program; yet the
error `pass_2` raises is `E_DTOUT`, at the `WORD` of the second line, and not `E_INVSY`
naming `NOPE`. -/
theorem C16_earlier_error_comes_first :
    (pass_1 undeclared_behind_word).map
        (fun g => (g.program.map (fun ins => ins.mnemonic),
                   (g.program.getD 2 (instruction.default [] 0)).operand,
                   (g.program.getD 2 (instruction.default [] 0)).type_of_operand,
                   count g.SYMTAB "NOPE".toList))
      = .ok (["START".toList, "WORD".toList, "LDA".toList, "END".toList],
             "NOPE".toList, OperandType.O_LABEL, false) ∧
    assemble undeclared_behind_word = .error .E_DTOUT ∧
    assemble undeclared_behind_word ≠ .error (.E_INVSY "NOPE".toList) := by
  refine ⟨rfl, rfl, ?_⟩
  intro h
  have h2 : assemble undeclared_behind_word = .error .E_DTOUT := rfl
  rw [h2] at h
  cases h

/-! ## C17: the header record -/

/-- C17 (amended): for every program that assembles successfully and whose length is
from 0 to `16^6 - 1`, the header record is exactly the 22-character string `H^` + the
6-character name field (the first six characters of the program name, space-padded to
6) + `^` + `program_starting_address` as exactly 6 uppercase hex digits + `^` +
`length_of_program` as exactly 6 uppercase hex digits, and the two hex fields decode to
those two values. -/
theorem C17_header_record (lines : List (List Char)) (g2 : Globals)
    (h : assemble lines = .ok g2)
    (hlen : 0 ≤ g2.length_of_program ∧ g2.length_of_program < 16 ^ 6) :
    ∃ address len : List Char,
      g2.header_record = "H^".toList ++ name_field g2.program_name ++ "^".toList
        ++ address ++ "^".toList ++ len ∧
      g2.header_record.length = 22 ∧
      (name_field g2.program_name).length = 6 ∧
      address.length = 6 ∧ (∀ c ∈ address, is_upper_hex c = true) ∧
      (hex_value address).map Int.ofNat = some g2.program_starting_address ∧
      len.length = 6 ∧ (∀ c ∈ len, is_upper_hex c = true) ∧
      (hex_value len).map Int.ofNat = some g2.length_of_program := by
  obtain ⟨g, hg, h2⟩ := assemble_ok lines g2 h
  obtain ⟨_, _, _, _, _, _, _, _, _, hl2, hp2, hn2, _⟩ := pass_2_ok g g2 h2
  have hhead := pass_2_header lines g g2 hg h2
  have hnn := pass_1_psa_nonneg lines g hg
  have hlt := pass_1_psa_lt lines g hg
  rw [← hl2, ← hp2, ← hn2] at hhead
  rw [← hp2] at hnn hlt
  obtain ⟨a, ha⟩ := Int.eq_ofNat_of_zero_le hnn
  obtain ⟨l, hl⟩ := Int.eq_ofNat_of_zero_le hlen.1
  have ha6 : a < 16 ^ 6 := by
    rw [ha] at hlt
    have : a < 65536 := by exact_mod_cast hlt
    omega
  have hl6 : l < 16 ^ 6 := by
    have := hlen.2
    rw [hl] at this
    exact_mod_cast this
  have hla := to_hex_length a 6 ha6
  have hll := to_hex_length l 6 hl6
  refine ⟨to_hex g2.program_starting_address 6, to_hex g2.length_of_program 6, ?_, ?_,
    name_field_length _, ?_, ?_, ?_, ?_, ?_, ?_⟩
  · rw [hhead]
    unfold make_header
    rw [name_field_loop]
    rfl
  · rw [hhead]
    unfold make_header
    rw [name_field_loop, ha, hl]
    simp only [List.length_append, List.length_cons, List.length_nil, name_field_length, hla,
      hll]
  · rw [ha]; exact hla
  · rw [ha]; exact to_hex_upper a 6
  · rw [ha, hex_value_to_hex]; rfl
  · rw [hl]; exact hll
  · rw [hl]; exact to_hex_upper l 6
  · rw [hl, hex_value_to_hex]; rfl

/-- C17 at a concrete input: the header record of Scenario A is
`H^COPY  ^001000^000006`. -/
theorem C17_header_record_witness :
    ∃ g, assemble scenario_A = .ok g ∧
      g.header_record = "H^COPY  ^001000^000006".toList ∧
      ∃ address len : List Char,
        g.header_record = "H^".toList ++ name_field g.program_name ++ "^".toList
          ++ address ++ "^".toList ++ len ∧
        g.header_record.length = 22 ∧
        (name_field g.program_name).length = 6 ∧
        address.length = 6 ∧ (∀ c ∈ address, is_upper_hex c = true) ∧
        (hex_value address).map Int.ofNat = some g.program_starting_address ∧
        len.length = 6 ∧ (∀ c ∈ len, is_upper_hex c = true) ∧
        (hex_value len).map Int.ofNat = some g.length_of_program :=
  ⟨_, rfl, rfl, C17_header_record scenario_A _ rfl ⟨by decide, by decide⟩⟩

/-- C17 as stated fails: `long_reserve` assembles with `length_of_program = 99999999`,
which needs seven hex digits; the header record `H^COPY  ^000000^5F5E0FF` has 23
characters. -/
theorem C17_header_of_23_characters :
    (assemble long_reserve).map
        (fun g => (g.length_of_program, g.header_record, g.header_record.length))
      = .ok (99999999, "H^COPY  ^000000^5F5E0FF".toList, 23) := by
  rfl

/-! ## C18: the START and END lines -/

/-- C19: for every program that assembles successfully and every `RESW` or `RESB` line
`res` before the first `END`, with `A` the instructions before it and `B` those after
it: the text records are those of `A` followed by those of `B`, the fragments of the
first being the object codes of the content-bearing instructions of `A` and those of
the second the object codes of the content-bearing instructions of `B` (so no text
record holds fragments from both sides of `res`); and the first content-bearing
instruction after `res` is the first fragment of the first record of `B`, whose
starting address is the location of that instruction. -/
theorem C19_gap_closes_record (lines : List (List Char)) (g2 : Globals)
    (h : assemble lines = .ok g2) (A B : List instruction) (res : instruction)
    (hprog : g2.program = A ++ res :: B) (hA : ∀ x ∈ A, x.mnemonic ≠ "END".toList)
    (hres : is_gap res = true) :
    ∃ TA TB, g2.text_records = TA ++ TB ∧
      fragments TA = content_codes A ∧ fragments TB = content_codes B ∧
      ∀ skip c rest, B = skip ++ c :: rest →
        (∀ x ∈ skip, is_content x = false ∧ x.mnemonic ≠ "END".toList) →
        is_content c = true →
        ∃ tr T1, TB = tr :: T1 ∧ tr.starting_address = c.location ∧
          ∃ more, tr.records = c.object_code :: more := by
  have hEND := assemble_END_not_skipped lines g2 h
  obtain ⟨g, hg, h2⟩ := assemble_ok lines g2 h
  obtain ⟨r, listing, recs, _, _, e3, q1, _, _, _, _, _, _, q8, _⟩ := pass_2_ok g g2 h2
  generalize ({ g with program := r.1, first_executable_instruction := r.2 } : Globals) = G
    at e3
  rw [← q1, hprog, generate_records_append _ _ A _ hA] at e3
  obtain ⟨stA, hA1, hA2⟩ := (bind_eq_ok _ _ _).mp e3
  rw [generate_records_gap _ _ _ _ hres] at hA2
  have hc := generate_records_closed G stA.text_records B
    ⟨stA.header_record, true, [], stA.end_record⟩ (Or.inl rfl)
  simp only [List.append_nil] at hc
  rw [hc] at hA2
  have hENDA : END_not_skipped A := fun x hx he => absurd he (hA x hx)
  have hENDB : END_not_skipped B := by
    intro x hx
    apply hEND
    rw [hprog]
    exact List.mem_append_right _ (List.mem_cons_of_mem _ hx)
  cases hB : generate_records G B ⟨stA.header_record, true, [], stA.end_record⟩ with
  | error e =>
    rw [hB] at hA2
    cases hA2
  | ok outB =>
    rw [hB] at hA2
    injection hA2 with hA2
    refine ⟨stA.text_records, outB.text_records, ?_, ?_, ?_, ?_⟩
    · rw [q8, ← hA2]
    · have := generate_records_fragments _ _ _ _ hENDA hA1
      rw [this]
      rfl
    · have := generate_records_fragments _ _ _ _ hENDB hB
      rw [this]
      rfl
    · intro skip c rest hBeq hskip hcont
      rw [hBeq] at hB
      exact generate_records_first_content _ c rest hcont skip _ _ hskip rfl rfl hB

/-- C19 at a concrete input: in `gap_program` the `RESW` line separates `LDA` from
`STA`, which go into two text records, the second starting at the location of `STA`. -/
theorem C19_gap_closes_record_witness :
    ∃ g, assemble gap_program = .ok g ∧
      g.program = [start_COPY, lda_BUF] ++ resw_BUF :: [sta_BUF, end_of_gap_program] ∧
      g.text_records.map text_record.to_string
        = ["T^001000^03^001003".toList, "T^001006^03^0C1003".toList] ∧
      ∃ TA TB, g.text_records = TA ++ TB ∧
        fragments TA = content_codes [start_COPY, lda_BUF] ∧
        fragments TB = content_codes [sta_BUF, end_of_gap_program] ∧
        ∀ skip c rest, [sta_BUF, end_of_gap_program] = skip ++ c :: rest →
          (∀ x ∈ skip, is_content x = false ∧ x.mnemonic ≠ "END".toList) →
          is_content c = true →
          ∃ tr T1, TB = tr :: T1 ∧ tr.starting_address = c.location ∧
            ∃ more, tr.records = c.object_code :: more :=
  ⟨_, rfl, rfl, rfl,
   C19_gap_closes_record gap_program _ rfl [start_COPY, lda_BUF]
     [sta_BUF, end_of_gap_program] resw_BUF rfl (by decide) (by decide)⟩

/-! ## C20: lines of two tokens -/

/-- C20: for every line (not a comment) that tokenizes into exactly two tokens `t0 t1`:
neither a known mnemonic gives the fatal `E_NOOPN`; both known gives the fatal `E_TWOMN`;
only `t0` known gives mnemonic `t0`, operand `t1` and an empty label; only `t1` known
gives label `t0`, mnemonic `t1` and an empty operand; and the branch of the
internal-consistency error `E_INTRL` is never taken. -/
theorem C20_two_token_line (line : List Char) (n : Nat) (t0 t1 : List Char)
    (hc : comment_scan line = none)
    (hw : pop_empty_back (split_words line [] []) = [t0, t1]) :
    (is_keyword t0 = false → is_keyword t1 = false →
      instruction.new line n = .error .E_NOOPN) ∧
    (is_keyword t0 = true → is_keyword t1 = true →
      instruction.new line n = .error .E_TWOMN) ∧
    (is_keyword t0 = true → is_keyword t1 = false →
      parse_words [t0, t1] = .ok ([], t0, t1) ∧
      ∀ ins, instruction.new line n = .ok ins →
        ins.mnemonic = t0 ∧ ins.operand = t1 ∧ ins.label = []) ∧
    (is_keyword t0 = false → is_keyword t1 = true →
      parse_words [t0, t1] = .ok (t0, t1, []) ∧
      ∀ ins, instruction.new line n = .ok ins →
        ins.label = t0 ∧ ins.mnemonic = t1 ∧ ins.operand = []) ∧
    parse_words [t0, t1] ≠ .error .E_INTRL := by
  have hne : [t0, t1] ≠ [] := by simp
  have hnew := new_of_words line n [t0, t1] hc hw hne
  have hp := parse_two_words t0 t1
  refine ⟨?_, ?_, ?_, ?_, ?_⟩
  · intro h0 h1
    rw [hnew, hp, h0, h1]
    rfl
  · intro h0 h1
    rw [hnew, hp, h0, h1]
    rfl
  · intro h0 h1
    have hp1 : parse_words [t0, t1] = .ok ([], t0, t1) := by
      rw [hp, h0, h1]; rfl
    refine ⟨hp1, ?_⟩
    intro ins hi
    obtain ⟨a, b, c⟩ := new_fields line n _ _ _ _ ins hc hw hne hp1 hi
    exact ⟨b, c, a⟩
  · intro h0 h1
    have hp1 : parse_words [t0, t1] = .ok (t0, t1, []) := by
      rw [hp, h0, h1]; rfl
    refine ⟨hp1, ?_⟩
    intro ins hi
    exact new_fields line n _ _ _ _ ins hc hw hne hp1 hi
  · rw [hp]
    cases is_keyword t0 <;> cases is_keyword t1 <;> simp

/-- C20 at a concrete input: the line `LDA ALPHA` has the tokens `LDA` and `ALPHA`, of
which only the first is a mnemonic. -/
theorem C20_two_token_line_witness :
    pop_empty_back (split_words "LDA ALPHA".toList [] []) = ["LDA".toList, "ALPHA".toList] ∧
    parse_words ["LDA".toList, "ALPHA".toList] = .ok ([], "LDA".toList, "ALPHA".toList) ∧
    (∀ ins, instruction.new "LDA ALPHA".toList 1 = .ok ins →
      ins.mnemonic = "LDA".toList ∧ ins.operand = "ALPHA".toList ∧ ins.label = []) ∧
    parse_words ["LDA".toList, "ALPHA".toList] ≠ .error .E_INTRL :=
  ⟨by decide,
   ((C20_two_token_line "LDA ALPHA".toList 1 "LDA".toList "ALPHA".toList
      (by decide) (by decide)).2.2.1 (by decide) (by decide)).1,
   ((C20_two_token_line "LDA ALPHA".toList 1 "LDA".toList "ALPHA".toList
      (by decide) (by decide)).2.2.1 (by decide) (by decide)).2,
   (C20_two_token_line "LDA ALPHA".toList 1 "LDA".toList "ALPHA".toList
      (by decide) (by decide)).2.2.2.2⟩

/-! ## C21: the table of sizes -/

/-- C21 (amended): for every line the constructor accepts, `size_in_memory` follows the
table: 3 for a machine operation; 0 for `START` and `END`; for `RESW` (`k = 3`) and
`RESB` (`k = 1`) the operand is decimal or hexadecimal, its value `v` (the value of the
decimal operand, or of the hex literal when its content consists of hex digits `0-9`,
`A-F`) fits an `int`, and the size is `k * v` when that product fits an `int` (in
general it is the 32-bit `int` the product leaves, `int_wrap (k * v)`); 3 for `WORD`;
1 for `BYTE` with a hex or decimal operand; the content length (operand length minus 3)
for `BYTE` with a character array; and 0 for comments and blank lines. -/
theorem C21_size_table (line : List Char) (n : Nat) (ins : instruction)
    (h : instruction.new line n = .ok ins) :
    (count OPTAB ins.mnemonic = true → ins.size_in_memory = 3) ∧
    (ins.mnemonic = "START".toList ∨ ins.mnemonic = "END".toList →
      ins.size_in_memory = 0) ∧
    (∀ k : Int, (ins.mnemonic = "RESW".toList ∧ k = 3) ∨
        (ins.mnemonic = "RESB".toList ∧ k = 1) →
      (ins.type_of_operand = .O_DECIM ∨ ins.type_of_operand = .O_HEXAD) ∧
      (ins.type_of_operand = .O_DECIM →
        decimal_value ins.operand ≤ 2147483647 ∧
        ins.size_in_memory = int_wrap (k * decimal_value ins.operand) ∧
        (k * decimal_value ins.operand ≤ 2147483647 →
          ins.size_in_memory = k * decimal_value ins.operand)) ∧
      (ins.type_of_operand = .O_HEXAD → ∀ content, ins.operand = hex_operand content →
        (∀ c ∈ content, is_upper_hex c = true) →
        ∃ v, hex_value content = some v ∧ v ≤ 2147483647 ∧
          ins.size_in_memory = int_wrap (k * v) ∧
          (k * v ≤ 2147483647 → ins.size_in_memory = k * v))) ∧
    (ins.mnemonic = "WORD".toList → ins.size_in_memory = 3) ∧
    (ins.mnemonic = "BYTE".toList →
      (ins.type_of_operand = .O_HEXAD ∨ ins.type_of_operand = .O_DECIM →
        ins.size_in_memory = 1) ∧
      (ins.type_of_operand = .O_CHRAR →
        ∃ content, content ≠ [] ∧ ins.operand = char_operand content ∧
          ins.size_in_memory = content.length ∧
          ins.size_in_memory = (ins.operand.length : Int) - 3)) ∧
    (ins.is_comment = true ∨ ins.is_blank = true → ins.size_in_memory = 0) := by
  rcases new_classified line n ins h with ⟨_, hm, hz⟩ | ⟨hc, hb, hty, hsz⟩
  · rw [hm]
    refine ⟨fun hx => absurd hx (by decide), fun _ => hz, ?_, fun hx => absurd hx (by decide),
      fun hx => absurd hx (by decide), fun _ => hz⟩
    intro k hx
    rcases hx with ⟨hx, _⟩ | ⟨hx, _⟩ <;> exact absurd hx (by decide)
  · refine ⟨?_, ?_, ?_, ?_, ?_, ?_⟩
    · intro hop
      unfold compute_size at hsz
      rw [hop, if_pos rfl] at hsz
      injection hsz with hsz
      exact hsz.symm
    · intro hx
      have hno : count OPTAB ins.mnemonic = false := by
        rcases hx with hx | hx <;> rw [hx] <;> decide
      unfold compute_size at hsz
      rw [hno, if_neg (by decide), if_pos hx] at hsz
      injection hsz with hsz
      exact hsz.symm
    · intro k hk
      have hk0 : 0 ≤ k := by rcases hk with ⟨_, hk⟩ | ⟨_, hk⟩ <;> omega
      obtain ⟨r1, r2, r3⟩ := compute_size_reserve _ _ _ _ k hk hty hsz
      refine ⟨r1, ?_, ?_⟩
      · intro hd
        obtain ⟨d1, d2⟩ := r2 hd
        refine ⟨d1, d2, ?_⟩
        intro hle
        rw [d2]
        apply int_wrap_of_range _ _ hle
        have : (0 : Int) ≤ k * (decimal_value ins.operand : Int) :=
          mul_nonneg hk0 (Int.natCast_nonneg _)
        omega
      · intro hx content hop hhex
        obtain ⟨v, v1, v2, v3⟩ := r3 hx content hop hhex
        refine ⟨v, v1, v2, v3, ?_⟩
        intro hle
        rw [v3]
        apply int_wrap_of_range _ _ hle
        have : (0 : Int) ≤ k * (v : Int) := mul_nonneg hk0 (Int.natCast_nonneg _)
        omega
    · intro hx
      rw [hx] at hsz
      unfold compute_size at hsz
      rw [if_neg (by decide), if_neg (by decide)] at hsz
      by_cases hl : ins.operand.length = 0
      · rw [if_pos hl] at hsz; cases hsz
      · rw [if_neg hl, if_neg (by decide), if_neg (by decide), if_pos rfl] at hsz
        injection hsz with hsz
        exact hsz.symm
    · intro hx
      rw [hx] at hsz
      exact compute_size_BYTE _ _ _ hty hsz
    · intro hx
      rw [hc, hb] at hx
      rcases hx with hx | hx <;> cases hx

/-- C21 at a concrete input: the line `BUF RESW 10` has the size `3 * 10`. -/
theorem C21_size_table_witness :
    ∃ ins, instruction.new "BUF RESW 10".toList 1 = .ok ins ∧
      ins.size_in_memory = 30 ∧
      ins.size_in_memory = 3 * decimal_value ins.operand :=
  ⟨_, rfl, rfl,
   (((C21_size_table "BUF RESW 10".toList 1 _ rfl).2.2.1 3 (Or.inl ⟨rfl, rfl⟩)).2.1
     rfl).2.2 (by decide)⟩

/-- C21 as stated fails.  The product of `RESW` is an `int`: `A RESW 1000000000` is
accepted with kind Decimal and the size `-1294967296`, not `3 * 1000000000`.  And the
constructor accepts any content in a hex operand: `A RESB X'1G'` is accepted with kind
Hex and size 1, where `1G` has no value as a hex literal, and `A RESB X'-5'` with the
size `-5`. -/
theorem C21_sizes_outside_the_table :
    (instruction.new "A RESW 1000000000".toList 2).map
        (fun ins => (ins.mnemonic, ins.type_of_operand, decimal_value ins.operand,
                     ins.size_in_memory))
      = .ok ("RESW".toList, OperandType.O_DECIM, 1000000000, -1294967296) ∧
    (instruction.new "A RESB X'1G'".toList 2).map
        (fun ins => (ins.mnemonic, ins.type_of_operand, ins.size_in_memory))
      = .ok ("RESB".toList, OperandType.O_HEXAD, 1) ∧
    hex_value "1G".toList = none ∧
    (instruction.new "A RESB X'-5'".toList 2).map
        (fun ins => (ins.mnemonic, ins.type_of_operand, ins.size_in_memory))
      = .ok ("RESB".toList, OperandType.O_HEXAD, -5) ∧
    hex_value "-5".toList = none := by
  refine ⟨rfl, rfl, rfl, rfl, rfl⟩

/-! ## C22: operands with a comma -/

/-- C22: for every operand with at least one comma, the classifier yields `O_INDXD` if
and only if the operand has exactly one comma and is a valid label (a letter followed by
letters and digits) followed by `,X`; every other operand with a comma is a fatal
error; and the comma case has priority: no other kind is ever given to an operand with a
comma. -/
theorem C22_comma_case (operand : List Char) (h : commas operand ≠ 0) :
    (classify_operand operand = .ok .O_INDXD ↔
      commas operand = 1 ∧ ∃ lbl, operand = lbl ++ ",X".toList ∧ valid_label lbl) ∧
    (¬ (commas operand = 1 ∧ ∃ lbl, operand = lbl ++ ",X".toList ∧ valid_label lbl) →
      ∃ e, classify_operand operand = .error e) ∧
    (∀ ty, classify_operand operand = .ok ty → ty = .O_INDXD) := by
  have hiff : classify_operand operand = .ok .O_INDXD ↔
      commas operand = 1 ∧ ∃ lbl, operand = lbl ++ ",X".toList ∧ valid_label lbl := by
    rw [classify_operand_comma operand h]
    constructor
    · intro hc
      split_ifs at hc with h1 h2
      rw [not_or, not_not] at h2
      obtain ⟨hlen, hc1, hc2⟩ := h2
      obtain ⟨ok, hl, hk⟩ := (bind_eq_ok _ _ _).mp hc
      have hok : ok = true := by
        cases ok with
        | false => cases hk
        | true => rfl
      subst hok
      refine ⟨by omega, operand.take (operand.length - 2), ?_, (is_label_format_true _).mp hl⟩
      have := last_two operand default (by omega)
      rw [hc1, hc2] at this
      exact this
    · rintro ⟨h1, lbl, hop, hv⟩
      have hlen : operand.length = lbl.length + 2 := by
        rw [hop, List.length_append]
        rfl
      have hg1 : operand.getD (operand.length - 2) default = Char.ofNat 44 := by
        rw [hlen, hop, Nat.add_sub_cancel, List.getD_append_right _ _ _ _ (le_refl _),
          Nat.sub_self]
        rfl
      have hg2 : operand.getD (operand.length - 1) default = Char.ofNat 88 := by
        have h3 : lbl.length + 2 - 1 = lbl.length + 1 := by omega
        have h4 : lbl.length + 1 - lbl.length = 1 := by omega
        rw [hlen, hop, h3, List.getD_append_right _ _ _ _ (by omega), h4]
        rfl
      have ht : operand.take (operand.length - 2) = lbl := by
        rw [hlen, hop]
        simp
      rw [if_neg (by omega), if_neg (by rw [not_or, not_not]; exact ⟨by omega, hg1, hg2⟩), ht,
        (is_label_format_true lbl).mpr hv]
      rfl
  refine ⟨hiff, ?_, ?_⟩
  · intro hn
    rcases classify_operand_comma_cases operand h with hc | hc
    · exact absurd (hiff.mp hc) hn
    · exact hc
  · intro ty hty
    rcases classify_operand_comma_cases operand h with hc | ⟨e, hc⟩
    · rw [hc] at hty
      injection hty with hty
      exact hty.symm
    · rw [hc] at hty
      cases hty

/-- C22 at a concrete input: `BUFFER,X` is indexed, and `BUFFER,Y`, which has a comma
and is not a label followed by `,X`, is a fatal error. -/
theorem C22_comma_case_witness :
    classify_operand "BUFFER,X".toList = .ok .O_INDXD ∧
    ∃ e, classify_operand "BUFFER,Y".toList = .error e :=
  ⟨(C22_comma_case "BUFFER,X".toList (by decide)).1.mpr
     ⟨by decide, "BUFFER".toList, by decide,
      ⟨Char.ofNat 66, "UFFER".toList, by decide, by decide, by decide⟩⟩,
   (C22_comma_case "BUFFER,Y".toList (by decide)).2.1
     (fun hx => by
       obtain ⟨_, lbl, hop, _⟩ := hx
       have h2 := congrArg List.getLast? hop
       rw [List.getLast?_append_of_ne_nil _ (by decide)] at h2
       exact absurd h2 (by decide))⟩

/-! ## C23: object code and reserved bytes -/

/-- C23 (amended): for every program that assembles successfully and every instruction to
which `pass_2` gave object code, the object code has exactly `2 * size_in_memory`
characters: the bytes emitted are the bytes `pass_1` reserved for it.  The characters are
uppercase hexadecimal digits when, for an operation other than `RSUB`, the address of its
operand label is not negative; for a `BYTE` with a hexadecimal literal, the content
between the quotes consists of such digits; and for a `BYTE` with a character array, the
content characters have the codes 1 to 127. -/
theorem C23_object_code_length (lines : List (List Char)) (g2 : Globals)
    (h : assemble lines = .ok g2) :
    ∀ ins ∈ g2.program, ins.has_object_code = true →
      (ins.object_code.length : Int) = 2 * ins.size_in_memory ∧
      ((count OPTAB ins.mnemonic = true → ins.mnemonic ≠ "RSUB".toList →
          0 ≤ at_key g2.SYMTAB (final_opd ins)) →
       (ins.mnemonic = "BYTE".toList → ins.type_of_operand = .O_HEXAD →
          ∀ c ∈ (ins.operand.drop 2).take (ins.operand.length - 3),
            is_upper_hex c = true) →
       (ins.mnemonic = "BYTE".toList → ins.type_of_operand = .O_CHRAR →
          ∀ c ∈ (ins.operand.drop 2).take (ins.operand.length - 3),
            1 ≤ c.toNat ∧ c.toNat ≤ 127) →
       ∀ c ∈ ins.object_code, is_upper_hex c = true) := by
  intro ins hin hoc
  constructor
  · rcases assemble_object_code lines g2 h ins hin with ⟨h1, _⟩ | ⟨h1, _⟩
    · rw [h1] at hoc
      cases hoc
    · exact h1
  · exact assemble_object_code_hex lines g2 h ins hin

/-- C23 at a concrete input: in Scenario A the object codes of `FIRST LDA ALPHA` and
`ALPHA WORD 5` have six characters each, for sizes of three bytes, and all of them are
uppercase hexadecimal digits (the address of `ALPHA` is `0x1003`, not negative). -/
theorem C23_object_code_length_witness :
    ∃ g, assemble scenario_A = .ok g ∧
      g.program.map (fun ins => (ins.object_code, ins.size_in_memory))
        = [([], 0), ("001003".toList, 3), ("000005".toList, 3), ([], 0)] ∧
      (∀ ins ∈ g.program, ins.has_object_code = true →
        (ins.object_code.length : Int) = 2 * ins.size_in_memory) ∧
      (∀ ins ∈ g.program, ins.has_object_code = true →
        ∀ c ∈ ins.object_code, is_upper_hex c = true) :=
  ⟨_, rfl, rfl,
   fun ins hin hoc => (C23_object_code_length scenario_A _ rfl ins hin hoc).1,
   fun ins hin hoc => (C23_object_code_length scenario_A _ rfl ins hin hoc).2
     ((by decide : ∀ ins ∈ _, count OPTAB ins.mnemonic = true →
        ins.mnemonic ≠ "RSUB".toList →
        0 ≤ at_key [("COPY".toList, 4096), ("FIRST".toList, 4096), ("ALPHA".toList, 4099)]
          (final_opd ins)) ins hin)
     ((by decide : ∀ ins ∈ _, ins.mnemonic = "BYTE".toList →
        ins.type_of_operand = .O_HEXAD →
        ∀ c ∈ (ins.operand.drop 2).take (ins.operand.length - 3),
          is_upper_hex c = true) ins hin)
     ((by decide : ∀ ins ∈ _, ins.mnemonic = "BYTE".toList →
        ins.type_of_operand = .O_CHRAR →
        ∀ c ∈ (ins.operand.drop 2).take (ins.operand.length - 3),
          1 ≤ c.toNat ∧ c.toNat ≤ 127) ins hin)⟩

/-- C23 as stated fails: the object code is not always made of hexadecimal digits.  The
`BYTE` of `byte_GZ` gets the object code `GZ`; the `BYTE` of `byte_char_E9`, whose content
byte is above 127, gets `/)`; and the `LDA` of `negative_address`, whose operand label
`B` sits at `-5`, gets `00000+`.  Each has two characters for each byte of its size. -/
theorem C23_object_code_not_hex :
    (assemble byte_GZ).map (fun g => g.program.map
        (fun ins => (ins.mnemonic, ins.has_object_code, ins.object_code, ins.size_in_memory)))
      = .ok [("START".toList, false, [], 0), ("BYTE".toList, true, "GZ".toList, 1),
             ("END".toList, false, [], 0)] ∧
    "GZ".toList.all is_upper_hex = false ∧
    (assemble byte_char_E9).map (fun g => g.program.map
        (fun ins => (ins.mnemonic, ins.has_object_code, ins.object_code, ins.size_in_memory)))
      = .ok [("START".toList, false, [], 0), ("BYTE".toList, true, "/)".toList, 1),
             ("END".toList, false, [], 0)] ∧
    "/)".toList.all is_upper_hex = false ∧
    (assemble negative_address).map (fun g => (find g.SYMTAB "B".toList, g.program.map
        (fun ins => (ins.mnemonic, ins.has_object_code, ins.object_code, ins.size_in_memory))))
      = .ok (some (-5),
            [("START".toList, false, [], 0), ("RESB".toList, false, [], -5),
             ("WORD".toList, true, "000005".toList, 3),
             ("LDA".toList, true, "00000+".toList, 3), ("END".toList, false, [], 0)]) ∧
    "00000+".toList.all is_upper_hex = false := by
  refine ⟨rfl, rfl, rfl, rfl, rfl, rfl⟩

/-! ## C24: text records are address-contiguous -/

/-- C24: for every program that assembles successfully, the text records are made from
consecutive runs `srcs` of the content-bearing instructions before the first `END`, in
order, such that for every text record `tr`: its fragments are the object codes of
`srcs`; the instruction that contributed the `k`-th fragment is located at the starting
address of `tr` plus half the total length of the fragments before it; and the length
field `total_length / 2` is the number of bytes of `srcs`. -/
theorem C24_text_records_contiguous (lines : List (List Char)) (g2 : Globals)
    (h : assemble lines = .ok g2) :
    ∃ groups : List (List instruction),
      groups.flatten = (before_END g2.program).filter is_content ∧
      List.Forall₂ (fun tr srcs =>
          tr.records = srcs.map (fun c => c.object_code) ∧
          (∀ k c, srcs[k]? = some c →
            c.location = tr.starting_address
              + ((((tr.records.take k).map List.length).sum : Nat) : Int) / 2) ∧
          ((tr.total_length / 2 : Nat) : Int)
            = (srcs.map (fun c => c.size_in_memory)).sum)
        g2.text_records groups := by
  obtain ⟨groups, hF, hfl⟩ := assemble_records lines g2 h
  refine ⟨groups, hfl, hF.imp ?_⟩
  intro tr srcs hr
  obtain ⟨b1, b2, b3, b4⟩ := hr
  refine ⟨b1, ?_, ?_⟩
  · intro k c hk
    have h4 := b4 k c hk
    have hsum : ((((tr.records.take k).map List.length).sum : Nat) : Int)
        = (((srcs.take k).map (fun s => s.object_code.length)).sum : Int) := by
      rw [b1, ← List.map_take, List.map_map, Nat.cast_list_sum, List.map_map]
      rfl
    rw [hsum, ← h4]
    omega
  · have hs := sum_lengths srcs b3
    have ht : tr.total_length = (srcs.map (fun c => c.object_code.length)).sum := by
      rw [b2, b1, List.map_map]
      rfl
    rw [ht]
    omega

/-- C24 at a concrete input: in `gap_program` the two text records are made from
`FIRST LDA BUF` at `0x1000` and from `SECOND STA BUF` at `0x1006`. -/
theorem C24_text_records_contiguous_witness :
    ∃ g, assemble gap_program = .ok g ∧
      g.text_records.map (fun tr => (tr.starting_address, tr.total_length, tr.records))
        = [(0x1000, 6, ["001003".toList]), (0x1006, 6, ["0C1003".toList])] ∧
      ∃ groups : List (List instruction),
        groups.flatten = (before_END g.program).filter is_content ∧
        List.Forall₂ (fun tr srcs =>
            tr.records = srcs.map (fun c => c.object_code) ∧
            (∀ k c, srcs[k]? = some c →
              c.location = tr.starting_address
                + ((((tr.records.take k).map List.length).sum : Nat) : Int) / 2) ∧
            ((tr.total_length / 2 : Nat) : Int)
              = (srcs.map (fun c => c.size_in_memory)).sum)
          g.text_records groups :=
  ⟨_, rfl, rfl, C24_text_records_contiguous gap_program _ rfl⟩

/-! ## C25: the opcode table -/

/-- C25 (the code at the failing input): `populate_OPTAB` gives `DIV` the value `24`
(decimal, where every other entry is written in hexadecimal), which is `0x18`, the
value of `ADD`; so `FIRST DIV FIRST` and `FIRST ADD FIRST` get the same object code
`181000`.  `ADD` and `DIV` are the only two mnemonics of `OPTAB` that share a value. -/
theorem C25_DIV_shares_opcode_of_ADD :
    find OPTAB "ADD".toList = some 0x18 ∧ find OPTAB "DIV".toList = some 0x18 ∧
    (assemble add_FIRST).map (fun g => g.text_records.map text_record.to_string)
      = .ok ["T^001000^03^181000".toList] ∧
    (assemble div_FIRST).map (fun g => g.text_records.map text_record.to_string)
      = .ok ["T^001000^03^181000".toList] ∧
    ∀ p ∈ OPTAB, ∀ q ∈ OPTAB, p.1 ≠ q.1 → p.2 = q.2 →
      (p.1 = "ADD".toList ∧ q.1 = "DIV".toList) ∨
      (p.1 = "DIV".toList ∧ q.1 = "ADD".toList) := by
  refine ⟨rfl, rfl, rfl, rfl, ?_⟩
  decide

end Assembler
